import Mathlib

/-!
# ntrdma user-space provider: the fast path of `providers/ntrdma/dev.c`

A shallow embedding of the three functions of `dev.c` that carry the
encode / batch / notify / decode protocol:

* `make_ntrdma_send_wqe` (lines 43-108), the work-queue-entry encoder;
* `ntrdma_post_send` (lines 464-532), the batched submission loop;
* `ntrdma_poll_cq` (lines 270-334), the completion polling loop.

Conventions of the embedding.

* A pointer into a scratch buffer is the byte offset from the start of the
  buffer.  The buffer is typed memory: the record header found at an offset,
  the scatter-gather descriptor found at an offset and the raw byte found at an
  offset are three maps, written by field assignments, by the descriptor
  `memcpy` and by the payload `memcpy` respectively.
* `struct ibv_send_wr` chains (`next` pointers ending in `NULL`) are lists; a
  pointer to a request is the chain starting at that request, `NULL` is `[]`.
  The counted array `sg_list[0 .. num_sge-1]` is a list and `num_sge` its
  length.
* `int` values are `Int`.  `num_sge` is an `int`, so `num_sge * sizeof(struct
  ibv_sge)` stays below `2^35` and the running inline sum is compared with the
  free space after every addition: no `size_t` computation of the encoder
  wraps, and none is reduced modulo `2^64` here.  The counts the counterpart
  leaves in the batch header and in the poll header are natural numbers.
* The privileged counterpart behind `ioctl` is a script: the answer to the
  n-th notification of a call (for polling, given the count the poll header
  holds).  A theorem for all scripts holds for every counterpart.
* A loop returns `Except.ok` with what it leaves behind; `Except.error` tells
  that the model ran out of `fuel` or that the code followed `next` of `NULL`.
* The mutex of a queue pair or completion queue serialises the calls; one call
  is modelled, from `pthread_mutex_lock` to `pthread_mutex_unlock`.
-/

namespace Ntrdma

/-! ## Constants and sizes that `dev.c` takes from headers -/

/-- The sizes and enumerators `dev.c` uses but does not declare: they come from
`ntrdma_ioctl.h`, `ntrdma.h`, `infiniband/verbs.h` and `errno.h`, and are
parameters of every definition below. -/
structure Abi where
  /-- Value of `sizeof(struct ntrdma_send_wqe)`, the fixed record header. -/
  sizeof_wqe : Nat
  /-- Value of `sizeof(struct ibv_sge)`, one scatter-gather descriptor. -/
  sizeof_sge : Nat
  /-- Value of `sizeof(struct ntrdma_snd_hdr)`, the batch header. -/
  sizeof_snd_hdr : Nat
  /-- Value of `sizeof(struct ntrdma_poll_hdr)`, the poll header. -/
  sizeof_poll_hdr : Nat
  /-- Value of `sizeof(struct ibv_wc)`, one completion record. -/
  sizeof_wc : Nat
  /-- Enumerator `IBV_WR_RDMA_WRITE` of `enum ibv_wr_opcode`. -/
  IBV_WR_RDMA_WRITE : Nat
  /-- Enumerator `IBV_SEND_INLINE` of `enum ibv_send_flags`, a bit mask. -/
  IBV_SEND_INLINE : Nat
  /-- Value of `ENOMEM`. -/
  ENOMEM : Nat
  /-- Value of `EINVAL`. -/
  EINVAL : Nat

/-- One choice of the parameters, on which the definitions are evaluated below:
16-byte descriptors, `IBV_WR_RDMA_WRITE = 0`, `IBV_SEND_INLINE = 8`,
`ENOMEM = 12` and `EINVAL = 22` as in `verbs.h` and the Linux `errno.h`, with a
48-byte record header, an 8-byte batch header, a 4-byte poll header and 48-byte
completion records. -/
def sample_abi : Abi where
  sizeof_wqe := 48
  sizeof_sge := 16
  sizeof_snd_hdr := 8
  sizeof_poll_hdr := 4
  sizeof_wc := 48
  IBV_WR_RDMA_WRITE := 0
  IBV_SEND_INLINE := 8
  ENOMEM := 12
  EINVAL := 22

/-! ## Data model -/

/-- Modelled from the spec: the scatter-gather element `struct ibv_sge`
(address, length, local key) is declared in `infiniband/verbs.h`, outside the
sources at hand. -/
structure ibv_sge where
  addr : Nat
  length : Nat
  lkey : Nat
deriving DecidableEq

/-- Modelled from the spec: the work request `struct ibv_send_wr` is declared
in `infiniband/verbs.h`, outside the sources at hand.  The fields are the ones
`dev.c` reads, without the `next` pointer (a chain is a list of requests);
`remote_addr` and `rkey` are `wr.rdma.remote_addr` and `wr.rdma.rkey`. -/
structure ibv_send_wr where
  wr_id : Nat
  sg_list : List ibv_sge
  opcode : Nat
  send_flags : Nat
  imm_data : Nat
  remote_addr : Nat
  rkey : Nat
deriving DecidableEq

/-- The field `num_sge`: the number of elements of `sg_list`. -/
def ibv_send_wr.num_sge (swr : ibv_send_wr) : Nat := swr.sg_list.length

/-- Modelled from the spec: `struct ntrdma_send_wqe` is declared in
`ntrdma_ioctl.h`, which is not part of the sources at hand.  The fields are the
ones `dev.c` assigns; `sg_count` and `inline_len` are the two members of the
union the spec describes and share the one cell `sg_count_inline_len`. -/
structure ntrdma_send_wqe where
  ulp_handle : Nat
  op_code : Nat
  recv_key : Nat
  rdma_sge_addr : Nat
  rdma_sge_lkey : Nat
  imm_data : Nat
  flags : Nat
  sg_count_inline_len : Nat
deriving DecidableEq

/-- The scratch buffer of a queue pair, `qp->buffer`.  `wqe_counter` and
`first_wqe_size` are the two fields `dev.c` uses of the `struct ntrdma_snd_hdr`
at offset 0 (declared in `ntrdma_ioctl.h`); `wqe`, `sge` and `byte` give the
record header, the descriptor and the raw byte stored at a byte offset. -/
structure send_buffer where
  wqe_counter : Nat
  first_wqe_size : Nat
  wqe : Nat → ntrdma_send_wqe
  sge : Nat → ibv_sge
  byte : Nat → Nat

/-! ## `make_ntrdma_send_wqe` -/

/-- The call `memcpy(dst_base + d, src_base + s, len)` on byte maps. -/
def memcpy (dst : Nat → Nat) (d : Nat) (src : Nat → Nat) (s len : Nat) : Nat → Nat :=
  fun a => if d ≤ a ∧ a < d + len then src (s + (a - d)) else dst a

/-- The call `memcpy(dst, sg_list, num_sge * sizeof(struct ibv_sge))`: the
descriptors of the array land one after the other, `sz` bytes apart. -/
def memcpy_sge (sz : Nat) : (Nat → ibv_sge) → Nat → List ibv_sge → Nat → ibv_sge
  | m, _, [] => m
  | m, d, s :: rest => memcpy_sge sz (fun a => if a = d then s else m a) (d + sz) rest

/-- Lines 61-63: a single-segment RDMA write of at most 8 bytes gets
`IBV_SEND_INLINE` or-ed into the `send_flags` of the caller's request. -/
def auto_inline (abi : Abi) (swr : ibv_send_wr) : ibv_send_wr :=
  match swr.sg_list with
  | [sg] =>
    if swr.opcode = abi.IBV_WR_RDMA_WRITE ∧ sg.length ≤ 8 then
      { swr with send_flags := swr.send_flags ||| abi.IBV_SEND_INLINE }
    else swr
  | _ => swr

/-- Lines 65-66: the local `is_inline`, read from the request after line 63. -/
def is_inline (abi : Abi) (swr : ibv_send_wr) : Bool :=
  decide (swr.opcode = abi.IBV_WR_RDMA_WRITE) &&
    decide (swr.send_flags &&& abi.IBV_SEND_INLINE ≠ 0)

/-- Lines 69-73: the loop that sums the segment lengths into `tail_size` and
leaves with `-ENOMEM` (here `none`) as soon as the running sum exceeds the free
space. -/
def inline_tail_size (available_size : Int) : List ibv_sge → Nat → Option Nat
  | [], tail_size => some tail_size
  | sg :: rest, tail_size =>
    if available_size < ((tail_size + sg.length : Nat) : Int) then none
    else inline_tail_size available_size rest (tail_size + sg.length)

/-- Lines 97-103: the loop that copies the payload of each segment behind the
header; a zero-length segment is skipped by `continue`, and `ptr += len` runs
in either case. -/
def copy_inline (mem : Nat → Nat) : List ibv_sge → Nat → (Nat → Nat) → Nat → Nat
  | [], _, b => b
  | sg :: rest, ptr, b =>
    if sg.length = 0 then copy_inline mem rest (ptr + sg.length) b
    else copy_inline mem rest (ptr + sg.length) (memcpy b ptr mem sg.addr sg.length)

/-- What a call of `make_ntrdma_send_wqe` leaves behind: its return value, the
scratch buffer and the caller's request. -/
structure wqe_result where
  rc : Int
  buf : send_buffer
  swr : ibv_send_wr

/-- Lines 82-91: the header assignments.  `recv_key` is not assigned. -/
def write_header (abi : Abi) (old : ntrdma_send_wqe) (swr : ibv_send_wr)
    (tail_size : Nat) : ntrdma_send_wqe :=
  { old with
    ulp_handle := swr.wr_id
    op_code := swr.opcode
    rdma_sge_addr := swr.remote_addr
    rdma_sge_lkey := swr.rkey
    imm_data := swr.imm_data
    flags := swr.send_flags
    sg_count_inline_len := if is_inline abi swr then tail_size else swr.num_sge }

/-- Lines 82-107, after the size checks have passed: the header assignments,
the copy of the tail to `wqe + 1` unless `tail_size` is zero, and the return of
`rc`, the value of `available_size_in - available_size`. -/
def write_wqe (abi : Abi) (mem : Nat → Nat) (buf : send_buffer) (wqe : Nat)
    (swr : ibv_send_wr) (tail_size : Nat) (rc : Int) : wqe_result :=
  let buf1 : send_buffer :=
    { buf with wqe := fun a => if a = wqe then write_header abi (buf.wqe wqe) swr tail_size
                               else buf.wqe a }
  if tail_size = 0 then ⟨rc, buf1, swr⟩
  else if is_inline abi swr then
    ⟨rc, { buf1 with byte := copy_inline mem swr.sg_list (wqe + abi.sizeof_wqe) buf1.byte }, swr⟩
  else
    ⟨rc, { buf1 with sge := memcpy_sge abi.sizeof_sge buf1.sge (wqe + abi.sizeof_wqe) swr.sg_list },
      swr⟩

/-- The encoder `make_ntrdma_send_wqe(wqe, swr, available_size)` of lines
43-108.  `wqe` is the offset of the record in the scratch buffer `buf`, `mem`
the caller's memory the segments point into. -/
def make_ntrdma_send_wqe (abi : Abi) (mem : Nat → Nat) (buf : send_buffer) (wqe : Nat)
    (swr : ibv_send_wr) (available_size : Int) : wqe_result :=
  let available_size_in : Int := available_size
  if available_size < (abi.sizeof_wqe : Int) then ⟨-(abi.ENOMEM : Int), buf, swr⟩
  else
    let available_size1 : Int := available_size - (abi.sizeof_wqe : Int)
    let swr1 := auto_inline abi swr
    if is_inline abi swr1 then
      match inline_tail_size available_size1 swr1.sg_list 0 with
      | none => ⟨-(abi.ENOMEM : Int), buf, swr1⟩
      | some tail_size =>
        let available_size2 : Int := available_size1 - (tail_size : Int)
        write_wqe abi mem buf wqe swr1 tail_size (available_size_in - available_size2)
    else
      let tail_size := swr1.num_sge * abi.sizeof_sge
      if available_size1 < (tail_size : Int) then ⟨-(abi.ENOMEM : Int), buf, swr1⟩
      else
        let available_size2 : Int := available_size1 - (tail_size : Int)
        write_wqe abi mem buf wqe swr1 tail_size (available_size_in - available_size2)

/-! ## `ntrdma_post_send` -/

/-- The queue pair `struct ntrdma_qp` as far as `ntrdma_post_send` reads it: the
notification handle `fd`, the scratch `buffer` and its size `buffer_size`. -/
structure ntrdma_qp where
  fd : Int
  buffer : send_buffer
  buffer_size : Nat

/-- The answer of the privileged counterpart to one
`ioctl(qp->fd, NTRDMA_IOCTL_SEND)`: the value returned, the `errno` it leaves and
the value it leaves in `hdr->wqe_counter`. -/
structure send_answer where
  rc : Int
  errno : Int
  wqe_counter : Nat

/-- The two places the pointer `wqehdr` points to: `&hdr->first_wqe_size`
(line 488) or `&wqe->recv_key` of the record at an offset (line 498). -/
inductive size_cell where
  | first_wqe_size
  | recv_key (wqe : Nat)
deriving DecidableEq

/-- The assignment `*wqehdr = rc` of line 496. -/
def store_size (buf : send_buffer) (wqehdr : size_cell) (rc : Nat) : send_buffer :=
  match wqehdr with
  | size_cell.first_wqe_size => { buf with first_wqe_size := rc }
  | size_cell.recv_key wqe =>
    { buf with wqe := fun a => if a = wqe then { buf.wqe wqe with recv_key := rc } else buf.wqe a }

/-- The state in which the inner loop of lines 489-499 leaves: the scratch
buffer, the requests it packed (as the encoder left them, in chain order), the
chain `swr` still points to, `wqe_counter`, `offset` and `rc`. -/
structure round_result where
  buf : send_buffer
  packed : List ibv_send_wr
  rest : List ibv_send_wr
  wqe_counter : Nat
  offset : Nat
  rc : Int

/-- The inner loop of lines 489-499, entered with the buffer, `wqehdr`,
`offset`, `wqe_counter`, `rc` and `swr` of the moment. -/
def pack_round (abi : Abi) (mem : Nat → Nat) (buffer_size : Nat) :
    send_buffer → size_cell → Nat → Nat → Int → List ibv_send_wr → round_result
  | buf, _, offset, wqe_counter, rc, [] => ⟨buf, [], [], wqe_counter, offset, rc⟩
  | buf, wqehdr, offset, wqe_counter, _, swr :: next =>
    let r := make_ntrdma_send_wqe abi mem buf offset swr ((buffer_size : Int) - (offset : Int))
    if r.rc < 0 then ⟨r.buf, [], r.swr :: next, wqe_counter, offset, r.rc⟩
    else
      let t := pack_round abi mem buffer_size (store_size r.buf wqehdr r.rc.toNat)
        (size_cell.recv_key offset) (offset + r.rc.toNat) (wqe_counter + 1) r.rc next
      { t with packed := r.swr :: t.packed }

/-- Lines 486-499: one round of packing, started with `wqehdr` at
`&hdr->first_wqe_size`, `wqe_counter = 0` and `offset = sizeof(*hdr)`. -/
def send_round (abi : Abi) (mem : Nat → Nat) (buffer_size : Nat) (buf : send_buffer) (rc : Int)
    (swr : List ibv_send_wr) : round_result :=
  pack_round abi mem buffer_size buf size_cell.first_wqe_size abi.sizeof_snd_hdr 0 rc swr

/-- The walk of lines 519-521: `wqe_counter` times `swr = swr->next`.  Following
`next` of `NULL` has no defined result (`none`). -/
def walk_next : Nat → List ibv_send_wr → Option (List ibv_send_wr)
  | 0, swr => some swr
  | _ + 1, [] => none
  | n + 1, _ :: next => walk_next n next

/-- One notification as the counterpart finds it: the scratch buffer at the
moment of the `ioctl`, the position in the chain of the round's first request
`swr_first`, and the requests whose records the round wrote. -/
structure notification where
  buf : send_buffer
  first : Nat
  packed : List ibv_send_wr

/-- What a call of `ntrdma_post_send` leaves behind: the value returned, `*bad`,
the caller's chain, the scratch buffer, and the notifications issued, in
order. -/
structure post_send_result where
  rc : Int
  bad : List ibv_send_wr
  chain : List ibv_send_wr
  buf : send_buffer
  rounds : List notification

/-- The two ways the model of a loop can end without a result. -/
inductive fault where
  | out_of_fuel
  | null_dereference
deriving DecidableEq

/-- Lines 516-517: a return value of -1 with a positive `errno` becomes
`-errno`. -/
def errno_rc (rc errno : Int) : Int :=
  if rc = -1 ∧ 0 < errno then -errno else rc

/-- The outer loop of lines 485-523 followed by lines 527-531.  `done` holds the
requests of the chain before `swr`, `rounds` the notifications issued so far;
`ioctl n` is the answer to the n-th notification of the call.  Each iteration
that goes on leaves a shorter chain, and `fuel` bounds the iterations. -/
def post_send_loop (abi : Abi) (mem : Nat → Nat) (buffer_size : Nat)
    (ioctl : Nat → send_answer) :
    Nat → send_buffer → Int → List ibv_send_wr → List ibv_send_wr → List notification →
      Except fault post_send_result
  | _, buf, rc, done, [], rounds => Except.ok ⟨rc, [], done, buf, rounds⟩
  | 0, _, _, _, _ :: _, _ => Except.error fault.out_of_fuel
  | fuel + 1, buf, rc, done, swr :: next, rounds =>
    let r := send_round abi mem buffer_size buf rc (swr :: next)
    if r.wqe_counter = 0 then
      Except.ok ⟨r.rc, r.rest, done ++ (r.packed ++ r.rest), r.buf, rounds⟩
    else
      let buf1 : send_buffer := { r.buf with wqe_counter := r.wqe_counter }
      let answer := ioctl rounds.length
      let buf2 : send_buffer := { buf1 with wqe_counter := answer.wqe_counter }
      let rounds1 := rounds ++ [⟨buf1, done.length, r.packed⟩]
      if 0 ≤ answer.rc then
        post_send_loop abi mem buffer_size ioctl fuel buf2 answer.rc (done ++ r.packed) r.rest
          rounds1
      else
        match walk_next answer.wqe_counter (r.packed ++ r.rest) with
        | none => Except.error fault.null_dereference
        | some bad =>
          Except.ok ⟨errno_rc answer.rc answer.errno, bad, done ++ (r.packed ++ r.rest), buf2,
            rounds1⟩

/-- The fast path of `ntrdma_post_send` (lines 483-531): `rc = 0`, then the
outer loop on the caller's chain.  The chain length bounds the number of
rounds. -/
def post_send_fast (abi : Abi) (mem : Nat → Nat) (qp : ntrdma_qp) (ioctl : Nat → send_answer)
    (swr : List ibv_send_wr) : Except fault post_send_result :=
  post_send_loop abi mem qp.buffer_size ioctl swr.length qp.buffer 0 [] swr []

/-- The function `ntrdma_post_send(_qp, swr, bad)` of lines 464-532.  Without a
notification handle (`qp->fd < 0`) the chain goes to `ibv_cmd_post_send`, which
is outside `dev.c` and a parameter here. -/
def ntrdma_post_send (abi : Abi) (mem : Nat → Nat)
    (ibv_cmd_post_send : List ibv_send_wr → post_send_result) (qp : ntrdma_qp)
    (ioctl : Nat → send_answer) (swr : List ibv_send_wr) : Except fault post_send_result :=
  if qp.fd < 0 then Except.ok (ibv_cmd_post_send swr)
  else post_send_fast abi mem qp ioctl swr

/-! ## `ntrdma_poll_cq` -/

/-- Modelled from the spec: the completion record `struct ibv_wc` is declared
in `infiniband/verbs.h`, outside the sources at hand, and is opaque to `dev.c`,
which copies these records whole; three of its fields stand for the content. -/
structure ibv_wc where
  wr_id : Nat
  status : Nat
  byte_len : Nat
deriving DecidableEq

/-- The scratch buffer of a completion queue, `cq->buffer`: the field
`wc_counter` of the `struct ntrdma_poll_hdr` at offset 0, and the completion
record stored at a byte offset. -/
structure poll_buffer where
  wc_counter : Int
  wc : Nat → ibv_wc

/-- The completion queue `struct ntrdma_cq` as far as `ntrdma_poll_cq` reads it. -/
structure ntrdma_cq where
  fd : Int
  buffer : poll_buffer
  buffer_size : Nat

/-- The answer of the privileged counterpart to one
`ioctl(cq->fd, NTRDMA_IOCTL_POLL)`: the value returned, the `errno` it leaves,
the value it leaves in `hdr->wc_counter` and the completion records it leaves in
the buffer, by byte offset. -/
structure poll_answer where
  rc : Int
  errno : Int
  wc_counter : Nat
  wc : Nat → ibv_wc

/-- The call `memcpy(wc + total, cq->buffer + sizeof(*hdr) + sizeof(*wc) * total,
sizeof(*wc) * resp_entries)` of lines 315-317: entry `total + j` of the caller's
array receives the record at offset `sizeof(*hdr) + sizeof(*wc) * (total + j)`
of the scratch buffer. -/
def copy_wc (abi : Abi) (buffer : Nat → ibv_wc) (wc : Nat → ibv_wc) (total resp_entries : Nat) :
    Nat → ibv_wc :=
  fun i =>
    if total ≤ i ∧ i < total + resp_entries then
      buffer (abi.sizeof_poll_hdr + abi.sizeof_wc * i)
    else wc i

/-- One iteration of the loop of lines 299-324 as the log keeps it: the count
written to the poll header, the answer of the counterpart, the number of
records the iteration copied to the caller's array, and the byte range of the
scratch buffer the copy read, from `src` up to `src_end`. -/
structure poll_round where
  req_entries : Int
  answer : poll_answer
  copied : Nat
  src : Nat
  src_end : Nat

/-- The variables the loop of lines 299-324 leaves behind, with the log of its
iterations. -/
structure poll_state where
  rc : Int
  total : Int
  num_entries : Int
  wc : Nat → ibv_wc
  buffer : poll_buffer
  rounds : List poll_round

/-- The loop of lines 299-324.  `ioctl n req` is the answer to the n-th
notification of the call when the poll header holds `req`; `fuel` bounds the
iterations. -/
def poll_loop (abi : Abi) (ioctl : Nat → Int → poll_answer) (max_entries : Int) :
    Nat → poll_state → Except fault poll_state
  | fuel, st =>
    if st.num_entries = 0 then Except.ok st
    else
      match fuel with
      | 0 => Except.error fault.out_of_fuel
      | fuel + 1 =>
        let req_entries : Int := if st.num_entries > max_entries then max_entries
          else st.num_entries
        let answer := ioctl st.rounds.length req_entries
        let rc := errno_rc answer.rc answer.errno
        let buffer : poll_buffer := ⟨answer.wc_counter, answer.wc⟩
        if rc < 0 then
          Except.ok { st with rc := rc, buffer := buffer,
                              rounds := st.rounds ++ [⟨req_entries, answer, 0, 0, 0⟩] }
        else
          let resp_entries : Int := buffer.wc_counter
          if resp_entries = 0 then
            Except.ok { st with rc := rc, buffer := buffer,
                                rounds := st.rounds ++ [⟨req_entries, answer, 0, 0, 0⟩] }
          else
            let src := abi.sizeof_poll_hdr + abi.sizeof_wc * st.total.toNat
            let st1 : poll_state :=
              { rc := rc
                total := st.total + resp_entries
                num_entries := st.num_entries - resp_entries
                wc := copy_wc abi buffer.wc st.wc st.total.toNat answer.wc_counter
                buffer := buffer
                rounds := st.rounds ++
                  [⟨req_entries, answer, answer.wc_counter, src,
                    src + abi.sizeof_wc * answer.wc_counter⟩] }
            if resp_entries < req_entries then Except.ok st1
            else poll_loop abi ioctl max_entries fuel st1

/-- What a call of `ntrdma_poll_cq` leaves behind: the value returned, the
caller's array `wc`, the number of records copied into it, the scratch buffer,
the iterations of the loop (one notification each), and the number of calls of
`ibv_cmd_poll_cq`. -/
structure poll_result where
  rc : Int
  wc : Nat → ibv_wc
  total : Int
  buffer : poll_buffer
  rounds : List poll_round
  cmd_calls : Nat

/-- The function `ntrdma_poll_cq(_cq, num_entries, wc)` of lines 270-334.
Without a notification handle (`cq->fd < 0`) the request goes to
`ibv_cmd_poll_cq`, which is outside `dev.c` and a parameter here: it gives the
value returned and the caller's array. -/
def ntrdma_poll_cq (abi : Abi) (ibv_cmd_poll_cq : Int → (Nat → ibv_wc) → Int × (Nat → ibv_wc))
    (cq : ntrdma_cq) (ioctl : Nat → Int → poll_answer) (fuel : Nat) (num_entries : Int)
    (wc : Nat → ibv_wc) : Except fault poll_result :=
  if num_entries < 0 then Except.ok ⟨-(abi.EINVAL : Int), wc, 0, cq.buffer, [], 0⟩
  else if num_entries = 0 then Except.ok ⟨0, wc, 0, cq.buffer, [], 0⟩
  else if cq.fd < 0 then
    Except.ok ⟨(ibv_cmd_poll_cq num_entries wc).1, (ibv_cmd_poll_cq num_entries wc).2, 0,
      cq.buffer, [], 1⟩
  else
    let max_entries : Int := ((cq.buffer_size - abi.sizeof_poll_hdr) / abi.sizeof_wc : Nat)
    match poll_loop abi ioctl max_entries fuel ⟨0, 0, num_entries, wc, cq.buffer, []⟩ with
    | Except.error e => Except.error e
    | Except.ok st =>
      Except.ok ⟨if st.total ≠ 0 then st.total else st.rc, st.wc, st.total, st.buffer,
        st.rounds, 0⟩

/-! ## Reading a record back -/

/-- The sum of the `length` fields of a segment list. -/
def sum_length (l : List ibv_sge) : Nat := (l.map ibv_sge.length).sum

/-- The payload a segment list describes: the bytes of each segment in the
caller's memory, in list order. -/
def payload (mem : Nat → Nat) (l : List ibv_sge) : List Nat :=
  l.flatMap fun sg => (List.range sg.length).map fun i => mem (sg.addr + i)

/-- The size of the tail the encoder writes for a request: the summed segment
lengths in the inline layout, `num_sge * sizeof(struct ibv_sge)` in the list
layout. -/
def tail_size (abi : Abi) (swr : ibv_send_wr) : Nat :=
  if is_inline abi (auto_inline abi swr) then sum_length swr.sg_list
  else swr.num_sge * abi.sizeof_sge

/-- The encoded size of a request, header plus tail. -/
def wqe_size (abi : Abi) (swr : ibv_send_wr) : Nat := abi.sizeof_wqe + tail_size abi swr

/-- The `len` bytes stored from offset `p` on. -/
def read_bytes (b : Nat → Nat) (p len : Nat) : List Nat :=
  (List.range len).map fun i => b (p + i)

/-- The `n` descriptors stored from offset `p` on, `sz` bytes apart. -/
def read_sges (sz : Nat) (m : Nat → ibv_sge) (p n : Nat) : List ibv_sge :=
  (List.range n).map fun i => m (p + i * sz)

/-- The tail of a record as a receiver reads it. -/
inductive wqe_tail where
  | inline (bytes : List Nat)
  | list (sg_list : List ibv_sge)
deriving DecidableEq

/-- What a receiver reads from one record. -/
structure decoded_wqe where
  opcode : Nat
  wr_id : Nat
  flags : Nat
  imm_data : Nat
  tail : wqe_tail
deriving DecidableEq

/-- The inline bit of the `flags` field of a record header. -/
def wqe_inline_flag (abi : Abi) (w : ntrdma_send_wqe) : Bool :=
  decide (w.flags &&& abi.IBV_SEND_INLINE ≠ 0)

/-- The test of lines 65-66 applied to a record header: the opcode is RDMA
write and the inline bit of `flags` is set. -/
def wqe_is_inline (abi : Abi) (w : ntrdma_send_wqe) : Bool :=
  decide (w.op_code = abi.IBV_WR_RDMA_WRITE) && decide (w.flags &&& abi.IBV_SEND_INLINE ≠ 0)

/-- Decoding of the record at offset `wqe`: the header fields, then the tail,
read as `inline_len` payload bytes when `discriminant` holds of the header and
as `sg_count` descriptors otherwise. -/
def decode_with (abi : Abi) (discriminant : ntrdma_send_wqe → Bool) (buf : send_buffer)
    (wqe : Nat) : decoded_wqe :=
  let h := buf.wqe wqe
  { opcode := h.op_code
    wr_id := h.ulp_handle
    flags := h.flags
    imm_data := h.imm_data
    tail :=
      if discriminant h then
        wqe_tail.inline (read_bytes buf.byte (wqe + abi.sizeof_wqe) h.sg_count_inline_len)
      else
        wqe_tail.list
          (read_sges abi.sizeof_sge buf.sge (wqe + abi.sizeof_wqe) h.sg_count_inline_len) }

/-- The decoder the spec describes: the union and the tail are discriminated by
the inline flag of the header. -/
def decode_by_inline_flag (abi : Abi) (buf : send_buffer) (wqe : Nat) : decoded_wqe :=
  decode_with abi (wqe_inline_flag abi) buf wqe

/-- The decoder whose discriminant is the test the encoder itself applies
(lines 65-66): RDMA write and inline flag. -/
def decode_wqe (abi : Abi) (buf : send_buffer) (wqe : Nat) : decoded_wqe :=
  decode_with abi (wqe_is_inline abi) buf wqe

/-- The length in bytes of the tail of a record, computed from its header
alone with the test of lines 65-66 as discriminant. -/
def wqe_tail_length (abi : Abi) (w : ntrdma_send_wqe) : Nat :=
  if wqe_is_inline abi w then w.sg_count_inline_len
  else w.sg_count_inline_len * abi.sizeof_sge

/-- The record that `r` holds at offset `wqe` has the inline content of `swr`:
the size returned is header plus summed segment lengths, the union holds the
payload length and the tail is the payload. -/
def inline_content (abi : Abi) (mem : Nat → Nat) (r : wqe_result) (wqe : Nat)
    (swr : ibv_send_wr) : Prop :=
  r.rc = ((abi.sizeof_wqe + sum_length swr.sg_list : Nat) : Int) ∧
  (r.buf.wqe wqe).sg_count_inline_len = sum_length swr.sg_list ∧
  read_bytes r.buf.byte (wqe + abi.sizeof_wqe) (sum_length swr.sg_list) = payload mem swr.sg_list

/-- The record that `r` holds at offset `wqe` has the list content of `swr`:
the size returned is header plus `num_sge` descriptors, the union holds
`num_sge` and the tail is the descriptor array. -/
def list_content (abi : Abi) (r : wqe_result) (wqe : Nat) (swr : ibv_send_wr) : Prop :=
  r.rc = ((abi.sizeof_wqe + swr.num_sge * abi.sizeof_sge : Nat) : Int) ∧
  (r.buf.wqe wqe).sg_count_inline_len = swr.num_sge ∧
  read_sges abi.sizeof_sge r.buf.sge (wqe + abi.sizeof_wqe) swr.num_sge = swr.sg_list

/-- The call used the inline layout: the header it left passes the test of
lines 65-66 and the record has the inline content. -/
def inline_layout (abi : Abi) (mem : Nat → Nat) (r : wqe_result) (wqe : Nat)
    (swr : ibv_send_wr) : Prop :=
  wqe_is_inline abi (r.buf.wqe wqe) = true ∧ inline_content abi mem r wqe swr

/-- The call used the list layout: the header it left fails the test of lines
65-66 and the record has the list content. -/
def list_layout (abi : Abi) (r : wqe_result) (wqe : Nat) (swr : ibv_send_wr) : Prop :=
  wqe_is_inline abi (r.buf.wqe wqe) = false ∧ list_content abi r wqe swr

instance (abi : Abi) (mem : Nat → Nat) (r : wqe_result) (wqe : Nat) (swr : ibv_send_wr) :
    Decidable (inline_content abi mem r wqe swr) := by
  unfold inline_content; infer_instance

instance (abi : Abi) (r : wqe_result) (wqe : Nat) (swr : ibv_send_wr) :
    Decidable (list_content abi r wqe swr) := by
  unfold list_content; infer_instance

instance (abi : Abi) (mem : Nat → Nat) (r : wqe_result) (wqe : Nat) (swr : ibv_send_wr) :
    Decidable (inline_layout abi mem r wqe swr) := by
  unfold inline_layout; infer_instance

instance (abi : Abi) (r : wqe_result) (wqe : Nat) (swr : ibv_send_wr) :
    Decidable (list_layout abi r wqe swr) := by
  unfold list_layout; infer_instance

/-- The request has exactly one segment, of at most 8 bytes
(`num_sge == 1 && sg_list[0].length <= 8`). -/
def single_small_segment (swr : ibv_send_wr) : Bool :=
  match swr.sg_list with
  | [sg] => decide (sg.length ≤ 8)
  | _ => false

/-- The request is flagged inline: by the caller, or by the promotion of lines
61-63 (one segment of at most 8 bytes; the promotion also needs the opcode to be
RDMA write, which the layout rule asks for separately). -/
def flagged_inline (abi : Abi) (swr : ibv_send_wr) : Prop :=
  swr.send_flags &&& abi.IBV_SEND_INLINE ≠ 0 ∨ single_small_segment swr = true

instance (abi : Abi) (swr : ibv_send_wr) : Decidable (flagged_inline abi swr) := by
  unfold flagged_inline; infer_instance

/-- Caller memory used in the examples: address `a` holds the byte `a % 256`. -/
def sample_mem : Nat → Nat := fun a => a % 256

/-- An RDMA write of one 4-byte segment with no flag set. -/
def small_write : ibv_send_wr where
  wr_id := 7
  sg_list := [⟨1000, 4, 5⟩]
  opcode := 0
  send_flags := 0
  imm_data := 9
  remote_addr := 2000
  rkey := 6

/-- A send (opcode 2, `IBV_WR_SEND`) of one 100-byte segment with
`IBV_SEND_INLINE` set by the caller. -/
def inline_send : ibv_send_wr where
  wr_id := 11
  sg_list := [⟨3000, 100, 5⟩]
  opcode := 2
  send_flags := 8
  imm_data := 0
  remote_addr := 0
  rkey := 0

/-- An RDMA write of one 100-byte segment with `IBV_SEND_INLINE` set by the
caller. -/
def big_inline_write : ibv_send_wr where
  wr_id := 12
  sg_list := [⟨3000, 100, 5⟩]
  opcode := 0
  send_flags := 8
  imm_data := 0
  remote_addr := 4000
  rkey := 6

/-- A counterpart that always has completions: the n-th notification returns
0, fills the request completely, and places its j-th record, with `wr_id`
`1000 * n + j + 1`, at offset `4 + 48 * j`: each round's records start directly
behind the 4-byte poll header.  Every other offset holds a zero record. -/
def sample_poll_ioctl : Nat → Int → poll_answer := fun n req =>
  { rc := 0
    errno := 0
    wc_counter := req.toNat
    wc := fun off =>
      if 4 ≤ off ∧ (off - 4) % 48 = 0 ∧ (off - 4) / 48 < req.toNat then
        ⟨1000 * n + (off - 4) / 48 + 1, 0, 0⟩
      else ⟨0, 0, 0⟩ }

/-- A completion queue with a notification handle and a one-page scratch buffer
of 4096 bytes. -/
def sample_cq : ntrdma_cq := ⟨3, ⟨0, fun _ => ⟨0, 0, 0⟩⟩, 4096⟩

/-- A fallback command that reports no completion. -/
def sample_cmd_poll_cq : Int → (Nat → ibv_wc) → Int × (Nat → ibv_wc) := fun _ wc => (0, wc)

/-- A scratch buffer filled with zeroes. -/
def zero_buffer : send_buffer where
  wqe_counter := 0
  first_wqe_size := 0
  wqe := fun _ => ⟨0, 0, 0, 0, 0, 0, 0, 0⟩
  sge := fun _ => ⟨0, 0, 0⟩
  byte := fun _ => 0

/-! ## Rounds of `ntrdma_post_send`, described on the chain -/

/-- The relation between a request before and after the encoder has seen it:
unchanged, or changed by the promotion of lines 61-63. -/
def promoted (abi : Abi) (before after : ibv_send_wr) : Prop :=
  after = before ∨ after = auto_inline abi before

/-- The summed encoded sizes of a list of requests. -/
def sum_wqe_size (abi : Abi) (l : List ibv_send_wr) : Nat := (l.map (wqe_size abi)).sum

/-- The number of leading requests of a chain whose records fit one after the
other between `offset` and the end of the buffer. -/
def round_count (abi : Abi) (buffer_size : Nat) : Nat → List ibv_send_wr → Nat
  | _, [] => 0
  | offset, swr :: next =>
    if offset + wqe_size abi swr ≤ buffer_size then
      round_count abi buffer_size (offset + wqe_size abi swr) next + 1
    else 0

/-- The records of the requests `l` fit together in one batch. -/
def fits_batch (abi : Abi) (buffer_size : Nat) (l : List ibv_send_wr) : Prop :=
  abi.sizeof_snd_hdr + sum_wqe_size abi l ≤ buffer_size

/-- Every round is a non-empty batch that fits, and no round could have taken
the first request of the round after it as well. -/
def maximal_rounds (abi : Abi) (buffer_size : Nat) : List (List ibv_send_wr) → Prop
  | [] => True
  | [p] => p ≠ [] ∧ fits_batch abi buffer_size p
  | p :: q :: rest =>
    p ≠ [] ∧ fits_batch abi buffer_size p ∧ ¬ fits_batch abi buffer_size (p ++ q.take 1) ∧
      maximal_rounds abi buffer_size (q :: rest)



/-! ## The polling loop, described on its log -/

/-- The invariant of the polling loop that ties `rc` and `total` to the log. -/
def poll_inv (st : poll_state) : Prop :=
  0 ≤ st.total ∧
  st.total = (((st.rounds.map poll_round.copied).sum : Nat) : Int) ∧
  (st.total = 0 → st.rounds ≠ [] →
    ∃ last, st.rounds.getLast? = some last ∧
      st.rc = errno_rc last.answer.rc last.answer.errno)

/-! ## Sample inputs for the submission loop -/

/-- A queue pair with a notification handle and a scratch buffer of 120 bytes,
which holds the 8-byte batch header and two 52-byte records. -/
def sample_qp : ntrdma_qp := ⟨3, zero_buffer, 120⟩

/-- A chain of five requests, each an RDMA write of one 4-byte segment. -/
def sample_chain : List ibv_send_wr := List.replicate 5 small_write

/-- A counterpart that accepts every batch. -/
def accept_all : Nat → send_answer := fun _ => ⟨0, 0, 0⟩

/-- A counterpart that fails every batch with `errno = 5` after one record. -/
def fail_after_one : Nat → send_answer := fun _ => ⟨-1, 5, 1⟩

/-- A fallback command that submits nothing. -/
def sample_cmd_post_send : List ibv_send_wr → post_send_result :=
  fun swr => ⟨0, [], swr, zero_buffer, []⟩

/-! ## The records of a round, as the receiver finds them -/

/-- The inner loop of lines 489-499 once more, keeping for every record it
writes the pointer `wqe` the encoder was given (as an offset) and the size `rc`
the encoder returned. -/
def record_log (abi : Abi) (mem : Nat → Nat) (buffer_size : Nat) :
    send_buffer → size_cell → Nat → List ibv_send_wr → List (Nat × Int)
  | _, _, _, [] => []
  | buf, wqehdr, offset, swr :: next =>
    let r := make_ntrdma_send_wqe abi mem buf offset swr ((buffer_size : Int) - (offset : Int))
    if r.rc < 0 then []
    else
      (offset, r.rc) :: record_log abi mem buffer_size (store_size r.buf wqehdr r.rc.toNat)
        (size_cell.recv_key offset) (offset + r.rc.toNat) next

/-- The records of one round (lines 486-499): where each was written and the
size returned for it. -/
def send_round_log (abi : Abi) (mem : Nat → Nat) (buffer_size : Nat) (buf : send_buffer)
    (swr : List ibv_send_wr) : List (Nat × Int) :=
  record_log abi mem buffer_size buf size_cell.first_wqe_size abi.sizeof_snd_hdr swr

/-- The value read through a pointer like `wqehdr`. -/
def load_size (buf : send_buffer) : size_cell → Nat
  | size_cell.first_wqe_size => buf.first_wqe_size
  | size_cell.recv_key wqe => (buf.wqe wqe).recv_key

/-- The size cell lies before `offset`: it is the field of the batch header, or
the `recv_key` of a record that starts before `offset`. -/
def cell_before (offset : Nat) : size_cell → Prop
  | size_cell.first_wqe_size => True
  | size_cell.recv_key wqe => wqe < offset

/-- The walk of a receiver over a batch: it visits `offset`, where a record of
`size` bytes starts, and goes on to `offset + size`, the size of the record
there being the `recv_key` of the record it leaves. -/
def receiver_walk (buf : send_buffer) : Nat → Nat → Nat → List Nat
  | 0, _, _ => []
  | k + 1, offset, size => offset :: receiver_walk buf k (offset + size) (buf.wqe offset).recv_key

/-- The offsets a receiver visits in a batch: as many as the batch header
counts, from the end of the batch header, the first record having the size the
batch header gives. -/
def receiver_offsets (abi : Abi) (buf : send_buffer) : List Nat :=
  receiver_walk buf buf.wqe_counter abi.sizeof_snd_hdr buf.first_wqe_size

/-- Line 509: the scratch buffer as the notification of a round finds it. -/
def notified_buffer (r : round_result) : send_buffer :=
  { r.buf with wqe_counter := r.wqe_counter }

/-! ## The request of a polling round -/

/-- Lines 300-303: the count `req_entries` the next iteration writes to the poll
header. -/
def next_req (max_entries : Int) (st : poll_state) : Int :=
  if st.num_entries > max_entries then max_entries else st.num_entries

/-- Line 306: the answer to the notification of the next iteration. -/
def next_answer (ioctl : Nat → Int → poll_answer) (max_entries : Int) (st : poll_state) :
    poll_answer :=
  ioctl st.rounds.length (next_req max_entries st)

/-- The parameters of the polling scenario: a 64-byte poll header and 64-byte
completion records; the other values as in `sample_abi`. -/
def scenario_abi : Abi :=
  { sample_abi with sizeof_poll_hdr := 64, sizeof_wc := 64 }

/-- A completion queue with a notification handle and a scratch page of 4096
bytes. -/
def scenario_cq : ntrdma_cq := ⟨3, ⟨0, fun _ => ⟨0, 0, 0⟩⟩, 4096⟩

/-- A counterpart that returns 0 and fills every request completely; all the
records of the n-th notification carry `wr_id` n. -/
def scenario_poll_ioctl : Nat → Int → poll_answer := fun n req =>
  ⟨0, 0, req.toNat, fun _ => ⟨n, 0, 0⟩⟩

/-- A counterpart that is drained after two completions: every notification
returns 0 and two records, whatever the request; the record at offset `off`
carries `wr_id` `off`. -/
def drained_poll_ioctl : Nat → Int → poll_answer := fun _ _ =>
  ⟨0, 0, 2, fun off => ⟨off, 0, 0⟩⟩

/-! ## A request larger than the scratch page -/

/-- An RDMA write of one 5000-byte segment with `IBV_SEND_INLINE` set by the
caller: its record takes 5048 bytes, more than a page. -/
def huge_inline_write : ibv_send_wr where
  wr_id := 13
  sg_list := [⟨8000, 5000, 5⟩]
  opcode := 0
  send_flags := 8
  imm_data := 0
  remote_addr := 4000
  rkey := 6

/-- A queue pair with a notification handle and a scratch page of 4096 bytes. -/
def page_qp : ntrdma_qp := ⟨3, zero_buffer, 4096⟩

/-! ## Lemmas on the encoder -/


theorem lor_land_self (f i : Nat) : (f ||| i) &&& i = i := by
  apply Nat.eq_of_testBit_eq
  intro k
  rw [Nat.testBit_and, Nat.testBit_or]
  cases f.testBit k <;> cases i.testBit k <;> rfl

theorem auto_inline_sg_list (abi : Abi) (swr : ibv_send_wr) :
    (auto_inline abi swr).sg_list = swr.sg_list := by
  unfold auto_inline
  split
  · split <;> rfl
  · rfl

theorem auto_inline_fields (abi : Abi) (swr : ibv_send_wr) :
    (auto_inline abi swr).wr_id = swr.wr_id ∧ (auto_inline abi swr).opcode = swr.opcode ∧
    (auto_inline abi swr).imm_data = swr.imm_data ∧
    (auto_inline abi swr).remote_addr = swr.remote_addr ∧
    (auto_inline abi swr).rkey = swr.rkey := by
  unfold auto_inline
  split
  · split <;> simp
  · simp

theorem auto_inline_num_sge (abi : Abi) (swr : ibv_send_wr) :
    (auto_inline abi swr).num_sge = swr.num_sge := by
  simp [ibv_send_wr.num_sge, auto_inline_sg_list]

theorem inline_tail_size_eq (a : Int) (l : List ibv_sge) (t : Nat) (ht : (t : Int) ≤ a) :
    inline_tail_size a l t =
      if a < ((t + sum_length l : Nat) : Int) then none else some (t + sum_length l) := by
  induction l generalizing t with
  | nil =>
    simp only [inline_tail_size, sum_length, List.map_nil, List.sum_nil, Nat.add_zero]
    rw [if_neg (by omega)]
  | cons sg rest ih =>
    have hs : sum_length (sg :: rest) = sg.length + sum_length rest := by
      simp [sum_length]
    rw [hs]
    simp only [inline_tail_size]
    by_cases h : a < ((t + sg.length : Nat) : Int)
    · have h2 : a < ((t + (sg.length + sum_length rest) : Nat) : Int) := by omega
      rw [if_pos h, if_pos h2]
    · rw [if_neg h, ih _ (by omega), Nat.add_assoc]

theorem make_ok (abi : Abi) (mem : Nat → Nat) (buf : send_buffer) (wqe : Nat)
    (swr : ibv_send_wr) (a : Int) (h : (wqe_size abi swr : Int) ≤ a) :
    make_ntrdma_send_wqe abi mem buf wqe swr a =
      write_wqe abi mem buf wqe (auto_inline abi swr) (tail_size abi swr)
        ((wqe_size abi swr : Nat) : Int) := by
  unfold wqe_size tail_size at h
  unfold make_ntrdma_send_wqe wqe_size tail_size
  have h1 : ¬ a < (abi.sizeof_wqe : Int) := by omega
  simp only
  rw [if_neg h1]
  by_cases hi : is_inline abi (auto_inline abi swr) = true
  · simp only [hi, if_true] at h ⊢
    rw [inline_tail_size_eq _ _ _ (by omega), auto_inline_sg_list]
    have h2 : ¬ a - (abi.sizeof_wqe : Int) < ((0 + sum_length swr.sg_list : Nat) : Int) := by
      omega
    rw [if_neg h2, Nat.zero_add]
    simp only
    congr 1
    omega
  · simp only [hi, if_false, Bool.false_eq_true] at h ⊢
    rw [auto_inline_num_sge]
    have h2 : ¬ a - (abi.sizeof_wqe : Int) < ((swr.num_sge * abi.sizeof_sge : Nat) : Int) := by
      omega
    rw [if_neg h2]
    congr 1
    omega

theorem make_fail (abi : Abi) (mem : Nat → Nat) (buf : send_buffer) (wqe : Nat)
    (swr : ibv_send_wr) (a : Int) (h : a < (wqe_size abi swr : Int)) :
    make_ntrdma_send_wqe abi mem buf wqe swr a =
      ⟨-(abi.ENOMEM : Int), buf,
        if a < (abi.sizeof_wqe : Int) then swr else auto_inline abi swr⟩ := by
  unfold wqe_size tail_size at h
  unfold make_ntrdma_send_wqe
  simp only
  by_cases h1 : a < (abi.sizeof_wqe : Int)
  · rw [if_pos h1, if_pos h1]
  · rw [if_neg h1, if_neg h1]
    by_cases hi : is_inline abi (auto_inline abi swr) = true
    · simp only [hi, if_true] at h ⊢
      rw [inline_tail_size_eq _ _ _ (by omega), auto_inline_sg_list]
      have h2 : a - (abi.sizeof_wqe : Int) < ((0 + sum_length swr.sg_list : Nat) : Int) := by
        omega
      rw [if_pos h2]
    · simp only [hi, if_false, Bool.false_eq_true] at h ⊢
      rw [auto_inline_num_sge]
      have h2 : a - (abi.sizeof_wqe : Int) < ((swr.num_sge * abi.sizeof_sge : Nat) : Int) := by
        omega
      rw [if_pos h2]

theorem copy_inline_below (mem : Nat → Nat) (l : List ibv_sge) (ptr : Nat) (b : Nat → Nat)
    (a : Nat) (h : a < ptr) : copy_inline mem l ptr b a = b a := by
  induction l generalizing ptr b with
  | nil => rfl
  | cons sg rest ih =>
    simp only [copy_inline]
    split
    · exact ih _ _ (by omega)
    · rw [ih _ _ (by omega)]
      simp only [memcpy]
      rw [if_neg (by omega)]

theorem read_bytes_add (f : Nat → Nat) (p m n : Nat) :
    read_bytes f p (m + n) = read_bytes f p m ++ read_bytes f (p + m) n := by
  simp only [read_bytes, List.range_add, List.map_append, List.map_map]
  congr 1
  apply List.map_congr_left
  intro i _
  simp [Nat.add_assoc]

theorem read_bytes_copy_inline (mem : Nat → Nat) (l : List ibv_sge) (ptr : Nat)
    (b : Nat → Nat) :
    read_bytes (copy_inline mem l ptr b) ptr (sum_length l) = payload mem l := by
  induction l generalizing ptr b with
  | nil => simp [sum_length, payload, read_bytes]
  | cons sg rest ih =>
    have hs : sum_length (sg :: rest) = sg.length + sum_length rest := by
      simp [sum_length]
    have hp : payload mem (sg :: rest) =
        (List.range sg.length).map (fun i => mem (sg.addr + i)) ++ payload mem rest := by
      simp [payload]
    rw [hs, hp, read_bytes_add]
    simp only [copy_inline]
    split
    · rename_i h0
      rw [ih]
      simp [h0, read_bytes]
    · rw [ih]
      congr 1
      simp only [read_bytes]
      apply List.map_congr_left
      intro i hi
      rw [List.mem_range] at hi
      rw [copy_inline_below _ _ _ _ _ (by omega)]
      simp only [memcpy]
      rw [if_pos (by omega)]
      congr 1
      omega

theorem memcpy_sge_below (sz : Nat) (m : Nat → ibv_sge) (d : Nat) (l : List ibv_sge)
    (a : Nat) (h : a < d) : memcpy_sge sz m d l a = m a := by
  induction l generalizing m d with
  | nil => rfl
  | cons s rest ih =>
    simp only [memcpy_sge]
    rw [ih _ _ (by omega), if_neg (by omega)]

theorem read_sges_memcpy_sge (sz : Nat) (hsz : 0 < sz) (m : Nat → ibv_sge) (d : Nat)
    (l : List ibv_sge) : read_sges sz (memcpy_sge sz m d l) d l.length = l := by
  induction l generalizing m d with
  | nil => simp [read_sges]
  | cons s rest ih =>
    simp only [read_sges, List.length_cons, List.range_succ_eq_map, List.map_cons,
      List.map_map, memcpy_sge]
    congr 1
    · rw [Nat.zero_mul, Nat.add_zero, memcpy_sge_below _ _ _ _ _ (by omega)]
      simp
    · have := ih (fun a => if a = d then s else m a) (d + sz)
      simp only [read_sges] at this
      conv_rhs => rw [← this]
      apply List.map_congr_left
      intro i _
      simp only [Function.comp]
      congr 1
      rw [Nat.succ_mul]
      omega

theorem payload_of_sum_zero (mem : Nat → Nat) (l : List ibv_sge) (h : sum_length l = 0) :
    payload mem l = [] := by
  induction l with
  | nil => rfl
  | cons sg rest ih =>
    have hs : sum_length (sg :: rest) = sg.length + sum_length rest := by
      simp [sum_length]
    rw [hs] at h
    have h1 : sg.length = 0 := by omega
    have h2 : sum_length rest = 0 := by omega
    have hp : payload mem (sg :: rest) =
        (List.range sg.length).map (fun i => mem (sg.addr + i)) ++ payload mem rest := by
      simp [payload]
    rw [hp, ih h2, h1]
    rfl


theorem wqe_is_inline_write_header (abi : Abi) (old : ntrdma_send_wqe) (swr : ibv_send_wr)
    (t : Nat) : wqe_is_inline abi (write_header abi old swr t) = is_inline abi swr := rfl

theorem write_wqe_rc (abi : Abi) (mem : Nat → Nat) (buf : send_buffer) (wqe : Nat)
    (swr : ibv_send_wr) (t : Nat) (rc : Int) :
    (write_wqe abi mem buf wqe swr t rc).rc = rc := by
  unfold write_wqe
  split
  · rfl
  · split <;> rfl

theorem write_wqe_swr (abi : Abi) (mem : Nat → Nat) (buf : send_buffer) (wqe : Nat)
    (swr : ibv_send_wr) (t : Nat) (rc : Int) :
    (write_wqe abi mem buf wqe swr t rc).swr = swr := by
  unfold write_wqe
  split
  · rfl
  · split <;> rfl

theorem write_wqe_header (abi : Abi) (mem : Nat → Nat) (buf : send_buffer) (wqe : Nat)
    (swr : ibv_send_wr) (t : Nat) (rc : Int) :
    (write_wqe abi mem buf wqe swr t rc).buf.wqe wqe =
      write_header abi (buf.wqe wqe) swr t := by
  unfold write_wqe
  split
  · simp
  · split <;> simp

theorem write_wqe_inline_tail (abi : Abi) (mem : Nat → Nat) (buf : send_buffer) (wqe : Nat)
    (swr : ibv_send_wr) (rc : Int) (hi : is_inline abi swr = true) :
    read_bytes (write_wqe abi mem buf wqe swr (sum_length swr.sg_list) rc).buf.byte
      (wqe + abi.sizeof_wqe) (sum_length swr.sg_list) = payload mem swr.sg_list := by
  unfold write_wqe
  by_cases h0 : sum_length swr.sg_list = 0
  · simp only [h0, if_true]
    rw [payload_of_sum_zero mem _ h0]
    rfl
  · simp only [h0, if_false, hi, if_true]
    exact read_bytes_copy_inline mem swr.sg_list _ _

theorem write_wqe_list_tail (abi : Abi) (hsge : 0 < abi.sizeof_sge) (mem : Nat → Nat)
    (buf : send_buffer) (wqe : Nat) (swr : ibv_send_wr) (rc : Int)
    (hi : is_inline abi swr = false) :
    read_sges abi.sizeof_sge
      (write_wqe abi mem buf wqe swr (swr.num_sge * abi.sizeof_sge) rc).buf.sge
      (wqe + abi.sizeof_wqe) swr.num_sge = swr.sg_list := by
  unfold write_wqe
  by_cases h0 : swr.num_sge * abi.sizeof_sge = 0
  · have hn : swr.num_sge = 0 := by
      rcases Nat.mul_eq_zero.mp h0 with h | h
      · exact h
      · omega
    have hl : swr.sg_list = [] := List.length_eq_zero.mp hn
    simp only [h0, if_true, hn]
    rw [hl]
    rfl
  · simp only [h0, if_false, hi, Bool.false_eq_true]
    exact read_sges_memcpy_sge _ hsge _ _ _

theorem write_header_union (abi : Abi) (old : ntrdma_send_wqe) (swr : ibv_send_wr) (t : Nat) :
    (write_header abi old swr t).sg_count_inline_len =
      if is_inline abi swr then t else swr.num_sge := rfl

theorem decode_write_wqe (abi : Abi) (hsge : 0 < abi.sizeof_sge) (mem : Nat → Nat)
    (buf : send_buffer) (wqe : Nat) (swr : ibv_send_wr) (t : Nat) (rc : Int)
    (ht : t = if is_inline abi swr then sum_length swr.sg_list
      else swr.num_sge * abi.sizeof_sge) :
    decode_wqe abi (write_wqe abi mem buf wqe swr t rc).buf wqe =
      { opcode := swr.opcode
        wr_id := swr.wr_id
        flags := swr.send_flags
        imm_data := swr.imm_data
        tail := if is_inline abi swr then wqe_tail.inline (payload mem swr.sg_list)
          else wqe_tail.list swr.sg_list } := by
  unfold decode_wqe decode_with
  simp only [write_wqe_header, wqe_is_inline_write_header, write_header_union]
  by_cases hi : is_inline abi swr = true
  · simp only [hi, if_true] at ht ⊢
    subst ht
    rw [write_wqe_inline_tail abi mem buf wqe swr rc hi]
    rfl
  · simp only [hi, if_false, Bool.false_eq_true] at ht ⊢
    subst ht
    rw [write_wqe_list_tail abi hsge mem buf wqe swr rc (by simpa using hi)]
    rfl

theorem is_inline_auto_inline (abi : Abi) (hI : abi.IBV_SEND_INLINE ≠ 0) (swr : ibv_send_wr) :
    is_inline abi (auto_inline abi swr) = true ↔
      swr.opcode = abi.IBV_WR_RDMA_WRITE ∧ flagged_inline abi swr := by
  unfold auto_inline flagged_inline single_small_segment is_inline
  split
  · rename_i sg hsg
    by_cases h : swr.opcode = abi.IBV_WR_RDMA_WRITE ∧ sg.length ≤ 8
    · simp [h, lor_land_self, hI]
    · simp only [if_neg h, Bool.and_eq_true, decide_eq_true_eq]
      constructor
      · rintro ⟨h1, h2⟩
        exact ⟨h1, Or.inl h2⟩
      · rintro ⟨h1, h2 | h2⟩
        · exact ⟨h1, h2⟩
        · exact absurd ⟨h1, h2⟩ h
  · simp

/-- The encoder succeeds exactly when the encoded size fits. -/
theorem make_rc_nonneg_iff (abi : Abi) (hE : 0 < abi.ENOMEM) (mem : Nat → Nat)
    (buf : send_buffer) (wqe : Nat) (swr : ibv_send_wr) (a : Int) :
    0 ≤ (make_ntrdma_send_wqe abi mem buf wqe swr a).rc ↔ (wqe_size abi swr : Int) ≤ a := by
  by_cases h : (wqe_size abi swr : Int) ≤ a
  · rw [make_ok abi mem buf wqe swr a h, write_wqe_rc]
    simp only [h, iff_true]
    omega
  · rw [make_fail abi mem buf wqe swr a (by omega)]
    simp only [h, iff_false]
    omega

/-- C1 (amended): for every request whose encoded size (header plus tail) is
at most the available space, the call returns that size, and decoding the record
it wrote (header fields, then the tail read as inline payload exactly when the
header holds the RDMA-write opcode and the inline flag, as a descriptor array
otherwise) gives back the opcode, `wr_id` and immediate data of the request, its
`send_flags` as they stand after the promotion of lines 61-63, and its payload
bytes (inline layout) or its descriptor list in order (list layout). -/
theorem C1_decode_reproduces_request (abi : Abi) (hsge : 0 < abi.sizeof_sge)
    (mem : Nat → Nat) (buf : send_buffer) (wqe : Nat) (swr : ibv_send_wr) (a : Int)
    (h : (wqe_size abi swr : Int) ≤ a) :
    (make_ntrdma_send_wqe abi mem buf wqe swr a).rc = (wqe_size abi swr : Int) ∧
    decode_wqe abi (make_ntrdma_send_wqe abi mem buf wqe swr a).buf wqe =
      { opcode := swr.opcode
        wr_id := swr.wr_id
        flags := (auto_inline abi swr).send_flags
        imm_data := swr.imm_data
        tail := if is_inline abi (auto_inline abi swr) then
            wqe_tail.inline (payload mem swr.sg_list)
          else wqe_tail.list swr.sg_list } := by
  rw [make_ok abi mem buf wqe swr a h]
  refine ⟨by rw [write_wqe_rc], ?_⟩
  rw [decode_write_wqe abi hsge mem buf wqe (auto_inline abi swr) (tail_size abi swr) _
    (by unfold tail_size; rw [auto_inline_sg_list, auto_inline_num_sge])]
  obtain ⟨h1, h2, h3, -, -⟩ := auto_inline_fields abi swr
  rw [h1, h2, h3, auto_inline_sg_list]

/-- C1, at a concrete input: an RDMA write of one 4-byte segment with no flag
set, encoded at offset 8 with 4088 bytes free, decodes to opcode 0, `wr_id` 7,
flags 8, immediate data 9 and the four payload bytes. -/
theorem C1_decode_reproduces_request_witness :
    (make_ntrdma_send_wqe sample_abi sample_mem zero_buffer 8 small_write 4088).rc = 52 ∧
    decode_wqe sample_abi
        (make_ntrdma_send_wqe sample_abi sample_mem zero_buffer 8 small_write 4088).buf 8 =
      ⟨0, 7, 8, 9, wqe_tail.inline [232, 233, 234, 235]⟩ :=
  C1_decode_reproduces_request sample_abi (by decide) sample_mem zero_buffer 8 small_write 4088 (by decide)


theorem make_ok_inline_content (abi : Abi) (mem : Nat → Nat) (buf : send_buffer) (wqe : Nat)
    (swr : ibv_send_wr) (a : Int) (h : (wqe_size abi swr : Int) ≤ a)
    (hi : is_inline abi (auto_inline abi swr) = true) :
    inline_content abi mem (make_ntrdma_send_wqe abi mem buf wqe swr a) wqe swr := by
  have ht : tail_size abi swr = sum_length (auto_inline abi swr).sg_list := by
    unfold tail_size; rw [if_pos hi, auto_inline_sg_list]
  have hw : wqe_size abi swr = abi.sizeof_wqe + sum_length swr.sg_list := by
    unfold wqe_size tail_size; rw [if_pos hi]
  rw [make_ok abi mem buf wqe swr a h, ht]
  refine ⟨?_, ?_, ?_⟩
  · rw [write_wqe_rc, hw]
  · rw [write_wqe_header, write_header_union, if_pos hi, auto_inline_sg_list]
  · have := write_wqe_inline_tail abi mem buf wqe (auto_inline abi swr)
      ((wqe_size abi swr : Nat) : Int) hi
    rw [auto_inline_sg_list] at this ⊢
    exact this

theorem make_ok_list_content (abi : Abi) (hsge : 0 < abi.sizeof_sge) (mem : Nat → Nat)
    (buf : send_buffer) (wqe : Nat) (swr : ibv_send_wr) (a : Int)
    (h : (wqe_size abi swr : Int) ≤ a) (hi : is_inline abi (auto_inline abi swr) = false) :
    list_content abi (make_ntrdma_send_wqe abi mem buf wqe swr a) wqe swr := by
  have ht : tail_size abi swr = (auto_inline abi swr).num_sge * abi.sizeof_sge := by
    unfold tail_size; rw [hi, auto_inline_num_sge]; rfl
  have hw : wqe_size abi swr = abi.sizeof_wqe + swr.num_sge * abi.sizeof_sge := by
    unfold wqe_size tail_size; rw [hi]; rfl
  rw [make_ok abi mem buf wqe swr a h, ht]
  refine ⟨?_, ?_, ?_⟩
  · rw [write_wqe_rc, hw]
  · rw [write_wqe_header, write_header_union, hi, auto_inline_num_sge]; rfl
  · have := write_wqe_list_tail abi hsge mem buf wqe (auto_inline abi swr)
      ((wqe_size abi swr : Nat) : Int) hi
    rw [auto_inline_sg_list, auto_inline_num_sge] at this
    rw [auto_inline_num_sge]
    exact this

theorem make_ok_discriminant (abi : Abi) (mem : Nat → Nat) (buf : send_buffer) (wqe : Nat)
    (swr : ibv_send_wr) (a : Int) (h : (wqe_size abi swr : Int) ≤ a) :
    wqe_is_inline abi ((make_ntrdma_send_wqe abi mem buf wqe swr a).buf.wqe wqe) =
      is_inline abi (auto_inline abi swr) := by
  rw [make_ok abi mem buf wqe swr a h, write_wqe_header, wqe_is_inline_write_header]

theorem inline_layout_rc (abi : Abi) (mem : Nat → Nat) (r : wqe_result) (wqe : Nat)
    (swr : ibv_send_wr) (h : inline_layout abi mem r wqe swr) : 0 ≤ r.rc := by
  have := h.2.1
  omega

theorem list_layout_rc (abi : Abi) (r : wqe_result) (wqe : Nat)
    (swr : ibv_send_wr) (h : list_layout abi r wqe swr) : 0 ≤ r.rc := by
  have := h.2.1
  omega

/-- C2 (amended): with room for the header, the call uses the inline layout if
and only if the request is an RDMA write, is flagged inline (by the caller or by
the promotion) and the summed segment length fits in what is left; it uses the
list layout if and only if the request is not an RDMA write flagged inline and
`num_sge` descriptors fit in what is left; and an RDMA write flagged inline whose
summed length does not fit is not written as a list: the call returns `-ENOMEM`
and leaves the buffer as it was. -/
theorem C2_layout_choice (abi : Abi) (hI : abi.IBV_SEND_INLINE ≠ 0) (hE : 0 < abi.ENOMEM)
    (hsge : 0 < abi.sizeof_sge) (mem : Nat → Nat) (buf : send_buffer) (wqe : Nat)
    (swr : ibv_send_wr) (a : Int) (ha : (abi.sizeof_wqe : Int) ≤ a) :
    (inline_layout abi mem (make_ntrdma_send_wqe abi mem buf wqe swr a) wqe swr ↔
      (swr.opcode = abi.IBV_WR_RDMA_WRITE ∧ flagged_inline abi swr) ∧
        (sum_length swr.sg_list : Int) ≤ a - abi.sizeof_wqe) ∧
    (list_layout abi (make_ntrdma_send_wqe abi mem buf wqe swr a) wqe swr ↔
      ¬ (swr.opcode = abi.IBV_WR_RDMA_WRITE ∧ flagged_inline abi swr) ∧
        ((swr.num_sge * abi.sizeof_sge : Nat) : Int) ≤ a - abi.sizeof_wqe) ∧
    ((swr.opcode = abi.IBV_WR_RDMA_WRITE ∧ flagged_inline abi swr) ∧
        a - abi.sizeof_wqe < (sum_length swr.sg_list : Int) →
      make_ntrdma_send_wqe abi mem buf wqe swr a =
        ⟨-(abi.ENOMEM : Int), buf, auto_inline abi swr⟩) := by
  have hfl := is_inline_auto_inline abi hI swr
  have hneg : ¬ (wqe_size abi swr : Int) ≤ a →
      ¬ 0 ≤ (make_ntrdma_send_wqe abi mem buf wqe swr a).rc := by
    intro hfit
    rw [make_fail abi mem buf wqe swr a (by omega)]
    show ¬ 0 ≤ -(abi.ENOMEM : Int)
    omega
  by_cases hi : is_inline abi (auto_inline abi swr) = true
  · have hc := hfl.mp hi
    have hts : tail_size abi swr = sum_length swr.sg_list := by
      unfold tail_size; rw [if_pos hi]
    have hnl : ¬ list_layout abi (make_ntrdma_send_wqe abi mem buf wqe swr a) wqe swr := by
      intro h
      by_cases hfit : (wqe_size abi swr : Int) ≤ a
      · have hd := make_ok_discriminant abi mem buf wqe swr a hfit
        rw [h.1, hi] at hd
        exact absurd hd (by decide)
      · exact hneg hfit (list_layout_rc _ _ _ _ h)
    refine ⟨?_, iff_of_false hnl (fun h => h.1 hc), ?_⟩
    · by_cases hfit : (wqe_size abi swr : Int) ≤ a
      · have hd := make_ok_discriminant abi mem buf wqe swr a hfit
        refine iff_of_true ⟨by rw [hd, hi], make_ok_inline_content abi mem buf wqe swr a hfit hi⟩
          ⟨hc, ?_⟩
        unfold wqe_size at hfit; rw [hts] at hfit; omega
      · refine iff_of_false (fun h => hneg hfit (inline_layout_rc _ _ _ _ _ h)) (fun h => ?_)
        unfold wqe_size at hfit; rw [hts] at hfit; omega
    · intro h
      have hf := make_fail abi mem buf wqe swr a (by unfold wqe_size; rw [hts]; omega)
      rw [if_neg (by omega)] at hf
      exact hf
  · have hc : ¬ (swr.opcode = abi.IBV_WR_RDMA_WRITE ∧ flagged_inline abi swr) :=
      fun h => hi (hfl.mpr h)
    have hi2 : is_inline abi (auto_inline abi swr) = false := by simpa using hi
    have hts : tail_size abi swr = swr.num_sge * abi.sizeof_sge := by
      unfold tail_size; rw [hi2]; rfl
    have hni : ¬ inline_layout abi mem (make_ntrdma_send_wqe abi mem buf wqe swr a) wqe swr := by
      intro h
      by_cases hfit : (wqe_size abi swr : Int) ≤ a
      · have hd := make_ok_discriminant abi mem buf wqe swr a hfit
        rw [h.1, hi2] at hd
        exact absurd hd (by decide)
      · exact hneg hfit (inline_layout_rc _ _ _ _ _ h)
    refine ⟨iff_of_false hni (fun h => hc h.1), ?_, fun h => absurd h.1 hc⟩
    by_cases hfit : (wqe_size abi swr : Int) ≤ a
    · have hd := make_ok_discriminant abi mem buf wqe swr a hfit
      refine iff_of_true ⟨by rw [hd, hi2], make_ok_list_content abi hsge mem buf wqe swr a hfit hi2⟩
        ⟨hc, ?_⟩
      unfold wqe_size at hfit; rw [hts] at hfit; omega
    · refine iff_of_false (fun h => hneg hfit (list_layout_rc _ _ _ _ h)) (fun h => ?_)
      unfold wqe_size at hfit; rw [hts] at hfit; omega

/-- C2, at a concrete input: the 4-byte RDMA write with 4088 bytes free. -/
theorem C2_layout_choice_witness :
    (inline_layout sample_abi sample_mem
        (make_ntrdma_send_wqe sample_abi sample_mem zero_buffer 8 small_write 4088) 8 small_write ↔
      (small_write.opcode = sample_abi.IBV_WR_RDMA_WRITE ∧ flagged_inline sample_abi small_write) ∧
        (sum_length small_write.sg_list : Int) ≤ 4088 - sample_abi.sizeof_wqe) ∧
    (list_layout sample_abi
        (make_ntrdma_send_wqe sample_abi sample_mem zero_buffer 8 small_write 4088) 8 small_write ↔
      ¬ (small_write.opcode = sample_abi.IBV_WR_RDMA_WRITE ∧ flagged_inline sample_abi small_write) ∧
        ((small_write.num_sge * sample_abi.sizeof_sge : Nat) : Int) ≤ 4088 - sample_abi.sizeof_wqe) ∧
    ((small_write.opcode = sample_abi.IBV_WR_RDMA_WRITE ∧ flagged_inline sample_abi small_write) ∧
        4088 - sample_abi.sizeof_wqe < (sum_length small_write.sg_list : Int) →
      make_ntrdma_send_wqe sample_abi sample_mem zero_buffer 8 small_write 4088 =
        ⟨-(sample_abi.ENOMEM : Int), zero_buffer, auto_inline sample_abi small_write⟩) :=
  C2_layout_choice sample_abi (by decide) (by decide) (by decide) sample_mem zero_buffer 8 small_write 4088
    (by decide)

/-- C2, as stated, fails: an RDMA write flagged inline with one 100-byte segment
and 64 bytes free (16 behind the 48-byte header) does not meet the condition for
the inline layout, and yet the list layout, for which 16 bytes would do, is not
used: the call returns -12. -/
theorem C2_no_list_fallback_counterexample :
    (sample_abi.sizeof_wqe : Int) ≤ 64 ∧
    ¬ (big_inline_write.opcode = sample_abi.IBV_WR_RDMA_WRITE ∧
        flagged_inline sample_abi big_inline_write ∧
        (sum_length big_inline_write.sg_list : Int) ≤ 64 - sample_abi.sizeof_wqe) ∧
    ¬ list_layout sample_abi
        (make_ntrdma_send_wqe sample_abi sample_mem zero_buffer 8 big_inline_write 64) 8
        big_inline_write ∧
    (make_ntrdma_send_wqe sample_abi sample_mem zero_buffer 8 big_inline_write 64).rc = -12 := by
  decide


/-- C7: the call returns `-ENOMEM` if and only if the space is smaller than the
header, or the inline layout applies and the summed segment lengths exceed what
is left behind the header, or the list layout applies and `num_sge` descriptors
exceed what is left; and it returns no other negative value. -/
theorem C7_no_space_iff (abi : Abi) (hE : 0 < abi.ENOMEM) (mem : Nat → Nat) (buf : send_buffer)
    (wqe : Nat) (swr : ibv_send_wr) (a : Int) :
    ((make_ntrdma_send_wqe abi mem buf wqe swr a).rc = -(abi.ENOMEM : Int) ↔
      a < (abi.sizeof_wqe : Int) ∨
      (is_inline abi (auto_inline abi swr) = true ∧
        a - (abi.sizeof_wqe : Int) < (sum_length swr.sg_list : Int)) ∨
      (is_inline abi (auto_inline abi swr) = false ∧
        a - (abi.sizeof_wqe : Int) < ((swr.num_sge * abi.sizeof_sge : Nat) : Int))) ∧
    ((make_ntrdma_send_wqe abi mem buf wqe swr a).rc < 0 →
      (make_ntrdma_send_wqe abi mem buf wqe swr a).rc = -(abi.ENOMEM : Int)) := by
  by_cases hfit : (wqe_size abi swr : Int) ≤ a
  · have hrc : (make_ntrdma_send_wqe abi mem buf wqe swr a).rc = (wqe_size abi swr : Int) := by
      rw [make_ok abi mem buf wqe swr a hfit, write_wqe_rc]
    refine ⟨iff_of_false (by omega) ?_, fun h => by omega⟩
    unfold wqe_size tail_size at hfit
    rintro (h | ⟨hi, h⟩ | ⟨hi, h⟩)
    · omega
    · rw [if_pos hi] at hfit; omega
    · rw [hi] at hfit
      simp only [Bool.false_eq_true, if_false] at hfit
      omega
  · have hrc : (make_ntrdma_send_wqe abi mem buf wqe swr a).rc = -(abi.ENOMEM : Int) := by
      rw [make_fail abi mem buf wqe swr a (by omega)]
    refine ⟨iff_of_true hrc ?_, fun _ => hrc⟩
    unfold wqe_size tail_size at hfit
    by_cases h1 : a < (abi.sizeof_wqe : Int)
    · exact Or.inl h1
    · by_cases hi : is_inline abi (auto_inline abi swr) = true
      · rw [if_pos hi] at hfit
        exact Or.inr (Or.inl ⟨hi, by omega⟩)
      · have hi2 : is_inline abi (auto_inline abi swr) = false := by simpa using hi
        rw [hi2] at hfit
        simp only [Bool.false_eq_true, if_false] at hfit
        exact Or.inr (Or.inr ⟨hi2, by omega⟩)

theorem write_wqe_tail_zero (abi : Abi) (mem : Nat → Nat) (buf : send_buffer) (wqe : Nat)
    (swr : ibv_send_wr) (rc : Int) :
    (write_wqe abi mem buf wqe swr 0 rc).buf.byte = buf.byte ∧
    (write_wqe abi mem buf wqe swr 0 rc).buf.sge = buf.sge := by
  unfold write_wqe
  simp

/-- C8: a call that succeeds with `a` bytes available returns the header size
plus the tail size (summed segment lengths in the inline layout, `num_sge` times
the descriptor size in the list layout); the value is positive, at least the
header size and at most `a`; and with an empty tail the call returns the header
size and writes neither payload bytes nor descriptors. -/
theorem C8_return_is_header_plus_tail (abi : Abi) (hW : 0 < abi.sizeof_wqe) (hE : 0 < abi.ENOMEM)
    (mem : Nat → Nat) (buf : send_buffer) (wqe : Nat) (swr : ibv_send_wr) (a : Int)
    (hs : 0 ≤ (make_ntrdma_send_wqe abi mem buf wqe swr a).rc) :
    (make_ntrdma_send_wqe abi mem buf wqe swr a).rc =
      ((abi.sizeof_wqe + tail_size abi swr : Nat) : Int) ∧
    0 < (make_ntrdma_send_wqe abi mem buf wqe swr a).rc ∧
    (abi.sizeof_wqe : Int) ≤ (make_ntrdma_send_wqe abi mem buf wqe swr a).rc ∧
    (make_ntrdma_send_wqe abi mem buf wqe swr a).rc ≤ a ∧
    (tail_size abi swr = 0 →
      (make_ntrdma_send_wqe abi mem buf wqe swr a).rc = (abi.sizeof_wqe : Int) ∧
      (make_ntrdma_send_wqe abi mem buf wqe swr a).buf.byte = buf.byte ∧
      (make_ntrdma_send_wqe abi mem buf wqe swr a).buf.sge = buf.sge) := by
  have hfit := (make_rc_nonneg_iff abi hE mem buf wqe swr a).mp hs
  rw [make_ok abi mem buf wqe swr a hfit, write_wqe_rc]
  unfold wqe_size at hfit ⊢
  refine ⟨rfl, by omega, by omega, hfit, fun h0 => ?_⟩
  rw [h0]
  exact ⟨rfl, write_wqe_tail_zero abi mem buf wqe _ _⟩

/-- C10 (amended): for every record the call writes, the test "opcode is RDMA
write and the inline flag is set", applied to the header, gives the layout the
encoder chose; when it holds the union is the payload length and the tail the
payload, when it fails the union is `num_sge` and the tail the descriptor array;
and the size of the record is the header size plus the tail length computed from
the header alone. -/
theorem C10_discriminant_is_opcode_and_flag (abi : Abi) (hE : 0 < abi.ENOMEM) (hsge : 0 < abi.sizeof_sge)
    (mem : Nat → Nat) (buf : send_buffer) (wqe : Nat) (swr : ibv_send_wr) (a : Int)
    (hs : 0 ≤ (make_ntrdma_send_wqe abi mem buf wqe swr a).rc) :
    wqe_is_inline abi ((make_ntrdma_send_wqe abi mem buf wqe swr a).buf.wqe wqe) =
      is_inline abi (auto_inline abi swr) ∧
    (wqe_is_inline abi ((make_ntrdma_send_wqe abi mem buf wqe swr a).buf.wqe wqe) = true →
      inline_content abi mem (make_ntrdma_send_wqe abi mem buf wqe swr a) wqe swr) ∧
    (wqe_is_inline abi ((make_ntrdma_send_wqe abi mem buf wqe swr a).buf.wqe wqe) = false →
      list_content abi (make_ntrdma_send_wqe abi mem buf wqe swr a) wqe swr) ∧
    (make_ntrdma_send_wqe abi mem buf wqe swr a).rc =
      ((abi.sizeof_wqe +
        wqe_tail_length abi ((make_ntrdma_send_wqe abi mem buf wqe swr a).buf.wqe wqe) : Nat) :
        Int) := by
  have hfit := (make_rc_nonneg_iff abi hE mem buf wqe swr a).mp hs
  have hd := make_ok_discriminant abi mem buf wqe swr a hfit
  have h1 : wqe_is_inline abi ((make_ntrdma_send_wqe abi mem buf wqe swr a).buf.wqe wqe) = true →
      inline_content abi mem (make_ntrdma_send_wqe abi mem buf wqe swr a) wqe swr :=
    fun h => make_ok_inline_content abi mem buf wqe swr a hfit (hd ▸ h)
  have h2 : wqe_is_inline abi ((make_ntrdma_send_wqe abi mem buf wqe swr a).buf.wqe wqe) = false →
      list_content abi (make_ntrdma_send_wqe abi mem buf wqe swr a) wqe swr :=
    fun h => make_ok_list_content abi hsge mem buf wqe swr a hfit (hd ▸ h)
  refine ⟨hd, h1, h2, ?_⟩
  unfold wqe_tail_length
  cases hb : wqe_is_inline abi ((make_ntrdma_send_wqe abi mem buf wqe swr a).buf.wqe wqe)
  · obtain ⟨e1, e2, -⟩ := h2 hb
    simp only [Bool.false_eq_true, if_false]
    rw [e1, e2]
  · obtain ⟨e1, e2, -⟩ := h1 hb
    simp only [if_true]
    rw [e1, e2]

/-- C10, as stated, fails: the record of a send carrying `IBV_SEND_INLINE` has
the inline flag set in its header and is in the list layout: the union is 1, not
the payload length 100. -/
theorem C10_flag_set_in_list_layout_counterexample :
    0 ≤ (make_ntrdma_send_wqe sample_abi sample_mem zero_buffer 8 inline_send 4088).rc ∧
    wqe_inline_flag sample_abi
      ((make_ntrdma_send_wqe sample_abi sample_mem zero_buffer 8 inline_send 4088).buf.wqe 8) =
        true ∧
    ¬ inline_content sample_abi sample_mem
      (make_ntrdma_send_wqe sample_abi sample_mem zero_buffer 8 inline_send 4088) 8 inline_send ∧
    list_content sample_abi
      (make_ntrdma_send_wqe sample_abi sample_mem zero_buffer 8 inline_send 4088) 8 inline_send := by
  decide

/-- C1, as stated, fails twice.  The promoted 4-byte RDMA write decodes to
flags 8 where the request had 0; and a send carrying `IBV_SEND_INLINE` is written
in the list layout, so a decoder that takes the inline flag of the header as the
discriminant does not read its descriptor list back. -/
theorem C1_inline_flag_decoder_counterexample :
    ((wqe_size sample_abi small_write : Int) ≤ 4088 ∧
      (decode_by_inline_flag sample_abi
        (make_ntrdma_send_wqe sample_abi sample_mem zero_buffer 8 small_write 4088).buf 8).flags ≠
        small_write.send_flags) ∧
    ((wqe_size sample_abi inline_send : Int) ≤ 4088 ∧
      (decode_by_inline_flag sample_abi
        (make_ntrdma_send_wqe sample_abi sample_mem zero_buffer 8 inline_send 4088).buf 8).tail ≠
        wqe_tail.list inline_send.sg_list) := by
  decide

/-! ## Lemmas on the submission loop -/

theorem auto_inline_idem (abi : Abi) (swr : ibv_send_wr) :
    auto_inline abi (auto_inline abi swr) = auto_inline abi swr := by
  rcases swr with ⟨id, sgl, op, fl, imm, ra, rk⟩
  match sgl with
  | [] => rfl
  | [sg] =>
    by_cases h : op = abi.IBV_WR_RDMA_WRITE ∧ sg.length ≤ 8
    · simp [auto_inline, h, Nat.or_assoc]
    · simp [auto_inline, h]
  | _ :: _ :: _ => rfl

theorem wqe_size_auto_inline (abi : Abi) (swr : ibv_send_wr) :
    wqe_size abi (auto_inline abi swr) = wqe_size abi swr := by
  unfold wqe_size tail_size
  rw [auto_inline_idem, auto_inline_sg_list, auto_inline_num_sge]

theorem promoted_refl (abi : Abi) (a : ibv_send_wr) : promoted abi a a := Or.inl rfl

theorem promoted_trans (abi : Abi) {a b c : ibv_send_wr} (h1 : promoted abi a b)
    (h2 : promoted abi b c) : promoted abi a c := by
  rcases h1 with rfl | rfl
  · exact h2
  · rcases h2 with rfl | rfl
    · exact Or.inr rfl
    · exact Or.inr (auto_inline_idem abi a)

theorem promoted_auto_inline (abi : Abi) {a b : ibv_send_wr} (h : promoted abi a b) :
    auto_inline abi b = auto_inline abi a := by
  rcases h with rfl | rfl
  · rfl
  · exact auto_inline_idem abi a

theorem promoted_wqe_size (abi : Abi) {a b : ibv_send_wr} (h : promoted abi a b) :
    wqe_size abi b = wqe_size abi a := by
  rcases h with rfl | rfl
  · rfl
  · exact wqe_size_auto_inline abi a

theorem make_swr_promoted (abi : Abi) (mem : Nat → Nat) (buf : send_buffer) (wqe : Nat)
    (swr : ibv_send_wr) (a : Int) :
    promoted abi swr (make_ntrdma_send_wqe abi mem buf wqe swr a).swr := by
  by_cases h : (wqe_size abi swr : Int) ≤ a
  · rw [make_ok abi mem buf wqe swr a h, write_wqe_swr]
    exact Or.inr rfl
  · rw [make_fail abi mem buf wqe swr a (by omega)]
    show promoted abi swr (if a < (abi.sizeof_wqe : Int) then swr else auto_inline abi swr)
    split
    · exact Or.inl rfl
    · exact Or.inr rfl

theorem pack_round_spec (abi : Abi) (hE : 0 < abi.ENOMEM) (mem : Nat → Nat) (buffer_size : Nat)
    (buf : send_buffer) (wqehdr : size_cell) (offset cnt : Nat) (rc : Int)
    (swr : List ibv_send_wr) :
    (pack_round abi mem buffer_size buf wqehdr offset cnt rc swr).packed =
      (swr.take (round_count abi buffer_size offset swr)).map (auto_inline abi) ∧
    (pack_round abi mem buffer_size buf wqehdr offset cnt rc swr).wqe_counter =
      cnt + round_count abi buffer_size offset swr ∧
    List.Forall₂ (promoted abi) (swr.drop (round_count abi buffer_size offset swr))
      (pack_round abi mem buffer_size buf wqehdr offset cnt rc swr).rest ∧
    (round_count abi buffer_size offset swr < swr.length →
      (pack_round abi mem buffer_size buf wqehdr offset cnt rc swr).rc = -(abi.ENOMEM : Int)) := by
  induction swr generalizing buf wqehdr offset cnt rc with
  | nil => simp [pack_round, round_count]
  | cons s next ih =>
    simp only [pack_round, round_count]
    by_cases hfit : offset + wqe_size abi s ≤ buffer_size
    · have hfit2 : (wqe_size abi s : Int) ≤ (buffer_size : Int) - (offset : Int) := by omega
      have hok := make_ok abi mem buf offset s _ hfit2
      have hrc : (make_ntrdma_send_wqe abi mem buf offset s
          ((buffer_size : Int) - (offset : Int))).rc = (wqe_size abi s : Int) := by
        rw [hok, write_wqe_rc]
      have hswr : (make_ntrdma_send_wqe abi mem buf offset s
          ((buffer_size : Int) - (offset : Int))).swr = auto_inline abi s := by
        rw [hok, write_wqe_swr]
      rw [if_neg (by rw [hrc]; omega), if_pos hfit, hrc, hswr]
      simp only [Int.toNat_ofNat]
      obtain ⟨h1, h2, h3, h4⟩ := ih
        (store_size (make_ntrdma_send_wqe abi mem buf offset s
          ((buffer_size : Int) - (offset : Int))).buf wqehdr (wqe_size abi s))
        (size_cell.recv_key offset) (offset + wqe_size abi s) (cnt + 1) (wqe_size abi s : Int)
      refine ⟨?_, ?_, ?_, ?_⟩
      · simp [h1]
      · rw [h2]; omega
      · simpa using h3
      · intro hlt
        exact h4 (by simpa using hlt)
    · have hfail := make_fail abi mem buf offset s ((buffer_size : Int) - (offset : Int))
        (by omega)
      rw [if_neg hfit, hfail]
      simp only [show (-(abi.ENOMEM : Int) < 0) from by omega, if_true]
      refine ⟨by simp, by simp, ?_, by simp⟩
      simp only [List.drop_zero]
      refine List.Forall₂.cons ?_ (List.forall₂_same.mpr fun x _ => promoted_refl abi x)
      split
      · exact Or.inl rfl
      · exact Or.inr rfl


theorem pack_round_counter (abi : Abi) (mem : Nat → Nat) (buffer_size : Nat)
    (buf : send_buffer) (wqehdr : size_cell) (offset cnt : Nat) (rc : Int)
    (swr : List ibv_send_wr) :
    (pack_round abi mem buffer_size buf wqehdr offset cnt rc swr).wqe_counter =
      cnt + (pack_round abi mem buffer_size buf wqehdr offset cnt rc swr).packed.length := by
  induction swr generalizing buf wqehdr offset cnt rc with
  | nil => simp [pack_round]
  | cons s next ih =>
    simp only [pack_round]
    split
    · simp
    · simp only [List.length_cons]
      rw [ih]
      omega

theorem pack_round_chain (abi : Abi) (mem : Nat → Nat) (buffer_size : Nat)
    (buf : send_buffer) (wqehdr : size_cell) (offset cnt : Nat) (rc : Int)
    (swr : List ibv_send_wr) :
    List.Forall₂ (promoted abi) swr
      ((pack_round abi mem buffer_size buf wqehdr offset cnt rc swr).packed ++
        (pack_round abi mem buffer_size buf wqehdr offset cnt rc swr).rest) := by
  induction swr generalizing buf wqehdr offset cnt rc with
  | nil => simp [pack_round]
  | cons s next ih =>
    simp only [pack_round]
    split
    · simp only [List.nil_append]
      exact List.Forall₂.cons (make_swr_promoted abi mem buf offset s _)
        (List.forall₂_same.mpr fun x _ => promoted_refl abi x)
    · simp only [List.cons_append]
      exact List.Forall₂.cons (make_swr_promoted abi mem buf offset s _) (ih _ _ _ _ _)

theorem walk_next_eq (k : Nat) (l : List ibv_send_wr) (h : k ≤ l.length) :
    walk_next k l = some (l.drop k) := by
  induction k generalizing l with
  | zero => rfl
  | succ n ih =>
    cases l with
    | nil => simp at h
    | cons a t =>
      simp only [walk_next, List.drop_succ_cons]
      exact ih t (by simpa using h)

theorem forall₂_promoted_trans (abi : Abi) {l1 l2 l3 : List ibv_send_wr}
    (h1 : List.Forall₂ (promoted abi) l1 l2) (h2 : List.Forall₂ (promoted abi) l2 l3) :
    List.Forall₂ (promoted abi) l1 l3 := by
  induction h1 generalizing l3 with
  | nil => cases h2; exact List.Forall₂.nil
  | cons hab _ ih =>
    cases h2 with
    | cons hbc htl => exact List.Forall₂.cons (promoted_trans abi hab hbc) (ih htl)

theorem forall₂_promoted_refl (abi : Abi) (l : List ibv_send_wr) :
    List.Forall₂ (promoted abi) l l :=
  List.forall₂_same.mpr fun x _ => promoted_refl abi x

theorem forall₂_promoted_append (abi : Abi) (d : List ibv_send_wr) {l1 l2 : List ibv_send_wr}
    (h : List.Forall₂ (promoted abi) l1 l2) :
    List.Forall₂ (promoted abi) (d ++ l1) (d ++ l2) :=
  List.rel_append (forall₂_promoted_refl abi d) h

/-- C3: at the head of any iteration of the outer loop, if the round packs
`m ≥ 1` records, the notification returns a negative value and the batch header
then holds `k ≤ m`, the call ends there: the log gains this one notification and
no other, the value returned is the negative result of the notification (the
value of `ioctl`, with -1 replaced by `-errno` as in lines 516-517), and `*bad` is
the chain the round started from with its first `k` requests dropped, that is
the `(k+1)`-th request of the round (the first one for `k = 0`, `NULL` when the
chain ends after `k` requests), holding the requests the caller passed up to the
promotion of lines 61-63. -/
theorem C3_failed_round_reports_successor (abi : Abi) (mem : Nat → Nat) (buffer_size : Nat) (ioctl : Nat → send_answer)
    (fuel : Nat) (buf : send_buffer) (rc : Int) (done : List ibv_send_wr) (swr : ibv_send_wr)
    (next : List ibv_send_wr) (rounds : List notification)
    (hm : 1 ≤ (send_round abi mem buffer_size buf rc (swr :: next)).wqe_counter)
    (hneg : (ioctl rounds.length).rc < 0)
    (hk : (ioctl rounds.length).wqe_counter ≤
      (send_round abi mem buffer_size buf rc (swr :: next)).wqe_counter) :
    ∃ res : post_send_result,
      post_send_loop abi mem buffer_size ioctl (fuel + 1) buf rc done (swr :: next) rounds =
        Except.ok res ∧
      res.rc = errno_rc (ioctl rounds.length).rc (ioctl rounds.length).errno ∧
      res.rc < 0 ∧
      ((ioctl rounds.length).rc ≠ -1 → res.rc = (ioctl rounds.length).rc) ∧
      res.rounds.length = rounds.length + 1 ∧
      res.bad.length + (ioctl rounds.length).wqe_counter = (swr :: next).length ∧
      List.Forall₂ (promoted abi) ((swr :: next).drop (ioctl rounds.length).wqe_counter) res.bad ∧
      res.bad =
        ((send_round abi mem buffer_size buf rc (swr :: next)).packed ++
          (send_round abi mem buffer_size buf rc (swr :: next)).rest).drop (ioctl rounds.length).wqe_counter := by
  have hcnt : (send_round abi mem buffer_size buf rc (swr :: next)).wqe_counter =
      0 + (send_round abi mem buffer_size buf rc (swr :: next)).packed.length :=
    pack_round_counter abi mem buffer_size buf size_cell.first_wqe_size
      abi.sizeof_snd_hdr 0 rc (swr :: next)
  have hch : List.Forall₂ (promoted abi) (swr :: next)
      ((send_round abi mem buffer_size buf rc (swr :: next)).packed ++
        (send_round abi mem buffer_size buf rc (swr :: next)).rest) :=
    pack_round_chain abi mem buffer_size buf size_cell.first_wqe_size
      abi.sizeof_snd_hdr 0 rc (swr :: next)
  have hlen := hch.length_eq
  have hk2 : (ioctl rounds.length).wqe_counter ≤
      ((send_round abi mem buffer_size buf rc (swr :: next)).packed ++
          (send_round abi mem buffer_size buf rc (swr :: next)).rest).length := by
    rw [List.length_append]; omega
  have hrc : errno_rc (ioctl rounds.length).rc (ioctl rounds.length).errno < 0 := by
    unfold errno_rc
    split
    · omega
    · exact hneg
  have hstep : post_send_loop abi mem buffer_size ioctl (fuel + 1) buf rc done (swr :: next)
      rounds = Except.ok ⟨errno_rc (ioctl rounds.length).rc (ioctl rounds.length).errno,
        List.drop (ioctl rounds.length).wqe_counter
          ((send_round abi mem buffer_size buf rc (swr :: next)).packed ++
            (send_round abi mem buffer_size buf rc (swr :: next)).rest),
        done ++ ((send_round abi mem buffer_size buf rc (swr :: next)).packed ++
            (send_round abi mem buffer_size buf rc (swr :: next)).rest),
        { (send_round abi mem buffer_size buf rc (swr :: next)).buf with wqe_counter := (ioctl rounds.length).wqe_counter },
        rounds ++ [⟨{ (send_round abi mem buffer_size buf rc (swr :: next)).buf with
            wqe_counter := (send_round abi mem buffer_size buf rc (swr :: next)).wqe_counter }, done.length,
          (send_round abi mem buffer_size buf rc (swr :: next)).packed⟩]⟩ := by
    simp only [post_send_loop]
    rw [if_neg (by omega), if_neg (by omega), walk_next_eq _ _ hk2]
  refine ⟨_, hstep, rfl, hrc, ?_, ?_, ?_, ?_, rfl⟩
  · intro h1
    simp [errno_rc, h1]
  · simp
  · simp only [List.length_drop]
    omega
  · exact List.forall₂_drop _ hch


theorem sum_wqe_size_cons (abi : Abi) (s : ibv_send_wr) (l : List ibv_send_wr) :
    sum_wqe_size abi (s :: l) = wqe_size abi s + sum_wqe_size abi l := by
  simp [sum_wqe_size]

theorem sum_wqe_size_append (abi : Abi) (l1 l2 : List ibv_send_wr) :
    sum_wqe_size abi (l1 ++ l2) = sum_wqe_size abi l1 + sum_wqe_size abi l2 := by
  simp [sum_wqe_size]

theorem sum_wqe_size_map_auto_inline (abi : Abi) (l : List ibv_send_wr) :
    sum_wqe_size abi (l.map (auto_inline abi)) = sum_wqe_size abi l := by
  induction l with
  | nil => rfl
  | cons s t ih => simp only [List.map_cons, sum_wqe_size_cons, ih, wqe_size_auto_inline]

theorem round_count_le (abi : Abi) (buffer_size offset : Nat) (swr : List ibv_send_wr) :
    round_count abi buffer_size offset swr ≤ swr.length := by
  induction swr generalizing offset with
  | nil => simp [round_count]
  | cons s t ih =>
    simp only [round_count, List.length_cons]
    split
    · have := ih (offset + wqe_size abi s); omega
    · omega

theorem round_count_fits (abi : Abi) (buffer_size offset : Nat) (swr : List ibv_send_wr)
    (h : offset ≤ buffer_size) :
    offset + sum_wqe_size abi (swr.take (round_count abi buffer_size offset swr)) ≤
      buffer_size := by
  induction swr generalizing offset with
  | nil => simpa [round_count, sum_wqe_size] using h
  | cons s t ih =>
    simp only [round_count]
    split
    · rename_i hfit
      have := ih (offset + wqe_size abi s) hfit
      simp only [List.take_succ_cons, sum_wqe_size_cons]
      omega
    · simpa [sum_wqe_size] using h

theorem round_count_maximal (abi : Abi) (buffer_size offset : Nat) (swr : List ibv_send_wr) :
    buffer_size < offset +
      sum_wqe_size abi (swr.take (round_count abi buffer_size offset swr + 1)) ∨
    round_count abi buffer_size offset swr = swr.length := by
  induction swr generalizing offset with
  | nil => right; rfl
  | cons s t ih =>
    simp only [round_count]
    split
    · rename_i hfit
      rcases ih (offset + wqe_size abi s) with h | h
      · left
        simp only [List.take_succ_cons, sum_wqe_size_cons]
        omega
      · right
        simp [h]
    · rename_i hfit
      left
      simp only [Nat.zero_add, List.take_succ_cons, List.take_zero, sum_wqe_size_cons]
      simp only [sum_wqe_size, List.map_nil, List.sum_nil]
      omega

theorem round_count_pos (abi : Abi) (buffer_size offset : Nat) (s : ibv_send_wr)
    (t : List ibv_send_wr) (h : offset + wqe_size abi s ≤ buffer_size) :
    1 ≤ round_count abi buffer_size offset (s :: t) := by
  simp only [round_count, if_pos h]
  omega

theorem forall₂_promoted_map (abi : Abi) {l1 l2 : List ibv_send_wr}
    (h : List.Forall₂ (promoted abi) l1 l2) :
    l2.map (auto_inline abi) = l1.map (auto_inline abi) := by
  induction h with
  | nil => rfl
  | cons hab _ ih => simp only [List.map_cons, ih, promoted_auto_inline abi hab]

theorem forall₂_promoted_fits (abi : Abi) (n : Nat) {l1 l2 : List ibv_send_wr}
    (h : List.Forall₂ (promoted abi) l1 l2) (hf : ∀ s ∈ l1, wqe_size abi s ≤ n) :
    ∀ s ∈ l2, wqe_size abi s ≤ n := by
  induction h with
  | nil => simp
  | cons hab _ ih =>
    intro s hs
    rcases List.mem_cons.mp hs with rfl | hs
    · rw [promoted_wqe_size abi hab]
      exact hf _ (List.mem_cons_self _ _)
    · exact ih (fun x hx => hf x (List.mem_cons_of_mem _ hx)) s hs


theorem send_round_ok (abi : Abi) (hE : 0 < abi.ENOMEM) (mem : Nat → Nat) (buffer_size : Nat)
    (buf : send_buffer) (rc : Int) (swr : List ibv_send_wr) :
    (send_round abi mem buffer_size buf rc swr).packed =
      (swr.take (round_count abi buffer_size abi.sizeof_snd_hdr swr)).map (auto_inline abi) ∧
    (send_round abi mem buffer_size buf rc swr).wqe_counter =
      round_count abi buffer_size abi.sizeof_snd_hdr swr ∧
    List.Forall₂ (promoted abi) (swr.drop (round_count abi buffer_size abi.sizeof_snd_hdr swr))
      (send_round abi mem buffer_size buf rc swr).rest ∧
    (round_count abi buffer_size abi.sizeof_snd_hdr swr < swr.length →
      (send_round abi mem buffer_size buf rc swr).rc = -(abi.ENOMEM : Int)) := by
  have h := pack_round_spec abi hE mem buffer_size buf size_cell.first_wqe_size
    abi.sizeof_snd_hdr 0 rc swr
  rw [Nat.zero_add] at h
  exact h

theorem post_send_loop_ok (abi : Abi) (hE : 0 < abi.ENOMEM) (mem : Nat → Nat)
    (buffer_size : Nat) (ioctl : Nat → send_answer) (hio : ∀ n, 0 ≤ (ioctl n).rc)
    (fuel : Nat) (buf : send_buffer) (rc : Int) (done swr : List ibv_send_wr)
    (rounds : List notification) (hfuel : swr.length ≤ fuel)
    (hfit : ∀ s ∈ swr, abi.sizeof_snd_hdr + wqe_size abi s ≤ buffer_size) :
    ∃ (res : post_send_result) (new : List notification),
      post_send_loop abi mem buffer_size ioctl fuel buf rc done swr rounds = Except.ok res ∧
      res.bad = [] ∧
      res.rounds = rounds ++ new ∧
      res.chain = done ++ swr.map (auto_inline abi) ∧
      new.flatMap notification.packed = swr.map (auto_inline abi) ∧
      (∀ c : List ibv_send_wr,
        new.flatMap (fun n => (c.drop n.first).take n.packed.length) =
          (c.drop done.length).take swr.length) ∧
      maximal_rounds abi buffer_size (new.map notification.packed) ∧
      (∀ n ∈ new, n.buf.wqe_counter = n.packed.length) ∧
      (swr ≠ [] → new ≠ []) ∧
      (swr ≠ [] → buffer_size < abi.sizeof_snd_hdr + sum_wqe_size abi swr → 2 ≤ new.length) := by
  induction fuel generalizing buf rc done swr rounds with
  | zero =>
    have : swr = [] := List.length_eq_zero.mp (by omega)
    subst this
    exact ⟨_, [], rfl, rfl, by simp, by simp, rfl, by simp, trivial, by simp, by simp, by simp⟩
  | succ f ih =>
    cases swr with
    | nil =>
      exact ⟨_, [], rfl, rfl, by simp, by simp, rfl, by simp, trivial, by simp, by simp, by simp⟩
    | cons s next =>
      obtain ⟨hp, hc, hr, -⟩ := send_round_ok abi hE mem buffer_size buf rc (s :: next)
      have hs := hfit s (List.mem_cons_self _ _)
      have hm1 := round_count_pos abi buffer_size abi.sizeof_snd_hdr s next hs
      have hmle := round_count_le abi buffer_size abi.sizeof_snd_hdr (s :: next)
      have hhdr : abi.sizeof_snd_hdr ≤ buffer_size := by omega
      have hfits := round_count_fits abi buffer_size abi.sizeof_snd_hdr (s :: next) hhdr
      have hmax := round_count_maximal abi buffer_size abi.sizeof_snd_hdr (s :: next)
      generalize hm : round_count abi buffer_size abi.sizeof_snd_hdr (s :: next) = m at *
      generalize hrr : send_round abi mem buffer_size buf rc (s :: next) = r at *
      have hrlen : r.rest.length = (s :: next).length - m := by
        rw [← hr.length_eq, List.length_drop]
      have hrfit : ∀ x ∈ r.rest, abi.sizeof_snd_hdr + wqe_size abi x ≤ buffer_size := by
        have h1 : ∀ x ∈ (s :: next).drop m, wqe_size abi x ≤ buffer_size - abi.sizeof_snd_hdr :=
          fun x hx => by
            have := hfit x (List.mem_of_mem_drop hx)
            omega
        intro x hx
        have := forall₂_promoted_fits abi _ hr h1 x hx
        omega
      obtain ⟨res, new, hres, hbad, hrounds, hchain, hflat, hpos, hmaxr, hcntr, hne, h2⟩ :=
        ih { r.buf with wqe_counter := (ioctl rounds.length).wqe_counter }
          (ioctl rounds.length).rc (done ++ r.packed) r.rest
          (rounds ++ [⟨{ r.buf with wqe_counter := r.wqe_counter }, done.length, r.packed⟩])
          (by rw [hrlen]; simp only [List.length_cons] at hfuel ⊢; omega) hrfit
      have hrmap := forall₂_promoted_map abi hr
      have hplen : r.packed.length = m := by
        rw [hp, List.length_map, List.length_take]
        omega
      refine ⟨res, ⟨{ r.buf with wqe_counter := r.wqe_counter }, done.length, r.packed⟩ :: new,
        ?_, hbad, ?_, ?_, ?_, ?_, ?_, ?_, by simp, ?_⟩
      · simp only [post_send_loop, hrr]
        rw [if_neg (by omega), if_pos (hio _)]
        exact hres
      · rw [hrounds]; simp
      · rw [hchain, hrmap, hp, List.append_assoc, ← List.map_append, List.take_append_drop]
      · rw [List.flatMap_cons, hflat, hrmap]
        show r.packed ++ _ = _
        rw [hp, ← List.map_append, List.take_append_drop]
      · intro c
        rw [List.flatMap_cons, hpos c, hrlen]
        show List.take r.packed.length (List.drop done.length c) ++ _ = _
        rw [hplen, List.length_append, hplen, ← List.drop_drop, ← List.take_add]
        congr 1
        omega
      · have hpne : r.packed ≠ [] := by
          intro h0
          rw [h0] at hplen
          simp at hplen
          omega
        have hpfit : fits_batch abi buffer_size r.packed := by
          unfold fits_batch
          rw [hp, sum_wqe_size_map_auto_inline]
          exact hfits
        cases new with
        | nil => exact ⟨hpne, hpfit⟩
        | cons n2 new2 =>
          have hn2 : n2.packed ≠ [] := by
            cases new2 with
            | nil => exact hmaxr.1
            | cons _ _ => exact hmaxr.1
          refine ⟨hpne, hpfit, ?_, hmaxr⟩
          have hrne : r.rest ≠ [] := by
            intro h0
            rw [h0, List.flatMap_cons] at hflat
            simp at hflat
            exact hn2 hflat.1
          have hlt : m ≠ (s :: next).length := by
            intro h0
            rw [h0] at hrlen
            simp at hrlen
            exact hrne hrlen
          have hbig : buffer_size < abi.sizeof_snd_hdr +
              sum_wqe_size abi ((s :: next).take (m + 1)) := by
            rcases hmax with h | h
            · exact h
            · exact absurd h hlt
          have htake : n2.packed.take 1 = (((s :: next).drop m).take 1).map (auto_inline abi) := by
            rw [List.map_take, ← hrmap, ← hflat, List.flatMap_cons]
            cases hq : n2.packed with
            | nil => exact absurd hq hn2
            | cons a t => simp
          unfold fits_batch
          rw [htake, hp, ← List.map_append, ← List.take_add, sum_wqe_size_map_auto_inline]
          omega
      · intro n hn
        rcases List.mem_cons.mp hn with rfl | hn
        · show r.wqe_counter = r.packed.length
          rw [hc, hplen]
        · exact hcntr n hn
      · intro _ hbig
        have hlt : m ≠ (s :: next).length := by
          intro h0
          rw [h0, List.take_length] at hfits
          omega
        have hrne : r.rest ≠ [] := by
          intro h0
          rw [h0] at hrlen
          simp only [List.length_nil] at hrlen
          omega
        have := hne hrne
        cases new with
        | nil => exact absurd rfl this
        | cons _ _ => simp


theorem promoted_fields (abi : Abi) {a b : ibv_send_wr} (h : promoted abi a b) :
    b.wr_id = a.wr_id ∧ b.sg_list = a.sg_list ∧ b.opcode = a.opcode ∧
    b.imm_data = a.imm_data ∧ b.remote_addr = a.remote_addr ∧ b.rkey = a.rkey ∧
    (b.send_flags = a.send_flags ∨ b.send_flags = a.send_flags ||| abi.IBV_SEND_INLINE) := by
  rcases h with rfl | rfl
  · exact ⟨rfl, rfl, rfl, rfl, rfl, rfl, Or.inl rfl⟩
  · obtain ⟨h1, h2, h3, h4, h5⟩ := auto_inline_fields abi a
    refine ⟨h1, auto_inline_sg_list abi a, h2, h3, h4, h5, ?_⟩
    unfold auto_inline
    split
    · split
      · exact Or.inr rfl
      · exact Or.inl rfl
    · exact Or.inl rfl

theorem post_send_loop_chain (abi : Abi) (mem : Nat → Nat) (buffer_size : Nat)
    (ioctl : Nat → send_answer) (fuel : Nat) (buf : send_buffer) (rc : Int)
    (done swr : List ibv_send_wr) (rounds : List notification) (hfuel : swr.length ≤ fuel) :
    post_send_loop abi mem buffer_size ioctl fuel buf rc done swr rounds ≠
      Except.error fault.out_of_fuel ∧
    ∀ res, post_send_loop abi mem buffer_size ioctl fuel buf rc done swr rounds = Except.ok res →
      List.Forall₂ (promoted abi) (done ++ swr) res.chain := by
  induction fuel generalizing buf rc done swr rounds with
  | zero =>
    have : swr = [] := List.length_eq_zero.mp (by omega)
    subst this
    refine ⟨by simp [post_send_loop], fun res h => ?_⟩
    simp only [post_send_loop, Except.ok.injEq] at h
    subst h
    simpa using forall₂_promoted_refl abi done
  | succ f ih =>
    cases swr with
    | nil =>
      refine ⟨by simp [post_send_loop], fun res h => ?_⟩
      simp only [post_send_loop, Except.ok.injEq] at h
      subst h
      simpa using forall₂_promoted_refl abi done
    | cons s next =>
      have hcnt : (send_round abi mem buffer_size buf rc (s :: next)).wqe_counter =
          0 + (send_round abi mem buffer_size buf rc (s :: next)).packed.length :=
        pack_round_counter abi mem buffer_size buf size_cell.first_wqe_size
          abi.sizeof_snd_hdr 0 rc (s :: next)
      have hch : List.Forall₂ (promoted abi) (s :: next)
          ((send_round abi mem buffer_size buf rc (s :: next)).packed ++
            (send_round abi mem buffer_size buf rc (s :: next)).rest) :=
        pack_round_chain abi mem buffer_size buf size_cell.first_wqe_size
          abi.sizeof_snd_hdr 0 rc (s :: next)
      have hlen := hch.length_eq
      generalize hrr : send_round abi mem buffer_size buf rc (s :: next) = r at *
      simp only [post_send_loop, hrr]
      by_cases h0 : r.wqe_counter = 0
      · rw [if_pos h0]
        refine ⟨by simp, fun res h => ?_⟩
        simp only [Except.ok.injEq] at h
        subst h
        exact forall₂_promoted_append abi done hch
      · rw [if_neg h0]
        by_cases hrc : 0 ≤ (ioctl rounds.length).rc
        · rw [if_pos hrc]
          have hrl : r.rest.length ≤ f := by
            simp only [List.length_cons, List.length_append] at hlen hfuel
            omega
          obtain ⟨h1, h2⟩ := ih { r.buf with wqe_counter := (ioctl rounds.length).wqe_counter }
            (ioctl rounds.length).rc (done ++ r.packed) r.rest
            (rounds ++ [⟨{ r.buf with wqe_counter := r.wqe_counter }, done.length, r.packed⟩]) hrl
          refine ⟨h1, fun res h => ?_⟩
          have h3 := h2 res h
          rw [List.append_assoc] at h3
          exact forall₂_promoted_trans abi (forall₂_promoted_append abi done hch) h3
        · rw [if_neg hrc]
          cases walk_next (ioctl rounds.length).wqe_counter (r.packed ++ r.rest) with
          | none => exact ⟨by simp, fun res h => by simp at h⟩
          | some bad =>
            refine ⟨by simp, fun res h => ?_⟩
            simp only [Except.ok.injEq] at h
            subst h
            exact forall₂_promoted_append abi done hch

/-- C9 (amended): the encoder leaves every field of the request as it was except
`send_flags`, which is either unchanged or has `IBV_SEND_INLINE` or-ed in by the
promotion of lines 61-63; `ntrdma_post_send` on the fast path never runs out of
rounds, and whenever it returns, every request of the chain is as it was or as
the promotion leaves it. -/
theorem C9_requests_change_only_by_promotion (abi : Abi) (mem : Nat → Nat)
    (ibv_cmd_post_send : List ibv_send_wr → post_send_result) (qp : ntrdma_qp)
    (ioctl : Nat → send_answer) (chain : List ibv_send_wr) (buf : send_buffer) (wqe : Nat)
    (swr : ibv_send_wr) (a : Int) (hfd : 0 ≤ qp.fd) :
    (promoted abi swr (make_ntrdma_send_wqe abi mem buf wqe swr a).swr ∧
      (make_ntrdma_send_wqe abi mem buf wqe swr a).swr.wr_id = swr.wr_id ∧
      (make_ntrdma_send_wqe abi mem buf wqe swr a).swr.sg_list = swr.sg_list ∧
      (make_ntrdma_send_wqe abi mem buf wqe swr a).swr.opcode = swr.opcode ∧
      (make_ntrdma_send_wqe abi mem buf wqe swr a).swr.imm_data = swr.imm_data ∧
      (make_ntrdma_send_wqe abi mem buf wqe swr a).swr.remote_addr = swr.remote_addr ∧
      (make_ntrdma_send_wqe abi mem buf wqe swr a).swr.rkey = swr.rkey ∧
      ((make_ntrdma_send_wqe abi mem buf wqe swr a).swr.send_flags = swr.send_flags ∨
        (make_ntrdma_send_wqe abi mem buf wqe swr a).swr.send_flags =
          swr.send_flags ||| abi.IBV_SEND_INLINE)) ∧
    ntrdma_post_send abi mem ibv_cmd_post_send qp ioctl chain ≠
      Except.error fault.out_of_fuel ∧
    ∀ res, ntrdma_post_send abi mem ibv_cmd_post_send qp ioctl chain = Except.ok res →
      List.Forall₂ (promoted abi) chain res.chain := by
  have hp := make_swr_promoted abi mem buf wqe swr a
  have hl := post_send_loop_chain abi mem qp.buffer_size ioctl chain.length qp.buffer 0 []
    chain [] (Nat.le_refl _)
  have hun : ntrdma_post_send abi mem ibv_cmd_post_send qp ioctl chain =
      post_send_loop abi mem qp.buffer_size ioctl chain.length qp.buffer 0 [] chain [] := by
    unfold ntrdma_post_send post_send_fast
    rw [if_neg (by omega)]
  rw [hun]
  exact ⟨⟨hp, promoted_fields abi hp⟩, hl.1, fun res h => by simpa using hl.2 res h⟩

/-- C4: on the fast path, for a chain each request of which fits on its own in
an empty batch, and a counterpart that never fails, the call returns with `*bad`
`NULL`; the log holds one notification per round; every round is a non-empty
batch that fits and could not have taken the next request as well; the rounds,
one after the other, are the chain in order, both by position (round by round,
the requests at `first, first + 1, ..` of the caller's chain) and by content (the
requests as the encoder left them); the batch header of every notification
counts the records of its round; and a chain that does not fit in one batch
takes at least two rounds. -/
theorem C4_chain_split_into_rounds (abi : Abi) (hE : 0 < abi.ENOMEM) (mem : Nat → Nat)
    (ibv_cmd_post_send : List ibv_send_wr → post_send_result) (qp : ntrdma_qp)
    (hfd : 0 ≤ qp.fd) (ioctl : Nat → send_answer) (hio : ∀ n, 0 ≤ (ioctl n).rc)
    (chain : List ibv_send_wr)
    (hfit : ∀ s ∈ chain, abi.sizeof_snd_hdr + wqe_size abi s ≤ qp.buffer_size) :
    ∃ res : post_send_result,
      ntrdma_post_send abi mem ibv_cmd_post_send qp ioctl chain = Except.ok res ∧
      res.bad = [] ∧
      res.rounds.flatMap notification.packed = chain.map (auto_inline abi) ∧
      res.rounds.flatMap (fun n => (chain.drop n.first).take n.packed.length) = chain ∧
      maximal_rounds abi qp.buffer_size (res.rounds.map notification.packed) ∧
      (∀ n ∈ res.rounds, n.buf.wqe_counter = n.packed.length) ∧
      (chain ≠ [] → qp.buffer_size < abi.sizeof_snd_hdr + sum_wqe_size abi chain →
        2 ≤ res.rounds.length) := by
  obtain ⟨res, new, hres, hbad, hrounds, -, hflat, hpos, hmax, hcnt, -, h2⟩ :=
    post_send_loop_ok abi hE mem qp.buffer_size ioctl hio chain.length qp.buffer 0 [] chain []
      (Nat.le_refl _) hfit
  simp only [List.nil_append] at hrounds
  subst hrounds
  refine ⟨res, ?_, hbad, hflat, ?_, hmax, hcnt, h2⟩
  · unfold ntrdma_post_send post_send_fast
    rw [if_neg (by omega)]
    exact hres
  · simpa using hpos chain

/-! ## Lemmas on the polling loop -/

theorem poll_loop_inv (abi : Abi) (ioctl : Nat → Int → poll_answer) (max_entries : Int)
    (fuel : Nat) (st st' : poll_state)
    (h : poll_loop abi ioctl max_entries fuel st = Except.ok st') (hinv : poll_inv st) :
    poll_inv st' ∧ st.rounds.length ≤ st'.rounds.length ∧
      (st.num_entries ≠ 0 → st.rounds.length < st'.rounds.length) := by
  induction fuel generalizing st st' with
  | zero =>
    unfold poll_loop at h
    by_cases h0 : st.num_entries = 0
    · rw [if_pos h0] at h
      simp only [Except.ok.injEq] at h
      subst h
      exact ⟨hinv, Nat.le_refl _, fun hne => absurd h0 hne⟩
    · rw [if_neg h0] at h
      simp at h
  | succ f ih =>
    unfold poll_loop at h
    by_cases h0 : st.num_entries = 0
    · rw [if_pos h0] at h
      simp only [Except.ok.injEq] at h
      subst h
      exact ⟨hinv, Nat.le_refl _, fun hne => absurd h0 hne⟩
    · rw [if_neg h0] at h
      simp only at h
      obtain ⟨hpos, hsum, hlast⟩ := hinv
      generalize hreq : (if st.num_entries > max_entries then max_entries
        else st.num_entries) = req at h
      generalize hans : ioctl st.rounds.length req = answer at h
      by_cases hrc : errno_rc answer.rc answer.errno < 0
      · rw [if_pos hrc] at h
        simp only [Except.ok.injEq] at h
        subst h
        refine ⟨⟨hpos, ?_, fun _ _ => ⟨⟨req, answer, 0, 0, 0⟩, by simp, rfl⟩⟩, by simp, fun _ => by simp⟩
        simpa using hsum
      · rw [if_neg hrc] at h
        by_cases hz : (answer.wc_counter : Int) = 0
        · rw [if_pos hz] at h
          simp only [Except.ok.injEq] at h
          subst h
          refine ⟨⟨hpos, ?_, fun _ _ => ⟨⟨req, answer, 0, 0, 0⟩, by simp, rfl⟩⟩, by simp, fun _ => by simp⟩
          simpa using hsum
        · rw [if_neg hz] at h
          have hinv1 : poll_inv
              { rc := errno_rc answer.rc answer.errno
                total := st.total + (answer.wc_counter : Int)
                num_entries := st.num_entries - (answer.wc_counter : Int)
                wc := copy_wc abi answer.wc st.wc st.total.toNat answer.wc_counter
                buffer := ⟨answer.wc_counter, answer.wc⟩
                rounds := st.rounds ++
                  [⟨req, answer, answer.wc_counter,
                    abi.sizeof_poll_hdr + abi.sizeof_wc * st.total.toNat,
                    abi.sizeof_poll_hdr + abi.sizeof_wc * st.total.toNat +
                      abi.sizeof_wc * answer.wc_counter⟩] } := by
            refine ⟨by simp only; omega, ?_, fun ht => ?_⟩
            · simp only [List.map_append, List.sum_append, List.map_cons, List.map_nil,
                List.sum_cons, List.sum_nil, Nat.add_zero]
              rw [hsum]
              push_cast
              rfl
            · simp only at ht
              omega
          by_cases hlt : (answer.wc_counter : Int) < req
          · rw [if_pos hlt] at h
            simp only [Except.ok.injEq] at h
            subst h
            exact ⟨hinv1, by simp, fun _ => by simp⟩
          · rw [if_neg hlt] at h
            obtain ⟨h1, h2, -⟩ := ih _ _ h hinv1
            simp only [List.length_append, List.length_cons, List.length_nil] at h2
            exact ⟨h1, by omega, fun _ => by omega⟩


theorem poll_loop_terminates (abi : Abi) (ioctl : Nat → Int → poll_answer) (max_entries : Int)
    (hmax : 0 ≤ max_entries)
    (hresp : ∀ n req, 0 ≤ req → ((ioctl n req).wc_counter : Int) ≤ req)
    (fuel : Nat) (st : poll_state) (hn : 0 ≤ st.num_entries)
    (hfuel : st.num_entries.toNat ≤ fuel) :
    ∃ st', poll_loop abi ioctl max_entries fuel st = Except.ok st' := by
  induction fuel generalizing st with
  | zero =>
    unfold poll_loop
    rw [if_pos (by omega)]
    exact ⟨_, rfl⟩
  | succ f ih =>
    unfold poll_loop
    by_cases h0 : st.num_entries = 0
    · rw [if_pos h0]
      exact ⟨_, rfl⟩
    · rw [if_neg h0]
      simp only
      generalize hreq : (if st.num_entries > max_entries then max_entries
        else st.num_entries) = req
      have hreqle : req ≤ st.num_entries ∧ 0 ≤ req := by
        rw [← hreq]
        split <;> omega
      have hr := hresp st.rounds.length req hreqle.2
      generalize ioctl st.rounds.length req = answer at hr
      split
      · exact ⟨_, rfl⟩
      · split
        · exact ⟨_, rfl⟩
        · split
          · exact ⟨_, rfl⟩
          · rename_i hz hlt
            exact ih _ (by simp only; omega) (by simp only; omega)

/-- C6 (amended): for `num_entries ≥ 1` on the fast path, whenever the call
returns, the number of records copied is the sum over the rounds; if it is not
zero it is the value returned; if it is zero, the value returned is the result of
the last notification (the value of `ioctl`, with -1 replaced by `-errno`), which
is 0 when the notification returned 0.  The call does return, within
`num_entries` rounds, when no round hands back more records than it was asked
for. -/
theorem C6_poll_return_value (abi : Abi) (ibv_cmd_poll_cq : Int → (Nat → ibv_wc) → Int × (Nat → ibv_wc))
    (cq : ntrdma_cq) (ioctl : Nat → Int → poll_answer) (fuel : Nat) (num_entries : Int)
    (wc : Nat → ibv_wc) (hN : 1 ≤ num_entries) (hfd : 0 ≤ cq.fd) :
    ((∀ n req, 0 ≤ req → ((ioctl n req).wc_counter : Int) ≤ req) → num_entries.toNat ≤ fuel →
      ∃ res, ntrdma_poll_cq abi ibv_cmd_poll_cq cq ioctl fuel num_entries wc = Except.ok res) ∧
    ∀ res, ntrdma_poll_cq abi ibv_cmd_poll_cq cq ioctl fuel num_entries wc = Except.ok res →
      res.total = (((res.rounds.map poll_round.copied).sum : Nat) : Int) ∧
      (res.total ≠ 0 → res.rc = res.total) ∧
      (res.total = 0 → ∃ last, res.rounds.getLast? = some last ∧
        res.rc = errno_rc last.answer.rc last.answer.errno ∧
        (last.answer.rc = 0 → res.rc = 0)) := by
  have hun : ntrdma_poll_cq abi ibv_cmd_poll_cq cq ioctl fuel num_entries wc =
      match poll_loop abi ioctl
          (((cq.buffer_size - abi.sizeof_poll_hdr) / abi.sizeof_wc : Nat) : Int) fuel
          ⟨0, 0, num_entries, wc, cq.buffer, []⟩ with
      | Except.error e => Except.error e
      | Except.ok st =>
        Except.ok ⟨if st.total ≠ 0 then st.total else st.rc, st.wc, st.total, st.buffer,
          st.rounds, 0⟩ := by
    unfold ntrdma_poll_cq
    rw [if_neg (by omega), if_neg (by omega), if_neg (by omega)]
    try rfl
  rw [hun]
  constructor
  · intro hresp hfuel
    obtain ⟨st', hst⟩ := poll_loop_terminates abi ioctl
      (((cq.buffer_size - abi.sizeof_poll_hdr) / abi.sizeof_wc : Nat) : Int)
      (Int.ofNat_nonneg _) hresp fuel
      ⟨0, 0, num_entries, wc, cq.buffer, []⟩ (by simp only; omega) hfuel
    rw [hst]
    exact ⟨_, rfl⟩
  · intro res hres
    cases hl : poll_loop abi ioctl
        (((cq.buffer_size - abi.sizeof_poll_hdr) / abi.sizeof_wc : Nat) : Int) fuel
        ⟨0, 0, num_entries, wc, cq.buffer, []⟩ with
    | error e => rw [hl] at hres; simp at hres
    | ok st =>
      rw [hl] at hres
      simp only [Except.ok.injEq] at hres
      subst hres
      obtain ⟨⟨-, hsum, hlast⟩, -, hne⟩ := poll_loop_inv abi ioctl _ fuel _ st hl
        ⟨by simp, by simp, by simp⟩
      refine ⟨hsum, fun h => by simp [h], fun h => ?_⟩
      simp only at h
      have hne2 : st.rounds ≠ [] := by
        have := hne (by simp only; omega)
        intro h0
        rw [h0] at this
        simp at this
      obtain ⟨last, h1, h2⟩ := hlast h hne2
      refine ⟨last, h1, by simp [h, h2], fun hz => ?_⟩
      simp [h, h2, hz, errno_rc]

/-- C6, as stated, fails: when the one notification returns 5 and hands back no
record, the call returns 5, not 0, with no record copied. -/
theorem C6_positive_notification_counterexample :
    (ntrdma_poll_cq sample_abi sample_cmd_poll_cq sample_cq
        (fun _ _ => ⟨5, 0, 0, fun _ => ⟨0, 0, 0⟩⟩) 1 1 (fun _ => ⟨0, 0, 0⟩)).toOption.map
      (fun r => (r.rc, r.total, r.rounds.map poll_round.copied)) = some (5, 0, [0]) := by
  decide


/-- C6, at a concrete input: 100 entries polled from the sample counterpart. -/
theorem C6_poll_return_value_witness :
    (1 : Int) ≤ 100 ∧ (0 : Int) ≤ sample_cq.fd ∧
    ∃ res, ntrdma_poll_cq sample_abi sample_cmd_poll_cq sample_cq sample_poll_ioctl 100 100
        (fun _ => ⟨0, 0, 0⟩) = Except.ok res ∧
      res.total = (((res.rounds.map poll_round.copied).sum : Nat) : Int) ∧
      (res.total ≠ 0 → res.rc = res.total) ∧
      (res.total = 0 → ∃ last, res.rounds.getLast? = some last ∧
        res.rc = errno_rc last.answer.rc last.answer.errno ∧
        (last.answer.rc = 0 → res.rc = 0)) := by
  have h := C6_poll_return_value sample_abi sample_cmd_poll_cq sample_cq sample_poll_ioctl 100 100
    (fun _ => ⟨0, 0, 0⟩) (by decide) (by decide)
  obtain ⟨res, hres⟩ := h.1 (fun n req hreq => by
    show ((req.toNat : Nat) : Int) ≤ req
    omega) (by decide)
  exact ⟨by decide, by decide, res, hres, h.2 res hres⟩

/-- C5, the code at `num_entries = 86` with a 4096-byte page, a 4-byte poll
header and 48-byte records (85 records a round): both rounds succeed, the second
one returns the one record with `wr_id` 1001 at offset 4, directly behind the
poll header, and the call copies entry 85 of the caller's array from the bytes
4084 to 4132 instead, which reach past the end of the page: the output ends in
the zero record found there, not in the record the second round returned. -/
theorem C5_second_round_reads_past_first_slot :
    (ntrdma_poll_cq sample_abi sample_cmd_poll_cq sample_cq sample_poll_ioctl 86 86
        (fun _ => ⟨0, 0, 0⟩)).toOption.map
      (fun r => (r.rc, r.rounds.map poll_round.req_entries, r.rounds.map poll_round.copied,
        r.rounds.map poll_round.src, r.rounds.map poll_round.src_end)) =
      some (86, [85, 1], [85, 1], [4, 4084], [4084, 4132]) ∧
    (ntrdma_poll_cq sample_abi sample_cmd_poll_cq sample_cq sample_poll_ioctl 86 86
        (fun _ => ⟨0, 0, 0⟩)).toOption.map (fun r => (r.wc 0, r.wc 84, r.wc 85)) =
      some (⟨1, 0, 0⟩, ⟨85, 0, 0⟩, ⟨0, 0, 0⟩) ∧
    (sample_poll_ioctl 1 1).wc 4 = ⟨1001, 0, 0⟩ ∧
    sample_cq.buffer_size < 4132 := by
  decide

/-- C3, at a concrete input: three 4-byte RDMA writes in a 4096-byte buffer, a
counterpart that fails with `errno = 5` after one record.  The call returns -5
and `*bad` is the second request, two requests before the end of the chain. -/
theorem C3_failed_round_reports_successor_witness :
    1 ≤ (send_round sample_abi sample_mem 4096 zero_buffer 0
      [small_write, small_write, small_write]).wqe_counter ∧
    (fail_after_one 0).rc < 0 ∧
    (fail_after_one 0).wqe_counter ≤ (send_round sample_abi sample_mem 4096 zero_buffer 0
      [small_write, small_write, small_write]).wqe_counter ∧
    ∃ res : post_send_result,
      post_send_loop sample_abi sample_mem 4096 fail_after_one 3 zero_buffer 0 []
        [small_write, small_write, small_write] [] = Except.ok res ∧
      res.rc = -5 ∧ res.rounds.length = 1 ∧ res.bad.length + 1 = 3 := by
  obtain ⟨res, h1, h2, -, -, h5, h6, -, -⟩ :=
    C3_failed_round_reports_successor sample_abi sample_mem 4096 fail_after_one 2 zero_buffer 0
      [] small_write [small_write, small_write] [] (by decide) (by decide) (by decide)
  exact ⟨by decide, by decide, by decide, res, h1, h2, h5, h6⟩

/-- C4, at a concrete input: five 52-byte records and a 120-byte buffer that
holds two of them behind the batch header. -/
theorem C4_chain_split_into_rounds_witness :
    0 < sample_abi.ENOMEM ∧ 0 ≤ sample_qp.fd ∧ (∀ n, 0 ≤ (accept_all n).rc) ∧
    (∀ s ∈ sample_chain,
      sample_abi.sizeof_snd_hdr + wqe_size sample_abi s ≤ sample_qp.buffer_size) ∧
    ∃ res : post_send_result,
      ntrdma_post_send sample_abi sample_mem sample_cmd_post_send sample_qp accept_all
        sample_chain = Except.ok res ∧
      res.bad = [] ∧
      res.rounds.flatMap (fun n => (sample_chain.drop n.first).take n.packed.length) =
        sample_chain ∧
      2 ≤ res.rounds.length := by
  obtain ⟨res, h1, h2, -, h4, -, -, h7⟩ :=
    C4_chain_split_into_rounds sample_abi (by decide) sample_mem sample_cmd_post_send sample_qp
      (by decide) accept_all (fun _ => Int.le_refl 0) sample_chain (by decide)
  exact ⟨by decide, by decide, fun _ => Int.le_refl 0, by decide, res, h1, h2, h4,
    h7 (by decide) (by decide)⟩

/-- C7, at a concrete input: the 4-byte RDMA write with 4088 bytes free. -/
theorem C7_no_space_iff_witness :
    0 < sample_abi.ENOMEM ∧
    ((make_ntrdma_send_wqe sample_abi sample_mem zero_buffer 8 small_write 4088).rc < 0 →
      (make_ntrdma_send_wqe sample_abi sample_mem zero_buffer 8 small_write 4088).rc =
        -(sample_abi.ENOMEM : Int)) :=
  ⟨by decide,
    (C7_no_space_iff sample_abi (by decide) sample_mem zero_buffer 8 small_write 4088).2⟩

/-- C8, at a concrete input: the 4-byte RDMA write with 4088 bytes free takes
the 48-byte header and a 4-byte tail. -/
theorem C8_return_is_header_plus_tail_witness :
    0 < sample_abi.sizeof_wqe ∧ 0 < sample_abi.ENOMEM ∧
    0 ≤ (make_ntrdma_send_wqe sample_abi sample_mem zero_buffer 8 small_write 4088).rc ∧
    (make_ntrdma_send_wqe sample_abi sample_mem zero_buffer 8 small_write 4088).rc =
      ((sample_abi.sizeof_wqe + tail_size sample_abi small_write : Nat) : Int) :=
  ⟨by decide, by decide, by decide,
    (C8_return_is_header_plus_tail sample_abi (by decide) (by decide) sample_mem zero_buffer 8
      small_write 4088 (by decide)).1⟩

/-- C9, at a concrete input: the 4-byte RDMA write and the sample chain. -/
theorem C9_requests_change_only_by_promotion_witness :
    0 ≤ sample_qp.fd ∧
    promoted sample_abi small_write
      (make_ntrdma_send_wqe sample_abi sample_mem zero_buffer 8 small_write 4088).swr ∧
    ntrdma_post_send sample_abi sample_mem sample_cmd_post_send sample_qp accept_all
      sample_chain ≠ Except.error fault.out_of_fuel :=
  ⟨by decide,
    (C9_requests_change_only_by_promotion sample_abi sample_mem sample_cmd_post_send sample_qp
      accept_all sample_chain zero_buffer 8 small_write 4088 (by decide)).1.1,
    (C9_requests_change_only_by_promotion sample_abi sample_mem sample_cmd_post_send sample_qp
      accept_all sample_chain zero_buffer 8 small_write 4088 (by decide)).2.1⟩

/-- C9, as stated, fails: the encoder leaves the 4-byte RDMA write with
`send_flags` 8 where the caller had 0, and after `ntrdma_post_send` on the chain
of that one request the chain holds the changed request. -/
theorem C9_send_flags_mutated_counterexample :
    (make_ntrdma_send_wqe sample_abi sample_mem zero_buffer 8 small_write 4088).swr.send_flags ≠
      small_write.send_flags ∧
    (ntrdma_post_send sample_abi sample_mem sample_cmd_post_send sample_qp accept_all
        [small_write]).toOption.map (fun r => r.chain.map ibv_send_wr.send_flags) = some [8] ∧
    [small_write].map ibv_send_wr.send_flags = [0] := by
  decide

/-- C10, at a concrete input: the 4-byte RDMA write with 4088 bytes free. -/
theorem C10_discriminant_is_opcode_and_flag_witness :
    0 < sample_abi.ENOMEM ∧ 0 < sample_abi.sizeof_sge ∧
    0 ≤ (make_ntrdma_send_wqe sample_abi sample_mem zero_buffer 8 small_write 4088).rc ∧
    wqe_is_inline sample_abi
        ((make_ntrdma_send_wqe sample_abi sample_mem zero_buffer 8 small_write 4088).buf.wqe 8) =
      is_inline sample_abi (auto_inline sample_abi small_write) :=
  ⟨by decide, by decide, by decide,
    (C10_discriminant_is_opcode_and_flag sample_abi (by decide) (by decide) sample_mem
      zero_buffer 8 small_write 4088 (by decide)).1⟩

/-! ## The records of a round -/

theorem make_load_size (abi : Abi) (mem : Nat → Nat) (buf : send_buffer) (wqe : Nat)
    (swr : ibv_send_wr) (a : Int) (c : size_cell) :
    load_size (make_ntrdma_send_wqe abi mem buf wqe swr a).buf c = load_size buf c := by
  by_cases h : (wqe_size abi swr : Int) ≤ a
  · rw [make_ok abi mem buf wqe swr a h]
    unfold write_wqe
    cases c with
    | first_wqe_size => split <;> [rfl; (split <;> rfl)]
    | recv_key o =>
      simp only [load_size]
      by_cases ho : o = wqe
      · subst ho
        split
        · simp [write_header]
        · split <;> simp [write_header]
      · split
        · simp [ho]
        · split <;> simp [ho]
  · rw [make_fail abi mem buf wqe swr a (by omega)]

theorem load_store_same (buf : send_buffer) (c : size_cell) (v : Nat) :
    load_size (store_size buf c v) c = v := by
  cases c <;> simp [load_size, store_size]

theorem load_store_other (buf : send_buffer) (c c' : size_cell) (v : Nat) (h : c' ≠ c) :
    load_size (store_size buf c v) c' = load_size buf c' := by
  cases c <;> cases c' <;> simp [load_size, store_size] at h ⊢
  rename_i a b
  rw [if_neg h]

theorem cell_before_mono {o o' : Nat} (h : o ≤ o') (c : size_cell) (hc : cell_before o c) :
    cell_before o' c := by
  cases c with
  | first_wqe_size => trivial
  | recv_key w => exact Nat.lt_of_lt_of_le hc h

theorem cell_before_ne {o : Nat} (c : size_cell) (hc : cell_before o c) :
    c ≠ size_cell.recv_key o := by
  cases c with
  | first_wqe_size => simp
  | recv_key w =>
    intro h
    injection h with h
    subst h
    exact Nat.lt_irrefl _ hc

theorem pack_round_frame (abi : Abi) (mem : Nat → Nat) (buffer_size : Nat)
    (buf : send_buffer) (wqehdr : size_cell) (offset cnt : Nat) (rc : Int)
    (swr : List ibv_send_wr) (c : size_cell) (hc : cell_before offset c) (hne : c ≠ wqehdr) :
    load_size (pack_round abi mem buffer_size buf wqehdr offset cnt rc swr).buf c =
      load_size buf c := by
  induction swr generalizing buf wqehdr offset cnt rc with
  | nil => rfl
  | cons s next ih =>
    simp only [pack_round]
    split
    · exact make_load_size abi mem buf offset s _ c
    · simp only
      rw [ih _ _ _ _ _ (cell_before_mono (Nat.le_add_right _ _) c hc) (cell_before_ne c hc),
        load_store_other _ _ _ _ hne, make_load_size]


theorem record_log_spec (abi : Abi) (hE : 0 < abi.ENOMEM) (mem : Nat → Nat) (buffer_size : Nat)
    (buf : send_buffer) (wqehdr : size_cell) (offset : Nat) (swr : List ibv_send_wr) :
    (record_log abi mem buffer_size buf wqehdr offset swr).map Prod.snd =
      (swr.take (round_count abi buffer_size offset swr)).map
        (fun s => (wqe_size abi s : Int)) ∧
    (∀ p ∈ record_log abi mem buffer_size buf wqehdr offset swr,
      offset ≤ p.1 ∧ (abi.sizeof_wqe : Int) ≤ p.2 ∧ (p.1 : Int) + p.2 ≤ (buffer_size : Int)) ∧
    (∀ p, (record_log abi mem buffer_size buf wqehdr offset swr).head? = some p →
      p.1 = offset) ∧
    List.Chain' (fun p q : Nat × Int => (q.1 : Int) = (p.1 : Int) + p.2)
      (record_log abi mem buffer_size buf wqehdr offset swr) ∧
    List.Pairwise (fun p q : Nat × Int => (p.1 : Int) + p.2 ≤ (q.1 : Int))
      (record_log abi mem buffer_size buf wqehdr offset swr) := by
  induction swr generalizing buf wqehdr offset with
  | nil => simp [record_log, round_count]
  | cons s next ih =>
    simp only [record_log, round_count]
    by_cases hfit : offset + wqe_size abi s ≤ buffer_size
    · have hfit2 : (wqe_size abi s : Int) ≤ (buffer_size : Int) - (offset : Int) := by omega
      have hrc : (make_ntrdma_send_wqe abi mem buf offset s
          ((buffer_size : Int) - (offset : Int))).rc = (wqe_size abi s : Int) := by
        rw [make_ok abi mem buf offset s _ hfit2, write_wqe_rc]
      rw [if_neg (by rw [hrc]; omega), if_pos hfit, hrc]
      simp only [Int.toNat_ofNat]
      obtain ⟨h1, h2, h3, h4, h5⟩ := ih
        (store_size (make_ntrdma_send_wqe abi mem buf offset s
          ((buffer_size : Int) - (offset : Int))).buf wqehdr (wqe_size abi s))
        (size_cell.recv_key offset) (offset + wqe_size abi s)
      have hsz : (abi.sizeof_wqe : Int) ≤ (wqe_size abi s : Int) := by
        unfold wqe_size; omega
      refine ⟨?_, ?_, ?_, ?_, ?_⟩
      · simp [h1]
      · intro p hp
        rcases List.mem_cons.mp hp with rfl | hp
        · exact ⟨Nat.le_refl _, hsz, by simp only; omega⟩
        · obtain ⟨a1, a2, a3⟩ := h2 p hp
          exact ⟨by omega, a2, a3⟩
      · intro p hp
        simp only [List.head?_cons, Option.some.injEq] at hp
        rw [← hp]
      · cases hL : record_log abi mem buffer_size
            (store_size (make_ntrdma_send_wqe abi mem buf offset s
              ((buffer_size : Int) - (offset : Int))).buf wqehdr (wqe_size abi s))
            (size_cell.recv_key offset) (offset + wqe_size abi s) next with
        | nil => exact List.chain'_singleton _
        | cons q tl =>
          rw [hL] at h3 h4
          refine List.Chain'.cons ?_ h4
          have := h3 q rfl
          simp only
          omega
      · refine List.Pairwise.cons (fun q hq => ?_) h5
        obtain ⟨a1, -, -⟩ := h2 q hq
        simp only
        omega
    · have hfail := make_fail abi mem buf offset s ((buffer_size : Int) - (offset : Int))
        (by omega)
      rw [if_neg hfit, hfail]
      simp only [show (-(abi.ENOMEM : Int) < 0) from by omega, if_true]
      simp

theorem record_log_chain (abi : Abi) (hE : 0 < abi.ENOMEM) (hW : 0 < abi.sizeof_wqe)
    (mem : Nat → Nat) (buffer_size : Nat) (buf : send_buffer) (wqehdr : size_cell)
    (offset cnt : Nat) (rc : Int) (swr : List ibv_send_wr) (hc : cell_before offset wqehdr) :
    (∀ p, (record_log abi mem buffer_size buf wqehdr offset swr).head? = some p →
      load_size (pack_round abi mem buffer_size buf wqehdr offset cnt rc swr).buf wqehdr =
        p.2.toNat) ∧
    List.Chain' (fun p q : Nat × Int =>
        ((pack_round abi mem buffer_size buf wqehdr offset cnt rc swr).buf.wqe p.1).recv_key =
          q.2.toNat)
      (record_log abi mem buffer_size buf wqehdr offset swr) := by
  induction swr generalizing buf wqehdr offset cnt rc with
  | nil => simp [record_log]
  | cons s next ih =>
    simp only [record_log, pack_round]
    by_cases hneg : (make_ntrdma_send_wqe abi mem buf offset s
        ((buffer_size : Int) - (offset : Int))).rc < 0
    · rw [if_pos hneg, if_pos hneg]
      simp
    · rw [if_neg hneg, if_neg hneg]
      have hfit := (make_rc_nonneg_iff abi hE mem buf offset s
        ((buffer_size : Int) - (offset : Int))).mp (by omega)
      have hrc : (make_ntrdma_send_wqe abi mem buf offset s
          ((buffer_size : Int) - (offset : Int))).rc = (wqe_size abi s : Int) := by
        rw [make_ok abi mem buf offset s _ hfit, write_wqe_rc]
      have hpos : 0 < wqe_size abi s := by unfold wqe_size; omega
      rw [hrc]
      simp only [Int.toNat_ofNat]
      obtain ⟨h1, h2⟩ := ih
        (store_size (make_ntrdma_send_wqe abi mem buf offset s
          ((buffer_size : Int) - (offset : Int))).buf wqehdr (wqe_size abi s))
        (size_cell.recv_key offset) (offset + wqe_size abi s) (cnt + 1) (wqe_size abi s : Int)
        (by show offset < offset + wqe_size abi s; omega)
      refine ⟨?_, ?_⟩
      · intro p hp
        simp only [List.head?_cons, Option.some.injEq] at hp
        rw [← hp]
        rw [pack_round_frame abi mem buffer_size _ _ _ _ _ _ wqehdr
          (cell_before_mono (Nat.le_add_right _ _) wqehdr hc) (cell_before_ne wqehdr hc),
          load_store_same]
        simp
      · cases hL : record_log abi mem buffer_size
            (store_size (make_ntrdma_send_wqe abi mem buf offset s
              ((buffer_size : Int) - (offset : Int))).buf wqehdr (wqe_size abi s))
            (size_cell.recv_key offset) (offset + wqe_size abi s) next with
        | nil => exact List.chain'_singleton _
        | cons q tl =>
          rw [hL] at h1 h2
          refine List.Chain'.cons ?_ h2
          exact h1 q rfl

theorem receiver_walk_eq (buf : send_buffer) (L : List (Nat × Int)) (offset size : Nat)
    (hhead : ∀ p, L.head? = some p → p.1 = offset ∧ p.2.toNat = size)
    (hnn : ∀ p ∈ L, 0 ≤ p.2)
    (hcont : List.Chain' (fun p q : Nat × Int => (q.1 : Int) = (p.1 : Int) + p.2) L)
    (hkey : List.Chain' (fun p q : Nat × Int => (buf.wqe p.1).recv_key = q.2.toNat) L) :
    receiver_walk buf L.length offset size = L.map Prod.fst := by
  induction L generalizing offset size with
  | nil => rfl
  | cons p tl ih =>
    obtain ⟨hp1, hp2⟩ := hhead p rfl
    simp only [List.length_cons, receiver_walk, List.map_cons]
    rw [hp1]
    congr 1
    apply ih
    · intro q hq
      cases tl with
      | nil => simp at hq
      | cons q' tl' =>
        simp only [List.head?_cons, Option.some.injEq] at hq
        subst hq
        have h1 := (List.chain'_cons.mp hcont).1
        have h2 := (List.chain'_cons.mp hkey).1
        have h3 := hnn p (List.mem_cons_self _ _)
        rw [← hp1]
        exact ⟨by omega, h2.symm⟩
    · exact fun q hq => hnn q (List.mem_cons_of_mem _ hq)
    · exact hcont.tail
    · exact hkey.tail


theorem send_round_log_length (abi : Abi) (hE : 0 < abi.ENOMEM) (mem : Nat → Nat)
    (buffer_size : Nat) (buf : send_buffer) (rc : Int) (swr : List ibv_send_wr) :
    (send_round_log abi mem buffer_size buf swr).length =
      (send_round abi mem buffer_size buf rc swr).wqe_counter := by
  obtain ⟨h1, -⟩ := record_log_spec abi hE mem buffer_size buf
    size_cell.first_wqe_size abi.sizeof_snd_hdr swr
  obtain ⟨-, hc, -, -⟩ := send_round_ok abi hE mem buffer_size buf rc swr
  have hle := round_count_le abi buffer_size abi.sizeof_snd_hdr swr
  have := congrArg List.length h1
  simp only [List.length_map, List.length_take] at this
  unfold send_round_log
  rw [this, hc]
  omega

theorem send_round_log_sizes (abi : Abi) (hE : 0 < abi.ENOMEM) (mem : Nat → Nat)
    (buffer_size : Nat) (buf : send_buffer) (rc : Int) (swr : List ibv_send_wr) :
    (send_round_log abi mem buffer_size buf swr).map Prod.snd =
      (send_round abi mem buffer_size buf rc swr).packed.map
        (fun s => (wqe_size abi s : Int)) := by
  obtain ⟨h1, -⟩ := record_log_spec abi hE mem buffer_size buf
    size_cell.first_wqe_size abi.sizeof_snd_hdr swr
  obtain ⟨hp, -⟩ := send_round_ok abi hE mem buffer_size buf rc swr
  unfold send_round_log
  rw [h1, hp, List.map_map]
  apply List.map_congr_left
  intro s _
  simp only [Function.comp, wqe_size_auto_inline]

/-- C19: in any round of `ntrdma_post_send`, for every chain, buffer and buffer
size: the round writes as many records as it counts, of the sizes of the
requests it packs; every record starts at or behind the end of the batch header
and ends within the buffer; the first record starts exactly at the end of the
batch header; every later record starts exactly where the one before it ends;
and no two records overlap. -/
theorem C19_records_contiguous_within_buffer
    (abi : Abi) (hE : 0 < abi.ENOMEM) (mem : Nat → Nat) (buffer_size : Nat)
    (buf : send_buffer) (rc : Int) (swr : List ibv_send_wr) :
    (send_round_log abi mem buffer_size buf swr).length =
      (send_round abi mem buffer_size buf rc swr).wqe_counter ∧
    (send_round_log abi mem buffer_size buf swr).map Prod.snd =
      (send_round abi mem buffer_size buf rc swr).packed.map
        (fun s => (wqe_size abi s : Int)) ∧
    (∀ p ∈ send_round_log abi mem buffer_size buf swr,
      abi.sizeof_snd_hdr ≤ p.1 ∧ (abi.sizeof_wqe : Int) ≤ p.2 ∧
        (p.1 : Int) + p.2 ≤ (buffer_size : Int)) ∧
    (∀ p, (send_round_log abi mem buffer_size buf swr).head? = some p →
      p.1 = abi.sizeof_snd_hdr) ∧
    List.Chain' (fun p q : Nat × Int => (q.1 : Int) = (p.1 : Int) + p.2)
      (send_round_log abi mem buffer_size buf swr) ∧
    List.Pairwise (fun p q : Nat × Int => (p.1 : Int) + p.2 ≤ (q.1 : Int))
      (send_round_log abi mem buffer_size buf swr) := by
  obtain ⟨h1, h2, h3, h4, h5⟩ := record_log_spec abi hE mem buffer_size buf
    size_cell.first_wqe_size abi.sizeof_snd_hdr swr
  obtain ⟨hp, hc, -, -⟩ := send_round_ok abi hE mem buffer_size buf rc swr
  have hle := round_count_le abi buffer_size abi.sizeof_snd_hdr swr
  refine ⟨?_, ?_, h2, h3, h4, h5⟩
  · have := congrArg List.length h1
    simp only [List.length_map, List.length_take] at this
    unfold send_round_log
    rw [this, hc]
    omega
  · unfold send_round_log
    rw [h1, hp, List.map_map]
    apply List.map_congr_left
    intro s _
    simp only [Function.comp, wqe_size_auto_inline]


/-- C19, at a concrete input: the first round of the sample chain on the
120-byte buffer writes two records of 52 bytes at offsets 8 and 60. -/
theorem C19_records_contiguous_within_buffer_witness :
    0 < sample_abi.ENOMEM ∧
    send_round_log sample_abi sample_mem sample_qp.buffer_size sample_qp.buffer sample_chain =
      [(8, 52), (60, 52)] ∧
    (send_round_log sample_abi sample_mem sample_qp.buffer_size sample_qp.buffer
        sample_chain).length =
      (send_round sample_abi sample_mem sample_qp.buffer_size sample_qp.buffer 0
        sample_chain).wqe_counter ∧
    List.Pairwise (fun p q : Nat × Int => (p.1 : Int) + p.2 ≤ (q.1 : Int))
      (send_round_log sample_abi sample_mem sample_qp.buffer_size sample_qp.buffer
        sample_chain) :=
  ⟨by decide, by decide,
    (C19_records_contiguous_within_buffer sample_abi (by decide) sample_mem
      sample_qp.buffer_size sample_qp.buffer 0 sample_chain).1,
    (C19_records_contiguous_within_buffer sample_abi (by decide) sample_mem
      sample_qp.buffer_size sample_qp.buffer 0 sample_chain).2.2.2.2.2⟩

theorem post_send_loop_rounds (abi : Abi) (mem : Nat → Nat) (buffer_size : Nat)
    (ioctl : Nat → send_answer) (fuel : Nat) (buf : send_buffer) (rc : Int)
    (done swr : List ibv_send_wr) (rounds : List notification) (res : post_send_result)
    (h : post_send_loop abi mem buffer_size ioctl fuel buf rc done swr rounds = Except.ok res) :
    ∃ new, res.rounds = rounds ++ new := by
  induction fuel generalizing buf rc done swr rounds with
  | zero =>
    cases swr with
    | nil =>
      simp only [post_send_loop, Except.ok.injEq] at h
      subst h
      exact ⟨[], by simp⟩
    | cons s next => simp [post_send_loop] at h
  | succ f ih =>
    cases swr with
    | nil =>
      simp only [post_send_loop, Except.ok.injEq] at h
      subst h
      exact ⟨[], by simp⟩
    | cons s next =>
      simp only [post_send_loop] at h
      generalize send_round abi mem buffer_size buf rc (s :: next) = r at h
      by_cases h0 : r.wqe_counter = 0
      · rw [if_pos h0] at h
        simp only [Except.ok.injEq] at h
        subst h
        exact ⟨[], by simp⟩
      · rw [if_neg h0] at h
        by_cases hrc : 0 ≤ (ioctl rounds.length).rc
        · rw [if_pos hrc] at h
          obtain ⟨new, hnew⟩ := ih _ _ _ _ _ h
          exact ⟨_ :: new, by rw [hnew, List.append_assoc]; rfl⟩
        · rw [if_neg hrc] at h
          cases hw : walk_next (ioctl rounds.length).wqe_counter (r.packed ++ r.rest) with
          | none => rw [hw] at h; simp at h
          | some bad =>
            rw [hw] at h
            simp only [Except.ok.injEq] at h
            subst h
            exact ⟨_, rfl⟩

theorem getElem?_append_cons {α : Type} (l : List α) (a : α) (t : List α) :
    (l ++ a :: t)[l.length]? = some a := by
  induction l with
  | nil => simp
  | cons b l ih => simpa using ih

/-- C11: at the head of any iteration of the outer loop of `ntrdma_post_send`
whose round packs at least one record, the notification of that round (the entry
the iteration adds to the log, whenever the call returns) finds the scratch
buffer with: the record count of the batch header equal to the number of records
written; the first-record-size field of the batch header equal to the size
returned for the first record; in every record but the last, the chained size
field (`recv_key`) equal to the size returned for the next record.  These are
the values in the buffer after the whole round, so no later record of the round
has overwritten them, and every later record starts at or behind the end of the
header of an earlier one.  A receiver that starts behind the batch header and
advances by the chained sizes visits exactly the offsets the records were
written at, in order.  The sizes returned are the sizes of the requests
packed. -/
theorem C11_notified_batch_is_chained
    (abi : Abi) (hE : 0 < abi.ENOMEM) (hW : 0 < abi.sizeof_wqe) (mem : Nat → Nat)
    (buffer_size : Nat) (ioctl : Nat → send_answer) (fuel : Nat) (buf : send_buffer) (rc : Int)
    (done : List ibv_send_wr) (swr : ibv_send_wr) (next : List ibv_send_wr)
    (rounds : List notification)
    (hm : 1 ≤ (send_round abi mem buffer_size buf rc (swr :: next)).wqe_counter) :
    (∀ res, post_send_loop abi mem buffer_size ioctl (fuel + 1) buf rc done (swr :: next)
        rounds = Except.ok res →
      ∃ n, res.rounds[rounds.length]? = some n ∧
        n.buf = notified_buffer (send_round abi mem buffer_size buf rc (swr :: next)) ∧
        n.packed = (send_round abi mem buffer_size buf rc (swr :: next)).packed) ∧
    (notified_buffer (send_round abi mem buffer_size buf rc (swr :: next))).wqe_counter =
      (send_round_log abi mem buffer_size buf (swr :: next)).length ∧
    (∀ p, (send_round_log abi mem buffer_size buf (swr :: next)).head? = some p →
      (notified_buffer (send_round abi mem buffer_size buf rc (swr :: next))).first_wqe_size =
        p.2.toNat) ∧
    List.Chain' (fun p q : Nat × Int =>
        ((notified_buffer (send_round abi mem buffer_size buf rc (swr :: next))).wqe
          p.1).recv_key = q.2.toNat)
      (send_round_log abi mem buffer_size buf (swr :: next)) ∧
    receiver_offsets abi (notified_buffer (send_round abi mem buffer_size buf rc (swr :: next))) =
      (send_round_log abi mem buffer_size buf (swr :: next)).map Prod.fst ∧
    List.Pairwise (fun p q : Nat × Int => p.1 + abi.sizeof_wqe ≤ q.1)
      (send_round_log abi mem buffer_size buf (swr :: next)) ∧
    (send_round_log abi mem buffer_size buf (swr :: next)).map Prod.snd =
      (send_round abi mem buffer_size buf rc (swr :: next)).packed.map
        (fun s => (wqe_size abi s : Int)) := by
  have c1 := send_round_log_length abi hE mem buffer_size buf rc (swr :: next)
  have c2 := send_round_log_sizes abi hE mem buffer_size buf rc (swr :: next)
  obtain ⟨-, c3, c4, c5, c6⟩ := record_log_spec abi hE mem buffer_size buf
    size_cell.first_wqe_size abi.sizeof_snd_hdr (swr :: next)
  obtain ⟨k1, k2⟩ := record_log_chain abi hE hW mem buffer_size buf size_cell.first_wqe_size
    abi.sizeof_snd_hdr 0 rc (swr :: next) trivial
  have c7 : List.Pairwise (fun p q : Nat × Int => p.1 + abi.sizeof_wqe ≤ q.1)
      (send_round_log abi mem buffer_size buf (swr :: next)) := by
    refine List.Pairwise.imp_of_mem ?_ c6
    intro p q hp _ hpq
    have := (c3 p hp).2.1
    omega
  refine ⟨fun res h => ?_, c1.symm, k1, k2, ?_, c7, c2⟩
  · simp only [post_send_loop] at h
    rw [if_neg (by omega)] at h
    by_cases hrc : 0 ≤ (ioctl rounds.length).rc
    · rw [if_pos hrc] at h
      obtain ⟨new, hnew⟩ := post_send_loop_rounds _ _ _ _ _ _ _ _ _ _ _ h
      refine ⟨⟨notified_buffer (send_round abi mem buffer_size buf rc (swr :: next)),
        done.length, (send_round abi mem buffer_size buf rc (swr :: next)).packed⟩, ?_, rfl, rfl⟩
      rw [hnew, List.append_assoc]
      exact getElem?_append_cons _ _ _
    · rw [if_neg hrc] at h
      cases hw : walk_next (ioctl rounds.length).wqe_counter
          ((send_round abi mem buffer_size buf rc (swr :: next)).packed ++
            (send_round abi mem buffer_size buf rc (swr :: next)).rest) with
      | none => rw [hw] at h; simp at h
      | some bad =>
        rw [hw] at h
        simp only [Except.ok.injEq] at h
        subst h
        refine ⟨⟨notified_buffer (send_round abi mem buffer_size buf rc (swr :: next)),
          done.length, (send_round abi mem buffer_size buf rc (swr :: next)).packed⟩,
          ?_, rfl, rfl⟩
        exact getElem?_append_cons _ _ _
  · unfold receiver_offsets
    show receiver_walk _ (send_round abi mem buffer_size buf rc (swr :: next)).wqe_counter _
      _ = _
    rw [← c1]
    apply receiver_walk_eq
    · intro p hp
      exact ⟨c4 p hp, (k1 p hp).symm⟩
    · intro p hp
      have := (c3 p hp).2.1
      omega
    · exact c5
    · exact k2

/-- C11, at a concrete input: the first round of the sample chain on the
120-byte buffer packs two records; the receiver visits offsets 8 and 60. -/
theorem C11_notified_batch_is_chained_witness :
    0 < sample_abi.ENOMEM ∧ 0 < sample_abi.sizeof_wqe ∧
    1 ≤ (send_round sample_abi sample_mem sample_qp.buffer_size sample_qp.buffer 0
      (small_write :: List.replicate 4 small_write)).wqe_counter ∧
    (send_round_log sample_abi sample_mem sample_qp.buffer_size sample_qp.buffer
      (small_write :: List.replicate 4 small_write)).map Prod.fst = [8, 60] ∧
    receiver_offsets sample_abi
        (notified_buffer (send_round sample_abi sample_mem sample_qp.buffer_size
          sample_qp.buffer 0 (small_write :: List.replicate 4 small_write))) =
      (send_round_log sample_abi sample_mem sample_qp.buffer_size sample_qp.buffer
        (small_write :: List.replicate 4 small_write)).map Prod.fst :=
  ⟨by decide, by decide, by decide, by decide,
    (C11_notified_batch_is_chained sample_abi (by decide) (by decide) sample_mem
      sample_qp.buffer_size accept_all 4 sample_qp.buffer 0 [] small_write
      (List.replicate 4 small_write) [] (by decide)).2.2.2.2.1⟩

/-! ## No space for the request at the head of a round -/

theorem forall₂_promoted_mem (abi : Abi) {l1 l2 : List ibv_send_wr}
    (h : List.Forall₂ (promoted abi) l1 l2) (y : ibv_send_wr) (hy : y ∈ l2) :
    ∃ x ∈ l1, promoted abi x y := by
  induction h with
  | nil => simp at hy
  | cons hab _ ih =>
    rcases List.mem_cons.mp hy with rfl | hy
    · exact ⟨_, List.mem_cons_self _ _, hab⟩
    · obtain ⟨x, hx, hxy⟩ := ih hy
      exact ⟨x, List.mem_cons_of_mem _ hx, hxy⟩

theorem round_count_zero (abi : Abi) (buffer_size offset : Nat) (s : ibv_send_wr)
    (next : List ibv_send_wr) (h : round_count abi buffer_size offset (s :: next) = 0) :
    buffer_size < offset + wqe_size abi s := by
  simp only [round_count] at h
  split at h
  · omega
  · omega

theorem post_send_loop_negative (abi : Abi) (hE : 0 < abi.ENOMEM) (mem : Nat → Nat)
    (buffer_size : Nat) (ioctl : Nat → send_answer) (fuel : Nat) (buf : send_buffer) (rc : Int)
    (done swr : List ibv_send_wr) (rounds : List notification) (res : post_send_result)
    (h : post_send_loop abi mem buffer_size ioctl fuel buf rc done swr rounds = Except.ok res)
    (hrc0 : 0 ≤ rc) (hprev : ∀ i, i < rounds.length → 0 ≤ (ioctl i).rc) (hneg : res.rc < 0) :
    (res.rc = -(abi.ENOMEM : Int) ∧
      (∃ y tl, res.bad = y :: tl ∧ buffer_size < abi.sizeof_snd_hdr + wqe_size abi y) ∧
      (∃ x ∈ swr, buffer_size < abi.sizeof_snd_hdr + wqe_size abi x) ∧
      (∀ i, i < res.rounds.length → 0 ≤ (ioctl i).rc)) ∨
    (res.rounds ≠ [] ∧ (ioctl (res.rounds.length - 1)).rc < 0 ∧
      res.rc = errno_rc (ioctl (res.rounds.length - 1)).rc
        (ioctl (res.rounds.length - 1)).errno) := by
  induction fuel generalizing buf rc done swr rounds with
  | zero =>
    cases swr with
    | nil =>
      simp only [post_send_loop, Except.ok.injEq] at h
      subst h
      simp only at hneg
      omega
    | cons s next => simp [post_send_loop] at h
  | succ f ih =>
    cases swr with
    | nil =>
      simp only [post_send_loop, Except.ok.injEq] at h
      subst h
      simp only at hneg
      omega
    | cons s next =>
      obtain ⟨hp, hc, hr, hrcm⟩ := send_round_ok abi hE mem buffer_size buf rc (s :: next)
      simp only [post_send_loop] at h
      generalize hrr : send_round abi mem buffer_size buf rc (s :: next) = r at h hp hc hr hrcm
      by_cases h0 : r.wqe_counter = 0
      · rw [if_pos h0] at h
        simp only [Except.ok.injEq] at h
        subst h
        left
        have hz : round_count abi buffer_size abi.sizeof_snd_hdr (s :: next) = 0 := by omega
        have hbig := round_count_zero abi buffer_size abi.sizeof_snd_hdr s next hz
        rw [hz] at hr hrcm
        simp only [List.drop_zero] at hr
        refine ⟨hrcm (by simp), ?_, ⟨s, List.mem_cons_self _ _, hbig⟩, hprev⟩
        obtain ⟨y, tl, hab, _, hrest⟩ := List.forall₂_cons_left_iff.mp hr
        have hsz := promoted_wqe_size abi hab
        exact ⟨y, tl, hrest, by omega⟩
      · rw [if_neg h0] at h
        by_cases hrc : 0 ≤ (ioctl rounds.length).rc
        · rw [if_pos hrc] at h
          have hprev1 : ∀ i, i < (rounds ++
              [(⟨{ r.buf with wqe_counter := r.wqe_counter }, done.length, r.packed⟩ :
                notification)]).length → 0 ≤ (ioctl i).rc := by
            intro i hi
            simp only [List.length_append, List.length_cons, List.length_nil] at hi
            by_cases hi2 : i < rounds.length
            · exact hprev i hi2
            · have : i = rounds.length := by omega
              rw [this]
              exact hrc
          rcases ih _ _ _ _ _ h hrc hprev1 with ⟨a1, a2, ⟨x, hx, hxb⟩, a4⟩ | hB
          · left
            obtain ⟨x0, hx0, hpr⟩ := forall₂_promoted_mem abi hr x hx
            have hsz := promoted_wqe_size abi hpr
            exact ⟨a1, a2, ⟨x0, List.mem_of_mem_drop hx0, by omega⟩, a4⟩
          · right
            exact hB
        · rw [if_neg hrc] at h
          cases hw : walk_next (ioctl rounds.length).wqe_counter (r.packed ++ r.rest) with
          | none => rw [hw] at h; simp at h
          | some bad =>
            rw [hw] at h
            simp only [Except.ok.injEq] at h
            subst h
            right
            refine ⟨by simp, ?_, ?_⟩
            · simp only [List.length_append, List.length_cons, List.length_nil,
                Nat.add_sub_cancel]
              omega
            · simp only [List.length_append, List.length_cons, List.length_nil,
                Nat.add_sub_cancel]

/-- C12 (amended): on the fast path `ntrdma_post_send` never runs out of rounds,
and whenever it returns a negative value one of two things happened.  Either the
encoder had no room for the request at the head of a round, in an empty batch:
the value is `-ENOMEM`, `*bad` is that request, the request does not fit in an
empty batch, the chain given by the caller holds a request that does not fit in
an empty batch, and every notification issued before succeeded.  Or the last
notification failed and the value stems from it.  So for a chain each request of
which fits in an empty batch every negative value stems from a failed
notification: a no-space result is then always resolved by a new round.  And
when the first request of the chain does not fit in an empty batch, the call
returns `-ENOMEM` with `*bad` at that request and without any notification. -/
theorem C12_no_space_surfaced_only_for_oversized_request (abi : Abi) (hE : 0 < abi.ENOMEM)
    (mem : Nat → Nat) (ibv_cmd_post_send : List ibv_send_wr → post_send_result)
    (qp : ntrdma_qp) (hfd : 0 ≤ qp.fd) (ioctl : Nat → send_answer)
    (chain : List ibv_send_wr) :
    ntrdma_post_send abi mem ibv_cmd_post_send qp ioctl chain ≠
      Except.error fault.out_of_fuel ∧
    (∀ res, ntrdma_post_send abi mem ibv_cmd_post_send qp ioctl chain = Except.ok res →
      res.rc < 0 →
      (res.rc = -(abi.ENOMEM : Int) ∧
        (∃ y tl, res.bad = y :: tl ∧ qp.buffer_size < abi.sizeof_snd_hdr + wqe_size abi y) ∧
        (∃ x ∈ chain, qp.buffer_size < abi.sizeof_snd_hdr + wqe_size abi x) ∧
        (∀ i, i < res.rounds.length → 0 ≤ (ioctl i).rc)) ∨
      (res.rounds ≠ [] ∧ (ioctl (res.rounds.length - 1)).rc < 0 ∧
        res.rc = errno_rc (ioctl (res.rounds.length - 1)).rc
          (ioctl (res.rounds.length - 1)).errno)) ∧
    ((∀ x ∈ chain, abi.sizeof_snd_hdr + wqe_size abi x ≤ qp.buffer_size) →
      ∀ res, ntrdma_post_send abi mem ibv_cmd_post_send qp ioctl chain = Except.ok res →
        res.rc < 0 →
        res.rounds ≠ [] ∧ (ioctl (res.rounds.length - 1)).rc < 0 ∧
          res.rc = errno_rc (ioctl (res.rounds.length - 1)).rc
            (ioctl (res.rounds.length - 1)).errno) ∧
    (∀ x tl, chain = x :: tl → qp.buffer_size < abi.sizeof_snd_hdr + wqe_size abi x →
      ∃ res, ntrdma_post_send abi mem ibv_cmd_post_send qp ioctl chain = Except.ok res ∧
        res.rc = -(abi.ENOMEM : Int) ∧ res.rounds = [] ∧
        ∃ y tl2, res.bad = y :: tl2 ∧ promoted abi x y ∧ res.bad.length = chain.length) := by
  have hun : ntrdma_post_send abi mem ibv_cmd_post_send qp ioctl chain =
      post_send_loop abi mem qp.buffer_size ioctl chain.length qp.buffer 0 [] chain [] := by
    unfold ntrdma_post_send post_send_fast
    rw [if_neg (by omega)]
  rw [hun]
  have hmain := fun res h hneg =>
    post_send_loop_negative abi hE mem qp.buffer_size ioctl chain.length qp.buffer 0 [] chain []
      res h (Int.le_refl 0) (fun i hi => absurd hi (by simp)) hneg
  refine ⟨(post_send_loop_chain abi mem qp.buffer_size ioctl chain.length qp.buffer 0 []
    chain [] (Nat.le_refl _)).1, hmain, ?_, ?_⟩
  · intro hall res h hneg
    rcases hmain res h hneg with ⟨_, _, ⟨x, hx, hxb⟩, _⟩ | hB
    · have := hall x hx
      omega
    · exact hB
  · intro x tl hch hbig
    subst hch
    obtain ⟨_, hc, hr, hrcm⟩ := send_round_ok abi hE mem qp.buffer_size qp.buffer 0 (x :: tl)
    have hz : round_count abi qp.buffer_size abi.sizeof_snd_hdr (x :: tl) = 0 := by
      simp only [round_count]
      rw [if_neg (by omega)]
    rw [hz] at hc hr hrcm
    simp only [List.drop_zero] at hr
    obtain ⟨y, tl2, hab, htl, hrest⟩ := List.forall₂_cons_left_iff.mp hr
    generalize hrr : send_round abi mem qp.buffer_size qp.buffer 0 (x :: tl) = r
      at hc hr hrcm hrest
    refine ⟨⟨r.rc, r.rest, [] ++ (r.packed ++ r.rest), r.buf, []⟩, ?_, hrcm (by simp), rfl,
      y, tl2, hrest, hab, ?_⟩
    · simp only [List.length_cons, post_send_loop, hrr]
      rw [if_pos hc]
    · exact (List.Forall₂.length_eq hr).symm

/-- C12, at a concrete input: the chain of one 5000-byte inline write on a queue
pair with a page of 4096 bytes. -/
theorem C12_no_space_surfaced_only_for_oversized_request_witness :
    0 < sample_abi.ENOMEM ∧ 0 ≤ page_qp.fd ∧
    page_qp.buffer_size < sample_abi.sizeof_snd_hdr + wqe_size sample_abi huge_inline_write ∧
    ∃ res, ntrdma_post_send sample_abi sample_mem sample_cmd_post_send page_qp accept_all
        [huge_inline_write] = Except.ok res ∧
      res.rc = -(sample_abi.ENOMEM : Int) ∧ res.rounds = [] ∧
      ∃ y tl2, res.bad = y :: tl2 ∧ promoted sample_abi huge_inline_write y ∧
        res.bad.length = [huge_inline_write].length :=
  ⟨by decide, by decide, by decide,
    (C12_no_space_surfaced_only_for_oversized_request sample_abi (by decide) sample_mem
      sample_cmd_post_send page_qp (by decide) accept_all [huge_inline_write]).2.2.2
      huge_inline_write [] rfl (by decide)⟩

/-- C12, as stated, fails: in the chain of the 4-byte RDMA write followed by the
5000-byte inline write the first request fits (it takes 52 of the 4088 bytes
after the batch header), the one notification succeeds, and the call still
returns `-ENOMEM` (-12) with `*bad` at the second request, which heads the
second round. -/
theorem C12_no_space_in_later_round_counterexample :
    sample_abi.sizeof_snd_hdr + wqe_size sample_abi small_write ≤ page_qp.buffer_size ∧
    0 ≤ (accept_all 0).rc ∧
    (ntrdma_post_send sample_abi sample_mem sample_cmd_post_send page_qp accept_all
        [small_write, huge_inline_write]).toOption.map
      (fun r => (r.rc, r.bad.map ibv_send_wr.wr_id, r.rounds.map notification.first,
        r.rounds.map (fun n => n.packed.map ibv_send_wr.wr_id))) =
      some (-12, [huge_inline_write.wr_id], [0], [[small_write.wr_id]]) ∧
    -(sample_abi.ENOMEM : Int) = -12 := by
  decide

/-! ## Rounds of `ntrdma_poll_cq` -/

/-- C14: at the head of any iteration of the loop of `ntrdma_poll_cq` with
entries still wanted, if the notification succeeds and returns fewer records
than the poll header requested (zero included), the loop ends with this
iteration, however many iterations it might still run: one notification more
than before and no further one.  The count of records copied grows by the count
returned, and the output array is as before outside the records of this round,
which are the ones line 315 copies (none for a zero round). -/
theorem C14_short_round_stops_polling
    (abi : Abi) (ioctl : Nat → Int → poll_answer) (max_entries : Int) (fuel : Nat)
    (st : poll_state) (hnum : st.num_entries ≠ 0)
    (hok : 0 ≤ errno_rc (next_answer ioctl max_entries st).rc
      (next_answer ioctl max_entries st).errno)
    (hshort : ((next_answer ioctl max_entries st).wc_counter : Int) <
      next_req max_entries st) :
    ∃ st', poll_loop abi ioctl max_entries (fuel + 1) st = Except.ok st' ∧
      st'.rounds.length = st.rounds.length + 1 ∧
      st'.total = st.total + ((next_answer ioctl max_entries st).wc_counter : Int) ∧
      st'.num_entries =
        st.num_entries - ((next_answer ioctl max_entries st).wc_counter : Int) ∧
      (∀ i, i < st.total.toNat ∨
          st.total.toNat + (next_answer ioctl max_entries st).wc_counter ≤ i →
        st'.wc i = st.wc i) ∧
      (∀ i, st.total.toNat ≤ i →
          i < st.total.toNat + (next_answer ioctl max_entries st).wc_counter →
        st'.wc i =
          (next_answer ioctl max_entries st).wc (abi.sizeof_poll_hdr + abi.sizeof_wc * i)) ∧
      ((next_answer ioctl max_entries st).wc_counter = 0 → st'.wc = st.wc) := by
  unfold next_answer next_req at *
  unfold poll_loop
  rw [if_neg hnum]
  simp only
  generalize (if st.num_entries > max_entries then max_entries else st.num_entries) = req at *
  generalize ioctl st.rounds.length req = answer at *
  rw [if_neg (by omega)]
  by_cases hz : (answer.wc_counter : Int) = 0
  · rw [if_pos hz]
    have hz2 : answer.wc_counter = 0 := by omega
    refine ⟨_, rfl, by simp, by simp only; omega, by simp only; omega, fun i _ => rfl,
      fun i h1 h2 => ?_, fun _ => rfl⟩
    omega
  · rw [if_neg hz, if_pos hshort]
    refine ⟨_, rfl, by simp, rfl, rfl, fun i hi => ?_, fun i h1 h2 => ?_, fun h0 => ?_⟩
    · simp only [copy_wc]
      rw [if_neg (by omega)]
    · simp only [copy_wc]
      rw [if_pos ⟨h1, h2⟩]
    · omega


/-- C14, at a concrete input: ten entries wanted, 63 a round, and a counterpart
that returns two records: the loop ends after that one notification with two
records copied, though it could run 99 iterations more. -/
theorem C14_short_round_stops_polling_witness :
    ((next_answer drained_poll_ioctl 63
      ⟨0, 0, 10, fun _ => ⟨0, 0, 0⟩, scenario_cq.buffer, []⟩).wc_counter : Int) <
      next_req 63 ⟨0, 0, 10, fun _ => ⟨0, 0, 0⟩, scenario_cq.buffer, []⟩ ∧
    ∃ st, poll_loop scenario_abi drained_poll_ioctl 63 100
        ⟨0, 0, 10, fun _ => ⟨0, 0, 0⟩, scenario_cq.buffer, []⟩ = Except.ok st ∧
      st.rounds.length = 1 ∧ st.total = 2 ∧ st.num_entries = 8 := by
  obtain ⟨st, h1, h2, h3, h4, -⟩ := C14_short_round_stops_polling scenario_abi
    drained_poll_ioctl 63 99 ⟨0, 0, 10, fun _ => ⟨0, 0, 0⟩, scenario_cq.buffer, []⟩
    (by decide) (by decide) (by decide)
  exact ⟨by decide, st, h1, h2, h3, h4⟩

theorem errno_rc_of_nonneg (rc errno : Int) (h : 0 ≤ rc) : errno_rc rc errno = rc := by
  unfold errno_rc
  rw [if_neg (by omega)]

theorem ceil_div_step (r M : Nat) (hM : 1 ≤ M) (hr : M < r) :
    (r + M - 1) / M = (r - M + M - 1) / M + 1 := by
  have h : r + M - 1 = (r - M + M - 1) + M := by omega
  rw [h, Nat.add_div_right _ (by omega)]

theorem ceil_div_small (r M : Nat) (hr1 : 1 ≤ r) (hr : r ≤ M) : (r + M - 1) / M = 1 := by
  have h1 : r + M - 1 = (r - 1) + M := by omega
  rw [h1, Nat.add_div_right _ (by omega), Nat.div_eq_of_lt (by omega)]

theorem poll_loop_full (abi : Abi) (ioctl : Nat → Int → poll_answer) (M : Nat) (hM : 1 ≤ M)
    (hok : ∀ n req, 0 ≤ (ioctl n req).rc)
    (hfull : ∀ n req, 0 ≤ req → ((ioctl n req).wc_counter : Int) = req)
    (fuel : Nat) (st : poll_state) (r : Nat) (hr : st.num_entries = (r : Int))
    (hfuel : (r + M - 1) / M ≤ fuel) :
    ∃ st', poll_loop abi ioctl (M : Int) fuel st = Except.ok st' ∧
      st'.total = st.total + (r : Int) ∧ st'.num_entries = 0 ∧
      st'.rounds.map poll_round.req_entries =
        st.rounds.map poll_round.req_entries ++
          (List.range ((r + M - 1) / M)).map
            (fun (i : Nat) => min ((r : Int) - (i : Int) * (M : Int)) (M : Int)) := by
  induction fuel generalizing st r with
  | zero =>
    have hr0 : r = 0 := by
      by_contra h
      have : 1 ≤ (r + M - 1) / M := by
        rw [Nat.le_div_iff_mul_le (by omega)]
        omega
      omega
    subst hr0
    unfold poll_loop
    rw [if_pos (by simpa using hr)]
    refine ⟨st, rfl, by simp, by simpa using hr, ?_⟩
    have : (0 + M - 1) / M = 0 := Nat.div_eq_of_lt (by omega)
    rw [this]
    simp
  | succ f ih =>
    by_cases hr0 : r = 0
    · subst hr0
      unfold poll_loop
      rw [if_pos (by simpa using hr)]
      refine ⟨st, rfl, by simp, by simpa using hr, ?_⟩
      have : (0 + M - 1) / M = 0 := Nat.div_eq_of_lt (by omega)
      rw [this]
      simp
    · unfold poll_loop
      rw [if_neg (by omega)]
      simp only
      have hreq : (if st.num_entries > (M : Int) then (M : Int) else st.num_entries) =
          min (r : Int) (M : Int) := by
        rw [hr]
        split <;> omega
      rw [hreq]
      have hreqpos : 0 ≤ min (r : Int) (M : Int) := by omega
      have ha := hfull st.rounds.length (min (r : Int) (M : Int)) hreqpos
      have hb := hok st.rounds.length (min (r : Int) (M : Int))
      generalize ioctl st.rounds.length (min (r : Int) (M : Int)) = answer at ha hb
      rw [errno_rc_of_nonneg _ _ hb, if_neg (by omega), if_neg (by omega), if_neg (by omega)]
      by_cases hbig : M < r
      · have hmin : min (r : Int) (M : Int) = (M : Int) := by omega
        obtain ⟨st', h1, h2, h3, h4⟩ := ih
          { rc := answer.rc
            total := st.total + (answer.wc_counter : Int)
            num_entries := st.num_entries - (answer.wc_counter : Int)
            wc := copy_wc abi answer.wc st.wc st.total.toNat answer.wc_counter
            buffer := ⟨answer.wc_counter, answer.wc⟩
            rounds := st.rounds ++
              [⟨min (r : Int) (M : Int), answer, answer.wc_counter,
                abi.sizeof_poll_hdr + abi.sizeof_wc * st.total.toNat,
                abi.sizeof_poll_hdr + abi.sizeof_wc * st.total.toNat +
                  abi.sizeof_wc * answer.wc_counter⟩] }
          (r - M) (by simp only; omega)
          (by have := ceil_div_step r M hM hbig; omega)
        refine ⟨st', h1, ?_, h3, ?_⟩
        · rw [h2]; simp only; omega
        · rw [h4, ceil_div_step r M hM hbig, List.range_succ_eq_map]
          simp only [List.map_append, List.map_cons, List.map_nil, List.append_assoc,
            List.singleton_append, List.map_map]
          congr 1
          congr 1
          · simp
          · apply List.map_congr_left
            intro i _
            simp only [Function.comp]
            push_cast
            have : ((r - M : Nat) : Int) = (r : Int) - (M : Int) := by omega
            rw [this]
            congr 1
            ring
      · have hmin : min (r : Int) (M : Int) = (r : Int) := by omega
        obtain ⟨st', h1, h2, h3, h4⟩ := ih
          { rc := answer.rc
            total := st.total + (answer.wc_counter : Int)
            num_entries := st.num_entries - (answer.wc_counter : Int)
            wc := copy_wc abi answer.wc st.wc st.total.toNat answer.wc_counter
            buffer := ⟨answer.wc_counter, answer.wc⟩
            rounds := st.rounds ++
              [⟨min (r : Int) (M : Int), answer, answer.wc_counter,
                abi.sizeof_poll_hdr + abi.sizeof_wc * st.total.toNat,
                abi.sizeof_poll_hdr + abi.sizeof_wc * st.total.toNat +
                  abi.sizeof_wc * answer.wc_counter⟩] }
          0 (by simp only; omega)
          (by
            have : (0 + M - 1) / M = 0 := Nat.div_eq_of_lt (by omega)
            omega)
        refine ⟨st', h1, ?_, h3, ?_⟩
        · rw [h2]; simp only; omega
        · have h0 : (0 + M - 1) / M = 0 := Nat.div_eq_of_lt (by omega)
          rw [h4, h0, ceil_div_small r M (by omega) (by omega)]
          simp [List.range_succ]


theorem poll_cq_fast (abi : Abi) (ibv_cmd_poll_cq : Int → (Nat → ibv_wc) → Int × (Nat → ibv_wc))
    (cq : ntrdma_cq) (ioctl : Nat → Int → poll_answer) (fuel : Nat) (num_entries : Int)
    (wc : Nat → ibv_wc) (hN : 1 ≤ num_entries) (hfd : 0 ≤ cq.fd) (st : poll_state)
    (h : poll_loop abi ioctl
      (((cq.buffer_size - abi.sizeof_poll_hdr) / abi.sizeof_wc : Nat) : Int) fuel
      ⟨0, 0, num_entries, wc, cq.buffer, []⟩ = Except.ok st) :
    ntrdma_poll_cq abi ibv_cmd_poll_cq cq ioctl fuel num_entries wc =
      Except.ok ⟨if st.total ≠ 0 then st.total else st.rc, st.wc, st.total, st.buffer,
        st.rounds, 0⟩ := by
  unfold ntrdma_poll_cq
  rw [if_neg (by omega), if_neg (by omega), if_neg (by omega)]
  simp only
  rw [h]

/-- C13: on the fast path with `max_entries = M >= 1`, a counterpart that never
fails and returns in every round exactly the count requested, and `N >= 1`, the
call returns `N`, after exactly `ceil(N / M)` notifications, and the i-th
notification (from 0) finds `min(N - i * M, M)` in the poll header. -/
theorem C13_full_rounds_count_and_requests
    (abi : Abi) (ibv_cmd_poll_cq : Int → (Nat → ibv_wc) → Int × (Nat → ibv_wc))
    (cq : ntrdma_cq) (ioctl : Nat → Int → poll_answer) (fuel : Nat) (num_entries : Int)
    (wc : Nat → ibv_wc) (hfd : 0 ≤ cq.fd) (hN : 1 ≤ num_entries)
    (hM : 1 ≤ (cq.buffer_size - abi.sizeof_poll_hdr) / abi.sizeof_wc)
    (hok : ∀ n req, 0 ≤ (ioctl n req).rc)
    (hfull : ∀ n req, 0 ≤ req → ((ioctl n req).wc_counter : Int) = req)
    (hfuel : (num_entries.toNat + (cq.buffer_size - abi.sizeof_poll_hdr) / abi.sizeof_wc - 1) /
      ((cq.buffer_size - abi.sizeof_poll_hdr) / abi.sizeof_wc) ≤ fuel) :
    ∃ res, ntrdma_poll_cq abi ibv_cmd_poll_cq cq ioctl fuel num_entries wc = Except.ok res ∧
      res.rc = num_entries ∧ res.total = num_entries ∧
      res.rounds.length =
        (num_entries.toNat + (cq.buffer_size - abi.sizeof_poll_hdr) / abi.sizeof_wc - 1) /
          ((cq.buffer_size - abi.sizeof_poll_hdr) / abi.sizeof_wc) ∧
      res.rounds.map poll_round.req_entries =
        (List.range
          ((num_entries.toNat + (cq.buffer_size - abi.sizeof_poll_hdr) / abi.sizeof_wc - 1) /
            ((cq.buffer_size - abi.sizeof_poll_hdr) / abi.sizeof_wc))).map
          (fun (i : Nat) => min (num_entries - (i : Int) *
            (((cq.buffer_size - abi.sizeof_poll_hdr) / abi.sizeof_wc : Nat) : Int))
            (((cq.buffer_size - abi.sizeof_poll_hdr) / abi.sizeof_wc : Nat) : Int)) := by
  have hfast := fun st h =>
    poll_cq_fast abi ibv_cmd_poll_cq cq ioctl fuel num_entries wc hN hfd st h
  generalize (cq.buffer_size - abi.sizeof_poll_hdr) / abi.sizeof_wc = M at *
  obtain ⟨st, h1, h2, h3, h4⟩ := poll_loop_full abi ioctl M hM hok hfull fuel
    ⟨0, 0, num_entries, wc, cq.buffer, []⟩ num_entries.toNat (by simp only; omega) hfuel
  have hcast : ((num_entries.toNat : Nat) : Int) = num_entries := by omega
  simp only [Int.zero_add, List.map_nil, List.nil_append, hcast] at h2 h4
  have hlen : st.rounds.length = (num_entries.toNat + M - 1) / M := by
    have := congrArg List.length h4
    simpa using this
  refine ⟨_, hfast st h1, ?_, h2, hlen, h4⟩
  simp only
  rw [if_pos (by omega), h2]

/-- C13, at a concrete input: page 4096, header 64, record 64 give `M = 63`;
`N = 100` takes two rounds requesting 63 then 37, and the call returns 100. -/
theorem C13_full_rounds_count_and_requests_witness :
    ((scenario_cq.buffer_size - scenario_abi.sizeof_poll_hdr) / scenario_abi.sizeof_wc = 63) ∧
    ∃ res, ntrdma_poll_cq scenario_abi sample_cmd_poll_cq scenario_cq scenario_poll_ioctl 2 100
        (fun _ => ⟨0, 0, 0⟩) = Except.ok res ∧
      res.rc = 100 ∧ res.rounds.length = 2 ∧
      res.rounds.map poll_round.req_entries = [63, 37] := by
  obtain ⟨res, h1, h2, -, h4, h5⟩ := C13_full_rounds_count_and_requests
    scenario_abi sample_cmd_poll_cq scenario_cq
    scenario_poll_ioctl 2 100 (fun _ => ⟨0, 0, 0⟩) (by decide) (by decide) (by decide)
    (fun _ _ => Int.le_refl 0) (fun _ req h => Int.toNat_of_nonneg h) (by decide)
  exact ⟨by decide, res, h1, h2, h4, h5⟩

/-- C18 fails in the code: with a page of 4096 bytes, a 64-byte poll header
and 64-byte records (63 records a round) and `num_entries = 100`, both rounds
return the count requested (63 of 63, then 37 of 37); the copy of the first
round reads bytes 64 to 4096 of the page, the copy of the second round reads
bytes 4096 to 6464, wholly outside the 4096-byte page. -/
theorem C18_second_round_reads_past_page :
    (ntrdma_poll_cq scenario_abi sample_cmd_poll_cq scenario_cq scenario_poll_ioctl 2 100
        (fun _ => ⟨0, 0, 0⟩)).toOption.map
      (fun r => (r.rounds.map poll_round.req_entries, r.rounds.map poll_round.copied,
        r.rounds.map poll_round.src, r.rounds.map poll_round.src_end)) =
      some ([63, 37], [63, 37], [64, 4096], [4096, 6464]) ∧
    scenario_abi.sizeof_poll_hdr = 64 ∧ scenario_cq.buffer_size = 4096 := by
  decide


theorem ceil_div_pos (r M : Nat) (hM : 1 ≤ M) (hr : 1 ≤ r) : 1 ≤ (r + M - 1) / M := by
  rw [Nat.le_div_iff_mul_le (by omega)]
  omega

theorem sum_take_le (l : List Nat) (k : Nat) : (l.take k).sum ≤ l.sum := by
  induction l generalizing k with
  | nil => simp
  | cons a t ih =>
    cases k with
    | zero => simp
    | succ n =>
      simp only [List.take_succ_cons, List.sum_cons]
      have := ih n
      omega

theorem poll_loop_bounds (abi : Abi) (ioctl : Nat → Int → poll_answer) (M : Nat)
    (hresp : ∀ n req, 0 ≤ req → ((ioctl n req).wc_counter : Int) ≤ req)
    (fuel : Nat) (st st' : poll_state)
    (h : poll_loop abi ioctl (M : Int) fuel st = Except.ok st')
    (hn : 0 ≤ st.num_entries) (ht : 0 ≤ st.total) :
    st'.total + st'.num_entries = st.total + st.num_entries ∧ 0 ≤ st'.num_entries ∧
    st.total ≤ st'.total ∧
    (∀ i, i < st.total.toNat ∨ (st.total + st.num_entries).toNat ≤ i → st'.wc i = st.wc i) ∧
    (1 ≤ M → st'.rounds.length ≤ st.rounds.length + (st.num_entries.toNat + M - 1) / M) := by
  induction fuel generalizing st st' with
  | zero =>
    unfold poll_loop at h
    by_cases h0 : st.num_entries = 0
    · rw [if_pos h0] at h
      simp only [Except.ok.injEq] at h
      subst h
      exact ⟨rfl, hn, Int.le_refl _, fun _ _ => rfl, fun _ => Nat.le_add_right _ _⟩
    · rw [if_neg h0] at h
      simp at h
  | succ f ih =>
    unfold poll_loop at h
    by_cases h0 : st.num_entries = 0
    · rw [if_pos h0] at h
      simp only [Except.ok.injEq] at h
      subst h
      exact ⟨rfl, hn, Int.le_refl _, fun _ _ => rfl, fun _ => Nat.le_add_right _ _⟩
    · rw [if_neg h0] at h
      simp only at h
      have hreq : (if st.num_entries > (M : Int) then (M : Int) else st.num_entries) =
          min st.num_entries (M : Int) := by
        split <;> omega
      rw [hreq] at h
      have hr := hresp st.rounds.length (min st.num_entries (M : Int)) (by omega)
      generalize ioctl st.rounds.length (min st.num_entries (M : Int)) = answer at h hr
      have hK : 1 ≤ M → 1 ≤ (st.num_entries.toNat + M - 1) / M :=
        fun hM => ceil_div_pos _ _ hM (by omega)
      by_cases hrc : errno_rc answer.rc answer.errno < 0
      · rw [if_pos hrc] at h
        simp only [Except.ok.injEq] at h
        subst h
        refine ⟨rfl, hn, Int.le_refl _, fun _ _ => rfl, fun hM => ?_⟩
        have := hK hM
        simp only [List.length_append, List.length_cons, List.length_nil]
        omega
      · rw [if_neg hrc] at h
        by_cases hz : (answer.wc_counter : Int) = 0
        · rw [if_pos hz] at h
          simp only [Except.ok.injEq] at h
          subst h
          refine ⟨rfl, hn, Int.le_refl _, fun _ _ => rfl, fun hM => ?_⟩
          have := hK hM
          simp only [List.length_append, List.length_cons, List.length_nil]
          omega
        · rw [if_neg hz] at h
          have hcopy : ∀ i, i < st.total.toNat ∨ (st.total + st.num_entries).toNat ≤ i →
              copy_wc abi answer.wc st.wc st.total.toNat answer.wc_counter i = st.wc i := by
            intro i hi
            simp only [copy_wc]
            rw [if_neg (by omega)]
          by_cases hlt : (answer.wc_counter : Int) < min st.num_entries (M : Int)
          · rw [if_pos hlt] at h
            simp only [Except.ok.injEq] at h
            subst h
            refine ⟨by simp only; omega, by simp only; omega, by simp only; omega, hcopy,
              fun hM => ?_⟩
            have := hK hM
            simp only [List.length_append, List.length_cons, List.length_nil]
            omega
          · rw [if_neg hlt] at h
            obtain ⟨h1, h2, h3, h4, h5⟩ := ih _ _ h (by simp only; omega) (by simp only; omega)
            simp only at h1 h2 h3 h4 h5
            refine ⟨by omega, h2, by omega, fun i hi => ?_, fun hM => ?_⟩
            · rw [h4 i (by omega)]
              exact hcopy i hi
            · have h6 := h5 hM
              simp only [List.length_append, List.length_cons, List.length_nil] at h6
              have hc : answer.wc_counter = (min st.num_entries (M : Int)).toNat := by omega
              by_cases hbig : (M : Int) < st.num_entries
              · have hstep := ceil_div_step st.num_entries.toNat M hM (by omega)
                have he : (st.num_entries - (answer.wc_counter : Int)).toNat =
                    st.num_entries.toNat - M := by omega
                rw [he] at h6
                omega
              · have he : (st.num_entries - (answer.wc_counter : Int)).toNat = 0 := by omega
                rw [he] at h6
                have h0' : (0 + M - 1) / M = 0 := Nat.div_eq_of_lt (by omega)
                rw [h0'] at h6
                have := hK hM
                omega

/-- C20: on the fast path, with `N >= 1` and a counterpart that returns in
every round at most the count requested, the loop of `ntrdma_poll_cq` ends
within `N` iterations and the call returns; at the end `total + num_entries = N`
with both non-negative, so `total <= N`; `total` is the sum of the counts copied
and after every round the sum so far is at most `N`; the output array is as it
was from index `N` on; and with `max_entries >= 1` the call issues at most
`ceil(N / max_entries)` notifications. -/
theorem C20_total_bounded_and_terminates
    (abi : Abi) (ibv_cmd_poll_cq : Int → (Nat → ibv_wc) → Int × (Nat → ibv_wc))
    (cq : ntrdma_cq) (ioctl : Nat → Int → poll_answer) (fuel : Nat) (num_entries : Int)
    (wc : Nat → ibv_wc) (hfd : 0 ≤ cq.fd) (hN : 1 ≤ num_entries)
    (hresp : ∀ n req, 0 ≤ req → ((ioctl n req).wc_counter : Int) ≤ req)
    (hfuel : num_entries.toNat ≤ fuel) :
    ∃ st, poll_loop abi ioctl
        (((cq.buffer_size - abi.sizeof_poll_hdr) / abi.sizeof_wc : Nat) : Int) fuel
        ⟨0, 0, num_entries, wc, cq.buffer, []⟩ = Except.ok st ∧
      ntrdma_poll_cq abi ibv_cmd_poll_cq cq ioctl fuel num_entries wc =
        Except.ok ⟨if st.total ≠ 0 then st.total else st.rc, st.wc, st.total, st.buffer,
          st.rounds, 0⟩ ∧
      st.total + st.num_entries = num_entries ∧ 0 ≤ st.num_entries ∧ 0 ≤ st.total ∧
      st.total ≤ num_entries ∧
      st.total = (((st.rounds.map poll_round.copied).sum : Nat) : Int) ∧
      (∀ k, ((((st.rounds.take k).map poll_round.copied).sum : Nat) : Int) ≤ num_entries) ∧
      (∀ i, num_entries.toNat ≤ i → st.wc i = wc i) ∧
      (1 ≤ (cq.buffer_size - abi.sizeof_poll_hdr) / abi.sizeof_wc →
        st.rounds.length ≤
          (num_entries.toNat + (cq.buffer_size - abi.sizeof_poll_hdr) / abi.sizeof_wc - 1) /
            ((cq.buffer_size - abi.sizeof_poll_hdr) / abi.sizeof_wc)) := by
  have hfast := fun st h =>
    poll_cq_fast abi ibv_cmd_poll_cq cq ioctl fuel num_entries wc hN hfd st h
  generalize (cq.buffer_size - abi.sizeof_poll_hdr) / abi.sizeof_wc = M at *
  obtain ⟨st, hst⟩ := poll_loop_terminates abi ioctl (M : Int) (Int.ofNat_nonneg _) hresp fuel
    ⟨0, 0, num_entries, wc, cq.buffer, []⟩ (by simp only; omega) hfuel
  obtain ⟨h1, h2, h3, h4, h5⟩ := poll_loop_bounds abi ioctl M hresp fuel _ st hst
    (by simp only; omega) (by simp only; omega)
  obtain ⟨⟨-, hsum, -⟩, -, -⟩ := poll_loop_inv abi ioctl _ fuel _ st hst
    ⟨by simp, by simp, by simp⟩
  simp only [Int.zero_add, List.length_nil, Nat.zero_add] at h1 h3 h4 h5
  refine ⟨st, hst, hfast st hst, h1, h2, h3, by omega, hsum, fun k => ?_, fun i hi => ?_, h5⟩
  · have := sum_take_le (st.rounds.map poll_round.copied) k
    rw [← List.map_take] at this
    omega
  · exact h4 i (Or.inr hi)

/-- C20, at a concrete input: `N = 100` with 63 records a round. -/
theorem C20_total_bounded_and_terminates_witness :
    0 ≤ scenario_cq.fd ∧ (1 : Int) ≤ 100 ∧
    ∃ st, poll_loop scenario_abi scenario_poll_ioctl
        (((scenario_cq.buffer_size - scenario_abi.sizeof_poll_hdr) / scenario_abi.sizeof_wc :
          Nat) : Int) 100 ⟨0, 0, 100, fun _ => ⟨0, 0, 0⟩, scenario_cq.buffer, []⟩ =
        Except.ok st ∧
      st.total + st.num_entries = 100 ∧ st.total ≤ 100 ∧ st.rounds.length ≤ 2 := by
  obtain ⟨st, h1, -, h3, -, -, h6, -, -, -, h10⟩ := C20_total_bounded_and_terminates
    scenario_abi sample_cmd_poll_cq
    scenario_cq scenario_poll_ioctl 100 100 (fun _ => ⟨0, 0, 0⟩) (by decide) (by decide)
    (fun _ req h => Int.le_of_eq (Int.toNat_of_nonneg h)) (by decide)
  exact ⟨by decide, by decide, st, h1, h3, h6, h10 (by decide)⟩

/-! ## Argument check of `ntrdma_poll_cq`, promotion and failure of the encoder -/

/-- C16: for an RDMA write of exactly one segment of length `L <= 8`, whatever
its `send_flags`, with at least `sizeof(struct ntrdma_send_wqe) + L` bytes
available, the encoder returns `sizeof(struct ntrdma_send_wqe) + L`, the header
written has the inline flag set and is of the inline layout, its
`inline_len` is `L`, and the tail holds the `L` bytes of the segment. -/
theorem C16_small_write_is_inlined (abi : Abi) (hI : abi.IBV_SEND_INLINE ≠ 0) (mem : Nat → Nat)
    (buf : send_buffer) (wqe : Nat) (swr : ibv_send_wr) (sg : ibv_sge) (a : Int)
    (hop : swr.opcode = abi.IBV_WR_RDMA_WRITE) (hsg : swr.sg_list = [sg])
    (hL : sg.length ≤ 8) (ha : ((abi.sizeof_wqe + sg.length : Nat) : Int) ≤ a) :
    (make_ntrdma_send_wqe abi mem buf wqe swr a).rc =
      ((abi.sizeof_wqe + sg.length : Nat) : Int) ∧
    wqe_inline_flag abi ((make_ntrdma_send_wqe abi mem buf wqe swr a).buf.wqe wqe) = true ∧
    wqe_is_inline abi ((make_ntrdma_send_wqe abi mem buf wqe swr a).buf.wqe wqe) = true ∧
    ((make_ntrdma_send_wqe abi mem buf wqe swr a).buf.wqe wqe).sg_count_inline_len =
      sg.length ∧
    read_bytes (make_ntrdma_send_wqe abi mem buf wqe swr a).buf.byte (wqe + abi.sizeof_wqe)
      sg.length = (List.range sg.length).map (fun i => mem (sg.addr + i)) := by
  have hfl : flagged_inline abi swr := by
    right
    simp [single_small_segment, hsg, hL]
  have hi : is_inline abi (auto_inline abi swr) = true :=
    (is_inline_auto_inline abi hI swr).mpr ⟨hop, hfl⟩
  have hsum : sum_length swr.sg_list = sg.length := by simp [hsg, sum_length]
  have hw : wqe_size abi swr = abi.sizeof_wqe + sg.length := by
    unfold wqe_size tail_size
    rw [if_pos hi, hsum]
  have hfit : (wqe_size abi swr : Int) ≤ a := by rw [hw]; exact ha
  obtain ⟨h1, h2, h3⟩ := make_ok_inline_content abi mem buf wqe swr a hfit hi
  have hd := make_ok_discriminant abi mem buf wqe swr a hfit
  rw [hi] at hd
  rw [hsum] at h1 h2 h3
  refine ⟨h1, ?_, hd, h2, ?_⟩
  · unfold wqe_is_inline at hd
    unfold wqe_inline_flag
    simp only [Bool.and_eq_true] at hd
    exact hd.2
  · rw [h3, hsg]
    simp [payload]

/-- C16, at a concrete input: the RDMA write of one 4-byte segment, inline flag
not set by the caller, is encoded with `inline_len = 4` in 52 bytes. -/
theorem C16_small_write_is_inlined_witness :
    (make_ntrdma_send_wqe sample_abi sample_mem zero_buffer 8 small_write 4088).rc = 52 ∧
    small_write.send_flags &&& sample_abi.IBV_SEND_INLINE = 0 ∧
    wqe_inline_flag sample_abi
      ((make_ntrdma_send_wqe sample_abi sample_mem zero_buffer 8 small_write 4088).buf.wqe 8) =
        true ∧
    ((make_ntrdma_send_wqe sample_abi sample_mem zero_buffer 8 small_write 4088).buf.wqe
      8).sg_count_inline_len = 4 := by
  obtain ⟨h1, h2, -, h4, -⟩ := C16_small_write_is_inlined
    sample_abi (by decide) sample_mem zero_buffer 8
    small_write ⟨1000, 4, 5⟩ 4088 (by decide) (by decide) (by decide) (by decide)
  exact ⟨h1, by decide, h2, h4⟩

/-- C17: whenever the encoder returns `-ENOMEM` the scratch buffer is as it
was; every negative value it returns is `-ENOMEM`; and each of the three causes
(no room for the header; inline layout and no room for the summed segment
lengths; list layout and no room for the descriptors) makes it return `-ENOMEM`
with the buffer as it was. -/
theorem C17_failure_leaves_buffer_unchanged
    (abi : Abi) (hE : 0 < abi.ENOMEM) (mem : Nat → Nat) (buf : send_buffer)
    (wqe : Nat) (swr : ibv_send_wr) (a : Int) :
    ((make_ntrdma_send_wqe abi mem buf wqe swr a).rc = -(abi.ENOMEM : Int) →
      (make_ntrdma_send_wqe abi mem buf wqe swr a).buf = buf) ∧
    ((make_ntrdma_send_wqe abi mem buf wqe swr a).rc < 0 →
      (make_ntrdma_send_wqe abi mem buf wqe swr a).rc = -(abi.ENOMEM : Int)) ∧
    (a < (abi.sizeof_wqe : Int) →
      (make_ntrdma_send_wqe abi mem buf wqe swr a).rc = -(abi.ENOMEM : Int) ∧
      (make_ntrdma_send_wqe abi mem buf wqe swr a).buf = buf) ∧
    (is_inline abi (auto_inline abi swr) = true →
      a - (abi.sizeof_wqe : Int) < (sum_length swr.sg_list : Int) →
      (make_ntrdma_send_wqe abi mem buf wqe swr a).rc = -(abi.ENOMEM : Int) ∧
      (make_ntrdma_send_wqe abi mem buf wqe swr a).buf = buf) ∧
    (is_inline abi (auto_inline abi swr) = false →
      a - (abi.sizeof_wqe : Int) < ((swr.num_sge * abi.sizeof_sge : Nat) : Int) →
      (make_ntrdma_send_wqe abi mem buf wqe swr a).rc = -(abi.ENOMEM : Int) ∧
      (make_ntrdma_send_wqe abi mem buf wqe swr a).buf = buf) := by
  have hfail : a < (wqe_size abi swr : Int) →
      (make_ntrdma_send_wqe abi mem buf wqe swr a).rc = -(abi.ENOMEM : Int) ∧
      (make_ntrdma_send_wqe abi mem buf wqe swr a).buf = buf := by
    intro h
    rw [make_fail abi mem buf wqe swr a h]
    exact ⟨rfl, rfl⟩
  have hneg : (make_ntrdma_send_wqe abi mem buf wqe swr a).rc < 0 →
      a < (wqe_size abi swr : Int) := by
    intro h
    by_contra hn
    have := (make_rc_nonneg_iff abi hE mem buf wqe swr a).mpr (by omega)
    omega
  refine ⟨fun h => ?_, fun h => ?_, fun h => ?_, fun hi h => ?_, fun hi h => ?_⟩
  · exact (hfail (hneg (by omega))).2
  · exact (hfail (hneg h)).1
  · apply hfail
    unfold wqe_size
    omega
  · apply hfail
    unfold wqe_size tail_size
    rw [if_pos hi]
    omega
  · apply hfail
    unfold wqe_size tail_size
    rw [hi]
    simp only [Bool.false_eq_true, if_false]
    omega

/-- C17, at a concrete input: the inline write that does not fit in 64 bytes. -/
theorem C17_failure_leaves_buffer_unchanged_witness :
    0 < sample_abi.ENOMEM ∧
    (make_ntrdma_send_wqe sample_abi sample_mem zero_buffer 8 big_inline_write 64).rc =
      -(sample_abi.ENOMEM : Int) ∧
    (make_ntrdma_send_wqe sample_abi sample_mem zero_buffer 8 big_inline_write 64).buf =
      zero_buffer :=
  ⟨by decide, by decide,
    (C17_failure_leaves_buffer_unchanged sample_abi (by decide) sample_mem zero_buffer 8
      big_inline_write 64).1 (by decide)⟩

/-- C15: for `num_entries <= 0`, whatever the notification handle,
`ntrdma_poll_cq` returns without a notification and without a call of
`ibv_cmd_poll_cq`, leaves the scratch buffer and the output array as they were,
and returns 0 for `num_entries = 0` and `-EINVAL` for `num_entries < 0`. -/
theorem C15_nonpositive_count_does_nothing
    (abi : Abi) (ibv_cmd_poll_cq : Int → (Nat → ibv_wc) → Int × (Nat → ibv_wc))
    (cq : ntrdma_cq) (ioctl : Nat → Int → poll_answer) (fuel : Nat) (num_entries : Int)
    (wc : Nat → ibv_wc) (hN : num_entries ≤ 0) :
    ∃ res, ntrdma_poll_cq abi ibv_cmd_poll_cq cq ioctl fuel num_entries wc = Except.ok res ∧
      res.rounds = [] ∧ res.cmd_calls = 0 ∧ res.buffer = cq.buffer ∧ res.wc = wc ∧
      res.total = 0 ∧
      (num_entries = 0 → res.rc = 0) ∧
      (num_entries < 0 → res.rc = -(abi.EINVAL : Int)) := by
  unfold ntrdma_poll_cq
  by_cases h : num_entries < 0
  · rw [if_pos h]
    exact ⟨_, rfl, rfl, rfl, rfl, rfl, rfl, fun h0 => by omega, fun _ => rfl⟩
  · rw [if_neg h, if_pos (by omega)]
    exact ⟨_, rfl, rfl, rfl, rfl, rfl, rfl, fun _ => rfl, fun h0 => absurd h0 h⟩

/-- C15, at a concrete input: `num_entries = -3` returns -22 (`-EINVAL`). -/
theorem C15_nonpositive_count_does_nothing_witness :
    (-3 : Int) ≤ 0 ∧
    ∃ res, ntrdma_poll_cq sample_abi sample_cmd_poll_cq sample_cq sample_poll_ioctl 10 (-3)
        (fun _ => ⟨0, 0, 0⟩) = Except.ok res ∧ res.rounds = [] ∧ res.cmd_calls = 0 ∧
      res.rc = -22 := by
  obtain ⟨res, h1, h2, h3, -, -, -, -, h8⟩ := C15_nonpositive_count_does_nothing
    sample_abi sample_cmd_poll_cq sample_cq
    sample_poll_ioctl 10 (-3) (fun _ => ⟨0, 0, 0⟩) (by decide)
  exact ⟨by decide, res, h1, h2, h3, h8 (by decide)⟩

end Ntrdma
